import Mathlib

/-!
HWTest: the websocket broadcast subsystem.

A shallow embedding of `internal/ws/hub.go` and `internal/ws/client.go` and of
what the router sets up around them.

* A `*Client` pointer is a natural number (`ClientId`); the `send` channel that
  the pointer leads to lives in a heap `send : ClientId → Chan`.
* A Go channel is its buffer, its capacity and its closed flag.  `close` on a
  closed channel and a send on a closed channel crash the process; the loop
  functions return `none` in that case.
* `Hub.run` is a loop around one `select`; `Hub.step` is one iteration of it,
  for the event that the `select` received.  The keys of `h.clients` are kept
  in a list and a broadcast visits them in list order; Go leaves the order
  open, and `broadcastLoop_perm` shows that it does not matter.
* `Manager.Get` is given twice: as the function between `Lock` and `Unlock`,
  and statement by statement for callers that run concurrently (`Conc.step`).
* `WritePump` and `ReadPump` are given by one iteration of their loops; the
  transport, the ticker and the clock are inputs.
* `json.Marshal` follows the documentation of Go's `encoding/json`: members in
  declaration order, strings coerced to valid UTF-8 and HTML-escaped.
* The origin check of `internal/controllers/ws_controller.go` with the
  allow-list of `internal/routes/routes.go`.  `SetupRouter` passes its list of
  origins to `cors.New` of gin-contrib/cors, which panics on an origin without
  a schema; `SetupRouter` returns `none` in that case.
* The rate limiter of `internal/middleware/ratelimit.go`; times and durations
  count nanoseconds.

The definitions come first, the lemmas and theorems after them.
-/

namespace HWTest

/-- A byte of a `[]byte` or of a Go `string`. -/
abbrev Byte := Fin 256

/-- An encoded message, the `[]byte` that travels through the channels. -/
abbrev Msg := List Byte

/-- The address of a `Client` (`*Client`). -/
abbrev ClientId := Nat

/-! ## Go channels -/

/-- A buffered channel `chan []byte`. -/
structure Chan where
  buf : List Msg
  cap : Nat
  closed : Bool
deriving DecidableEq, Repr

/-- The channel made in `NewClient`: `make(chan []byte, 256)`. -/
def NewClient.send : Chan := { buf := [], cap := 256, closed := false }

/-- The channel with one more value at the tail of its buffer. -/
def Chan.push (ch : Chan) (m : Msg) : Chan :=
  { ch with buf := ch.buf ++ [m] }

/-- The channel with its closed flag set; buffered values stay. -/
def Chan.shut (ch : Chan) : Chan :=
  { ch with closed := true }

/-- Go's `close(ch)`; closing a closed channel crashes (`none`). -/
def Chan.close (ch : Chan) : Option Chan :=
  if ch.closed then none else some ch.shut

/-- Outcome of `select { case ch <- m: ... default: ... }`. -/
inductive TrySend where
  | sent (ch : Chan)
  | full
  | crash
deriving DecidableEq, Repr

/-- The non-blocking send of `Hub.run`: on a closed channel the send case
crashes, with room in the buffer the value is appended, otherwise the
`default` case is taken. -/
def Chan.trySend (ch : Chan) (m : Msg) : TrySend :=
  if ch.closed then .crash
  else if ch.buf.length < ch.cap then .sent (ch.push m)
  else .full

/-- The receive `<-ch` of `WritePump`, as far as the channel is concerned: a
buffered value is taken from the head; on an empty channel nothing changes
(closed: the receive reports `ok = false`; open: the receiver waits). -/
def Chan.recv (ch : Chan) : Chan :=
  { ch with buf := ch.buf.tail }

/-! ## The hub -/

/-- What the hub loop did to a client's channel. -/
inductive Op where
  | enq (c : ClientId) (m : Msg)
  | drop (c : ClientId) (m : Msg)
  | close (c : ClientId)
deriving DecidableEq, Repr

/-- The hub with the heap of client channels it reaches.  `clients` lists the
keys of `map[*Client]bool` (a map has no key twice); `ops` is a record of the
channel operations the loop has performed, which no code path reads. -/
structure HubState where
  channelID : Nat
  clients : List ClientId
  nodup : clients.Nodup
  send : ClientId → Chan
  ops : List Op

/-- The three channels `Hub.run` selects on. -/
inductive Event where
  | register (c : ClientId)
  | unregister (c : ClientId)
  | broadcast (m : Msg)
deriving DecidableEq, Repr

/-- Heap update at one client. -/
def setSend (f : ClientId → Chan) (c : ClientId) (ch : Chan) : ClientId → Chan :=
  fun d => if d = c then ch else f d

/-- The hub that `newHub(channelID)` makes, over a heap of client channels. -/
def newHub (channelID : Nat) (send : ClientId → Chan) : HubState :=
  { channelID := channelID, clients := [], nodup := List.nodup_nil, send := send, ops := [] }

/-- The statement `h.clients[client] = true`. -/
def HubState.insertClient (s : HubState) (c : ClientId) : HubState :=
  { s with clients := s.clients.insert c, nodup := s.nodup.insert }

/-- The statement `delete(h.clients, client)`. -/
def HubState.deleteClient (s : HubState) (c : ClientId) : HubState :=
  { s with clients := s.clients.filter (fun d => d != c), nodup := s.nodup.filter _ }

/-- The statement `close(client.send)`. -/
def HubState.closeSend (s : HubState) (c : ClientId) : Option HubState :=
  match (s.send c).close with
  | none => none
  | some ch => some { s with send := setSend s.send c ch, ops := s.ops ++ [Op.close c] }

/-- The body of `for client := range h.clients` in the broadcast case, over the
keys still to visit. -/
def broadcastLoop (m : Msg) : List ClientId → HubState → Option HubState
  | [], s => some s
  | c :: rest, s =>
    match (s.send c).trySend m with
    | .sent ch =>
      broadcastLoop m rest { s with send := setSend s.send c ch, ops := s.ops ++ [Op.enq c m] }
    | .full =>
      match ({ s.deleteClient c with ops := s.ops ++ [Op.drop c m] } : HubState).closeSend c with
      | none => none
      | some s' => broadcastLoop m rest s'
    | .crash => none

/-- One iteration of the `for { select { ... } }` of `Hub.run`. -/
def Hub.step (s : HubState) : Event → Option HubState
  | .register c => some (s.insertClient c)
  | .unregister c =>
    if c ∈ s.clients then (s.deleteClient c).closeSend c else some s
  | .broadcast m => broadcastLoop m s.clients s

/-- The loop of `Hub.run` over the events it receives, in arrival order. -/
def Hub.run : HubState → List Event → Option HubState
  | s, [] => some s
  | s, e :: es => (Hub.step s e).bind (fun s' => Hub.run s' es)

/-- What one broadcast does to the channel of a visited client. -/
def Chan.afterBroadcast (ch : Chan) (m : Msg) : Chan :=
  if ch.buf.length < ch.cap then ch.push m else ch.shut

/-- The operations one broadcast performs on a visited client. -/
def Chan.broadcastOps (ch : Chan) (c : ClientId) (m : Msg) : List Op :=
  if ch.buf.length < ch.cap then [Op.enq c m] else [Op.drop c m, Op.close c]


/-- The enqueue attempts among the operations of the loop, in order: the
client and the message of every send case that was tried. -/
def attempts : List Op → List (ClientId × Msg)
  | [] => []
  | .enq c m :: r => (c, m) :: attempts r
  | .drop c m :: r => (c, m) :: attempts r
  | .close _ :: r => attempts r

/-- The messages that were enqueued on the channel of client `c`, in order. -/
def enqTo (c : ClientId) : List Op → List Msg
  | [] => []
  | .enq d m :: r => if d = c then m :: enqTo c r else enqTo c r
  | .drop _ _ :: r => enqTo c r
  | .close _ :: r => enqTo c r

/-- The clients whose channel the loop closed, in order. -/
def closesOf : List Op → List ClientId
  | [] => []
  | .close c :: r => c :: closesOf r
  | .enq _ _ :: r => closesOf r
  | .drop _ _ :: r => closesOf r

/-- An event of the hub together with its clients: what `Hub.run` receives, or
a receive `<-c.send` by the `WritePump` of client `c`. -/
inductive SysEvent where
  | hub (e : Event)
  | recv (c : ClientId)
deriving DecidableEq, Repr

/-- One step of the hub loop or of one writer. -/
def Sys.step (s : HubState) : SysEvent → Option HubState
  | .hub e => Hub.step s e
  | .recv c => some { s with send := setSend s.send c (s.send c).recv }

/-- A run of the hub interleaved with its writers. -/
def Sys.run : HubState → List SysEvent → Option HubState
  | s, [] => some s
  | s, e :: es => (Sys.step s e).bind (fun s' => Sys.run s' es)

/-- The messages of the broadcast events among `es`, in order. -/
def broadcastsOf : List SysEvent → List Msg
  | [] => []
  | .hub (.broadcast m) :: r => m :: broadcastsOf r
  | .hub (.register _) :: r => broadcastsOf r
  | .hub (.unregister _) :: r => broadcastsOf r
  | .recv _ :: r => broadcastsOf r

/-- A hub for channel 7 with members 3, 2 and 1; the queue of client 2 is full. -/
def exampleHub : HubState :=
  { channelID := 7
    clients := [3, 2, 1]
    nodup := by decide
    send := fun c => if c = 2 then { buf := List.replicate 256 [], cap := 256, closed := false }
                     else NewClient.send
    ops := [] }

/-! ## The writer pump -/

/-- A frame handed to `conn.WriteMessage`. -/
inductive Frame where
  | text (m : Msg)
  | ping
  | close
deriving DecidableEq, Repr

/-- The case that the `select` of `WritePump` takes. -/
inductive Select where
  | recv
  | tick
deriving DecidableEq, Repr

/-- The writer of one client: its `send` channel, the frames it has handed to
`WriteMessage` so far, each with the success of that write, whether
`WritePump` has returned, and whether the deferred `c.conn.Close()` has run. -/
structure Writer where
  queue : Chan
  frames : List (Frame × Bool)
  returned : Bool
  connClosed : Bool
deriving DecidableEq, Repr

/-- A writer entering its loop on the channel `q`. -/
def Writer.start (q : Chan) : Writer :=
  { queue := q, frames := [], returned := false, connClosed := false }

/-- The `return` of `WritePump`: the deferred function closes the transport. -/
def Writer.ret (w : Writer) : Writer :=
  { w with returned := true, connClosed := true }

/-- One iteration of the `for { select { ... } }` of `WritePump`: `sel` is the
case the `select` takes and `ok` says whether the `WriteMessage` call of this
iteration succeeds.  A receive on an open empty channel is not ready, the
writer waits. -/
def WritePump.iter (w : Writer) (sel : Select) (ok : Bool) : Writer :=
  if w.returned then w
  else
    match sel with
    | .recv =>
      match w.queue.buf with
      | m :: _ =>
        let w' : Writer := { w with queue := w.queue.recv, frames := w.frames ++ [(Frame.text m, ok)] }
        if ok then w' else w'.ret
      | [] =>
        if w.queue.closed then
          ({ w with frames := w.frames ++ [(Frame.close, ok)] } : Writer).ret
        else w
    | .tick =>
      let w' : Writer := { w with frames := w.frames ++ [(Frame.ping, ok)] }
      if ok then w' else w'.ret

/-- The loop of `WritePump` along a schedule of `select` outcomes and write
results. -/
def WritePump : Writer → List (Select × Bool) → Writer
  | w, [] => w
  | w, (sel, ok) :: rest => WritePump (WritePump.iter w sel ok) rest

/-- The payloads of the text frames among `fs`, in order. -/
def textsOf : List (Frame × Bool) → List Msg
  | [] => []
  | (.text m, _) :: r => m :: textsOf r
  | (.ping, _) :: r => textsOf r
  | (.close, _) :: r => textsOf r

/-- The number of times the schedule takes the receive case. -/
def recvCount : List (Select × Bool) → Nat
  | [] => 0
  | (.recv, _) :: r => recvCount r + 1
  | (.tick, _) :: r => recvCount r

/-- The clients of the register events among `es`, in order. -/
def registersOf : List SysEvent → List ClientId
  | [] => []
  | .hub (.register c) :: r => c :: registersOf r
  | .hub (.unregister _) :: r => registersOf r
  | .hub (.broadcast _) :: r => registersOf r
  | .recv _ :: r => registersOf r

/-- The heap in which every client is as `NewClient` made it. -/
def freshHeap : ClientId → Chan := fun _ => NewClient.send

/-- Events up to the registration of client 2. -/
def examplePre : List SysEvent :=
  [.hub (.register 1), .hub (.broadcast [97])]

/-- Events after the registration of client 2. -/
def examplePost : List SysEvent :=
  [.hub (.broadcast [98]), .recv 2, .hub (.unregister 9), .hub (.broadcast [99]),
   .hub (.unregister 1), .hub (.broadcast [100])]

/-- Two registrations, four broadcasts, a receive and two unregistrations. -/
def exampleRun : List SysEvent :=
  examplePre ++ .hub (.register 2) :: examplePost

/-- The state of a fresh hub for channel 7 once client 2 has registered. -/
def exampleMid : HubState :=
  (Sys.run (newHub 7 freshHeap) (examplePre ++ [.hub (.register 2)])).getD (newHub 7 freshHeap)

/-- The state at the end of `exampleRun`. -/
def exampleEnd : HubState :=
  (Sys.run exampleMid examplePost).getD exampleMid

/-- The members have open queues, and so have the clients that `es` is still
going to register, none of which is a member or registered twice. -/
def Ready (s : HubState) (es : List SysEvent) : Prop :=
  (∀ c ∈ s.clients, (s.send c).closed = false) ∧
  (∀ c ∈ registersOf es, (s.send c).closed = false ∧ c ∉ s.clients) ∧
  (registersOf es).Nodup

/-! ## The registry -/

/-- The address of a `Hub` (`*Hub`). -/
abbrev HubPtr := Nat

/-- The `Manager` with the hubs it has allocated: `hubs` is the map
`map[uint]*Hub`, `heap` holds the hub behind every address handed out so far,
and `loops` lists, in start order, the hubs for which `go hub.run()` was
executed. -/
structure Manager where
  hubs : Nat → Option HubPtr
  heap : List HubState
  loops : List HubPtr

/-- The manager that `NewManager()` makes: an empty map; nothing allocated,
nothing running. -/
def NewManager : Manager :=
  { hubs := fun _ => none, heap := [], loops := [] }

/-- The method `Manager.Get(channelID)`, its body between `Lock` and `Unlock`:
the state after the call and the hub returned. -/
def Manager.Get (m : Manager) (channelID : Nat) : Manager × HubPtr :=
  match m.hubs channelID with
  | some hub => (m, hub)
  | none =>
    let hub := m.heap.length
    ({ hubs := fun k => if k = channelID then some hub else m.hubs k
       heap := m.heap ++ [newHub channelID freshHeap]
       loops := m.loops ++ [hub] }, hub)

/-- What happens in the process: a call of `Get`, or an event at the hub with
address `p` (of its loop or of one of its writers). -/
inductive MEvent where
  | get (channelID : Nat)
  | hub (p : HubPtr) (e : SysEvent)
deriving DecidableEq, Repr

/-- One event of the process.  An event for an address that was never handed
out finds no hub; a crash of a hub loop ends the process. -/
def World.step (w : Manager) : MEvent → Option Manager
  | .get channelID => some (w.Get channelID).1
  | .hub p e =>
    match w.heap[p]? with
    | none => some w
    | some h =>
      match Sys.step h e with
      | none => none
      | some h' => some { w with heap := w.heap.set p h' }

/-- A sequence of events of the process. -/
def World.run : Manager → List MEvent → Option Manager
  | w, [] => some w
  | w, e :: es => (World.step w e).bind (fun w' => World.run w' es)

/-- Every allocated hub runs one loop, and the map holds exactly the allocated
hubs, each under its own channel id. -/
def Manager.Inv (w : Manager) : Prop :=
  w.loops = List.range w.heap.length ∧
  ∀ (id p : Nat), w.hubs id = some p ↔ ∃ h, w.heap[p]? = some h ∧ h.channelID = id

/-- The hubs of channels 7 and 9 are obtained, client 1 registers on the first
and a message is broadcast there. -/
def exampleEvents : List MEvent :=
  [.get 7, .hub 0 (.hub (.register 1)), .get 9, .hub 0 (.hub (.broadcast [104]))]

/-- The process after `exampleEvents`. -/
def exampleWorld : Manager :=
  (World.run NewManager exampleEvents).getD NewManager

/-- The process `exampleWorld` after the only member of hub 0 has left. -/
def exampleWorldLeft : Manager :=
  (World.run exampleWorld [.hub 0 (.hub (.unregister 1))]).getD NewManager

/-! ## Concurrent callers of `Get` -/

/-- The statement of `Manager.Get` a caller is about to execute, with its
local variable `hub` once it is set. -/
inductive PC where
  | atLock
  | atLookup
  | atNewHub
  | atStore (hub : HubPtr)
  | atGo (hub : HubPtr)
  | atReturn (hub : HubPtr)
  | done (hub : HubPtr)
deriving DecidableEq, Repr

/-- The manager, its mutex `mu` and the callers of `Get`, numbered. -/
structure Conc where
  m : Manager
  locked : Bool
  callers : Nat → PC

/-- Caller `i` moves to `pc`. -/
def setPC (f : Nat → PC) (i : Nat) (pc : PC) : Nat → PC :=
  fun j => if j = i then pc else f j

/-- Caller `i` of `Get(channelID)` executes its next statement: `m.mu.Lock()`
(which waits while the mutex is held), the map lookup, `newHub(channelID)`, the
map store, `go hub.run()`, and `return hub` with the deferred `m.mu.Unlock()`. -/
def Conc.step (channelID : Nat) (s : Conc) (i : Nat) : Conc :=
  match s.callers i with
  | .atLock =>
    if s.locked then s
    else { s with locked := true, callers := setPC s.callers i .atLookup }
  | .atLookup =>
    match s.m.hubs channelID with
    | some hub => { s with callers := setPC s.callers i (.atReturn hub) }
    | none => { s with callers := setPC s.callers i .atNewHub }
  | .atNewHub =>
    { s with m := { s.m with heap := s.m.heap ++ [newHub channelID freshHeap] }
             callers := setPC s.callers i (.atStore s.m.heap.length) }
  | .atStore hub =>
    { s with m := { s.m with hubs := fun k => if k = channelID then some hub else s.m.hubs k }
             callers := setPC s.callers i (.atGo hub) }
  | .atGo hub =>
    { s with m := { s.m with loops := s.m.loops ++ [hub] }
             callers := setPC s.callers i (.atReturn hub) }
  | .atReturn hub => { s with locked := false, callers := setPC s.callers i (.done hub) }
  | .done _ => s

/-- An interleaving: the callers in the order in which they take a step. -/
def Conc.run (channelID : Nat) : Conc → List Nat → Conc
  | s, [] => s
  | s, i :: r => Conc.run channelID (Conc.step channelID s i) r

/-- All callers are about to call `Get`; the mutex is free. -/
def Conc.init (w : Manager) : Conc :=
  { m := w, locked := false, callers := fun _ => .atLock }

/-- The caller holds the mutex. -/
def PC.holding : PC → Bool
  | .atLock => false
  | .done _ => false
  | _ => true

/-- The number of statements a caller has still to execute at most. -/
def PC.rank : PC → Nat
  | .atLock => 6
  | .atLookup => 5
  | .atNewHub => 4
  | .atStore _ => 3
  | .atGo _ => 2
  | .atReturn _ => 1
  | .done _ => 0

/-- The manager after `newHub` of the first caller. -/
def Manager.allocated (w : Manager) (id : Nat) : Manager :=
  { w with heap := w.heap ++ [newHub id freshHeap] }

/-- The manager after the map store of the first caller. -/
def Manager.stored (w : Manager) (id : Nat) : Manager :=
  { w.allocated id with hubs := fun k => if k = id then some w.heap.length else w.hubs k }

/-- The manager after `go hub.run()` of the first caller. -/
def Manager.started (w : Manager) (id : Nat) : Manager :=
  { w.stored id with loops := w.loops ++ [w.heap.length] }

/-- The states of concurrent first calls of `Get(id)` on the manager `w0`:
callers without the mutex are before `Lock` or have returned the one new hub;
the manager is untouched until a caller holds the mutex, and the holder is the
only one beyond `Lock` until the hub is stored and started. -/
def Conc.Inv (w0 : Manager) (id : Nat) (s : Conc) : Prop :=
  (s.locked = false ∧
    (∀ j, s.callers j = .atLock ∨ s.callers j = .done w0.heap.length) ∧
    ((s.m = w0 ∧ ∀ j, s.callers j = .atLock) ∨ s.m = w0.started id)) ∨
  (∃ i, s.locked = true ∧
    (∀ j, j ≠ i → s.callers j = .atLock ∨ s.callers j = .done w0.heap.length) ∧
    ((s.callers i = .atLookup ∧
        ((s.m = w0 ∧ ∀ j, j ≠ i → s.callers j = .atLock) ∨ s.m = w0.started id)) ∨
     (s.callers i = .atNewHub ∧ s.m = w0 ∧ ∀ j, j ≠ i → s.callers j = .atLock) ∨
     (s.callers i = .atStore w0.heap.length ∧ s.m = w0.allocated id ∧
        ∀ j, j ≠ i → s.callers j = .atLock) ∨
     (s.callers i = .atGo w0.heap.length ∧ s.m = w0.stored id ∧
        ∀ j, j ≠ i → s.callers j = .atLock) ∨
     (s.callers i = .atReturn w0.heap.length ∧ s.m = w0.started id)))

/-- Callers 0, 1 and 2 interleaved: 1 takes the mutex first, 0 and 2 wait. -/
def exampleSchedule : List Nat :=
  [1, 0, 1, 2, 1, 1, 0, 1, 1, 2, 0, 2, 0, 2, 0, 2, 0, 0]

/-- The writer has written the head of the messages `ms` and still has the
rest in its queue; while it runs, every frame it wrote is a text or ping
frame whose write succeeded; once it has returned, the transport is closed and
only its last frame is a failed write or a close frame, the close frame being
written on the empty closed queue. -/
def Writer.Inv (ms : List Msg) (w : Writer) : Prop :=
  textsOf w.frames ++ w.queue.buf = ms ∧
  ((w.returned = false ∧ w.connClosed = false ∧
      ∀ g ∈ w.frames, g.1 ≠ Frame.close ∧ g.2 = true) ∨
   (w.returned = true ∧ w.connClosed = true ∧
      ∃ pre f, w.frames = pre ++ [f] ∧ (∀ g ∈ pre, g.1 ≠ Frame.close ∧ g.2 = true) ∧
        ((f.2 = false ∧ f.1 ≠ Frame.close) ∨
         (f.1 = Frame.close ∧ w.queue.buf = [] ∧ w.queue.closed = true))))

/-- A closed queue that still holds two messages. -/
def exampleQueue : Chan :=
  { buf := [[1], [2]], cap := 256, closed := true }

/-! ## Messages and their JSON encoding -/

/-- A Go `string`: a sequence of bytes, not necessarily valid UTF-8. -/
abbrev GoString := List Byte

/-- The bytes of an ASCII literal. -/
def ascii (s : String) : List Byte :=
  s.data.map (fun c => Fin.ofNat c.toNat)

/-- The struct `Message` of `client.go`. -/
structure Message where
  Sender : GoString
  Content : GoString
  Timestamp : Int
deriving DecidableEq, Repr

/-- The constant `utf8.RuneError`, U+FFFD. -/
def RuneError : Nat := 0xFFFD

/-- Go's `utf8.DecodeRuneInString`: the first rune of `s` and its width in
bytes; `(RuneError, 1)` for a byte that starts no well-formed sequence and
`(RuneError, 0)` for the empty string.  The second byte of a sequence must lie
in the range that the first byte admits (no overlong forms, no surrogates,
nothing above U+10FFFF). -/
def DecodeRuneInString (s : GoString) : Nat × Nat :=
  match s with
  | [] => (RuneError, 0)
  | s0 :: t =>
    if s0.val < 0x80 then (s0.val, 1)
    else if s0.val < 0xC2 then (RuneError, 1)
    else if s0.val < 0xE0 then
      match t with
      | s1 :: _ =>
        if s1.val < 0x80 ∨ 0xBF < s1.val then (RuneError, 1)
        else ((s0.val % 32) * 64 + s1.val % 64, 2)
      | _ => (RuneError, 1)
    else if s0.val < 0xF0 then
      match t with
      | s1 :: s2 :: _ =>
        if s1.val < (if s0.val = 0xE0 then 0xA0 else 0x80) ∨
            (if s0.val = 0xED then 0x9F else 0xBF) < s1.val then (RuneError, 1)
        else if s2.val < 0x80 ∨ 0xBF < s2.val then (RuneError, 1)
        else ((s0.val % 16) * 4096 + (s1.val % 64) * 64 + s2.val % 64, 3)
      | _ => (RuneError, 1)
    else if s0.val < 0xF5 then
      match t with
      | s1 :: s2 :: s3 :: _ =>
        if s1.val < (if s0.val = 0xF0 then 0x90 else 0x80) ∨
            (if s0.val = 0xF4 then 0x8F else 0xBF) < s1.val then (RuneError, 1)
        else if s2.val < 0x80 ∨ 0xBF < s2.val then (RuneError, 1)
        else if s3.val < 0x80 ∨ 0xBF < s3.val then (RuneError, 1)
        else ((s0.val % 8) * 262144 + (s1.val % 64) * 4096 + (s2.val % 64) * 64
          + s3.val % 64, 4)
      | _ => (RuneError, 1)
    else (RuneError, 1)

/-- The digit `hex[n]` of `encoding/json`, lower case. -/
def hexDigit (n : Nat) : Byte :=
  if n < 10 then Fin.ofNat (0x30 + n) else Fin.ofNat (0x61 + (n - 10))

/-- The table `htmlSafeSet` of `encoding/json`: the ASCII bytes that are
written as they are, which is every byte from the space on except the double
quote, the backslash and the three characters `&`, `<` and `>`. -/
def htmlSafe (b : Byte) : Bool :=
  decide (0x20 ≤ b.val) && decide (b.val < 0x80) && b != 0x22 && b != 0x5C &&
    b != 0x26 && b != 0x3C && b != 0x3E

/-- What `encoding/json` writes for an ASCII byte outside `htmlSafeSet`. -/
def escapeByte (b : Byte) : List Byte :=
  if b = 0x5C ∨ b = 0x22 then [0x5C, b]
  else if b = 0x08 then [0x5C, 0x62]
  else if b = 0x0C then [0x5C, 0x66]
  else if b = 0x0A then [0x5C, 0x6E]
  else if b = 0x0D then [0x5C, 0x72]
  else if b = 0x09 then [0x5C, 0x74]
  else [0x5C, 0x75, 0x30, 0x30, hexDigit (b.val / 16), hexDigit (b.val % 16)]

/-- The loop of `appendString` of `encoding/json` with HTML escaping on, which
is what `json.Marshal` uses: the bytes written between the quotes for the rest
`src` of the string.  `fuel` bounds the number of iterations; the length of
`src` is enough. -/
def appendStringLoop : Nat → GoString → List Byte
  | 0, _ => []
  | _ + 1, [] => []
  | fuel + 1, b :: rest =>
    if b.val < 0x80 then
      (if htmlSafe b then [b] else escapeByte b) ++ appendStringLoop fuel rest
    else
      let c := (DecodeRuneInString (b :: rest)).1
      let size := (DecodeRuneInString (b :: rest)).2
      if c = RuneError ∧ size = 1 then
        ascii "\\ufffd" ++ appendStringLoop fuel rest
      else if c = 0x2028 ∨ c = 0x2029 then
        ascii "\\u202" ++ hexDigit (c % 16) :: appendStringLoop fuel (rest.drop (size - 1))
      else
        (b :: rest).take size ++ appendStringLoop fuel (rest.drop (size - 1))

/-- The string value `s` as `json.Marshal` writes it. -/
def appendString (s : GoString) : List Byte :=
  0x22 :: (appendStringLoop s.length s ++ [0x22])

/-- The bytes that `json.Marshal` writes between the two quotes for the string
value `s`: the loop of `appendString` run over the whole of `s`. -/
def stringBody (s : GoString) : List Byte :=
  appendStringLoop s.length s

/-- The decimal digits of an `int64`, as `strconv.AppendInt(_, 10)`. -/
def formatInt (t : Int) : List Byte :=
  match t with
  | .ofNat n => ascii (Nat.repr n)
  | .negSucc n => 0x2D :: ascii (Nat.repr (n + 1))

/-- The result of `json.Marshal(msg)` for the struct `Message` with its tags
`sender`, `content`, `timestamp`: the fields in declaration order. -/
def Marshal (msg : Message) : List Byte :=
  ascii "\x7b\"sender\":" ++ (appendString msg.Sender ++ (ascii ",\"content\":" ++
    (appendString msg.Content ++ (ascii ",\"timestamp\":" ++
      (formatInt msg.Timestamp ++ ascii "\x7d")))))

/-- What `conn.ReadMessage()` hands to `ReadPump`: a frame's payload, or an
error. -/
inductive ReadResult where
  | frame (payload : List Byte)
  | err
deriving DecidableEq, Repr

/-- The call `conn.ReadMessage()` under `SetReadLimit(limit)`: a frame over the
limit is an error. -/
def ReadMessage (limit : Nat) (r : ReadResult) : Option (List Byte) :=
  match r with
  | .frame payload => if payload.length ≤ limit then some payload else none
  | .err => none

/-- One iteration of the loop of `ReadPump` for a client named `username`: `r`
is what the transport delivers and `now` the reading of `time.Now().Unix()`.
The result is the value sent on `c.hub.broadcast`; `none` is the `break`. -/
def ReadPump.iter (username : GoString) (r : ReadResult) (now : Int) : Option Msg :=
  match ReadMessage 1024 r with
  | none => none
  | some payload =>
    some (Marshal { Sender := username, Content := payload, Timestamp := now })

/-! ## Reading the encoding back -/

/-- The value of a hexadecimal digit. -/
def hexVal (b : Byte) : Option Nat :=
  if 0x30 ≤ b.val ∧ b.val ≤ 0x39 then some (b.val - 0x30)
  else if 0x61 ≤ b.val ∧ b.val ≤ 0x66 then some (b.val - 0x61 + 10)
  else if 0x41 ≤ b.val ∧ b.val ≤ 0x46 then some (b.val - 0x41 + 10)
  else none

/-- The UTF-8 encoding of a code point, as `utf8.AppendRune`; surrogate halves
and values above U+10FFFF become U+FFFD. -/
def EncodeRune (r : Nat) : List Byte :=
  if r < 0x80 then [Fin.ofNat r]
  else if r < 0x800 then [Fin.ofNat (0xC0 + r / 64), Fin.ofNat (0x80 + r % 64)]
  else if (0xD800 ≤ r ∧ r ≤ 0xDFFF) ∨ 0x10FFFF < r then [0xEF, 0xBF, 0xBD]
  else if r < 0x10000 then
    [Fin.ofNat (0xE0 + r / 4096), Fin.ofNat (0x80 + (r / 64) % 64), Fin.ofNat (0x80 + r % 64)]
  else
    [Fin.ofNat (0xF0 + r / 262144), Fin.ofNat (0x80 + (r / 4096) % 64),
      Fin.ofNat (0x80 + (r / 64) % 64), Fin.ofNat (0x80 + r % 64)]

/-- The character that the two-character escape `\e` stands for (RFC 8259,
section 7). -/
def unescape (e : Byte) : Option Byte :=
  if e = 0x22 then some 0x22
  else if e = 0x5C then some 0x5C
  else if e = 0x2F then some 0x2F
  else if e = 0x62 then some 0x08
  else if e = 0x66 then some 0x0C
  else if e = 0x6E then some 0x0A
  else if e = 0x72 then some 0x0D
  else if e = 0x74 then some 0x09
  else none

/-- A JSON decoder on the inside of a string literal (RFC 8259, section 7):
the string the literal stands for and the input after its closing quote.
Each `\uXXXX` is read as one code point, which is all that the encoder above
writes. -/
def unquoteBody : List Byte → Option (GoString × List Byte)
  | [] => none
  | b :: rest =>
    if b = 0x22 then some ([], rest)
    else if b = 0x5C then
      match rest with
      | [] => none
      | e :: rest2 =>
        if e = 0x75 then
          match rest2 with
          | h1 :: h2 :: h3 :: h4 :: rest3 =>
            match hexVal h1, hexVal h2, hexVal h3, hexVal h4 with
            | some a, some b, some c, some d =>
              (unquoteBody rest3).map
                (fun x => (EncodeRune (((a * 16 + b) * 16 + c) * 16 + d) ++ x.1, x.2))
            | _, _, _, _ => none
          | _ => none
        else
          match unescape e with
          | some ch => (unquoteBody rest2).map (fun x => (ch :: x.1, x.2))
          | none => none
    else if b.val < 0x20 then none
    else (unquoteBody rest).map (fun x => (b :: x.1, x.2))

/-- The input after the literal `lit`, if the input starts with it. -/
def dropLit : List Byte → List Byte → Option (List Byte)
  | [], s => some s
  | _ :: _, [] => none
  | a :: l, b :: s => if a = b then dropLit l s else none

/-- A JSON decoder for the object that `Marshal` writes: the strings of the
members `sender` and `content`, and the text that follows `"timestamp":`. -/
def decodeMessage (s : List Byte) : Option (GoString × GoString × List Byte) :=
  (dropLit (ascii "\x7b\"sender\":\"") s).bind fun s1 =>
  (unquoteBody s1).bind fun x =>
  (dropLit (ascii ",\"content\":\"") x.2).bind fun s3 =>
  (unquoteBody s3).bind fun y =>
  (dropLit (ascii ",\"timestamp\":") y.2).bind fun s5 =>
  some (x.1, y.1, s5)

/-- The content that a consumer reads from an encoded message. -/
def decodedContent (encoded : List Byte) : Option GoString :=
  (decodeMessage encoded).map (fun x => x.2.1)

/-- The string that an encoded string value stands for: the value with every
byte that starts no well-formed UTF-8 sequence replaced by U+FFFD. -/
def coerceUTF8 : Nat → GoString → GoString
  | 0, _ => []
  | _ + 1, [] => []
  | fuel + 1, b :: rest =>
    if b.val < 0x80 then b :: coerceUTF8 fuel rest
    else if (DecodeRuneInString (b :: rest)).1 = RuneError ∧
        (DecodeRuneInString (b :: rest)).2 = 1 then
      [0xEF, 0xBF, 0xBD] ++ coerceUTF8 fuel rest
    else
      (b :: rest).take (DecodeRuneInString (b :: rest)).2
        ++ coerceUTF8 fuel (rest.drop ((DecodeRuneInString (b :: rest)).2 - 1))

/-- A continuation byte, `10xxxxxx`. -/
def isCont (b : Byte) : Bool :=
  decide (0x80 ≤ b.val) && decide (b.val ≤ 0xBF)

/-- Well-formed UTF-8 (Unicode Standard, table 3-7), with a bound `fuel` on
the number of sequences; the length of the string is enough. -/
def validUTF8Loop : Nat → List Byte → Bool
  | 0, s => s.isEmpty
  | _ + 1, [] => true
  | fuel + 1, b0 :: rest =>
    if b0.val < 0x80 then validUTF8Loop fuel rest
    else if 0xC2 ≤ b0.val ∧ b0.val ≤ 0xDF then
      match rest with
      | b1 :: r => isCont b1 && validUTF8Loop fuel r
      | _ => false
    else if 0xE0 ≤ b0.val ∧ b0.val ≤ 0xEF then
      match rest with
      | b1 :: b2 :: r =>
        isCont b1 && isCont b2 &&
          decide (b0.val = 0xE0 → 0xA0 ≤ b1.val) && decide (b0.val = 0xED → b1.val ≤ 0x9F) &&
          validUTF8Loop fuel r
      | _ => false
    else if 0xF0 ≤ b0.val ∧ b0.val ≤ 0xF4 then
      match rest with
      | b1 :: b2 :: b3 :: r =>
        isCont b1 && isCont b2 && isCont b3 &&
          decide (b0.val = 0xF0 → 0x90 ≤ b1.val) && decide (b0.val = 0xF4 → b1.val ≤ 0x8F) &&
          validUTF8Loop fuel r
      | _ => false
    else false

/-- The string is well-formed UTF-8. -/
def validUTF8 (s : List Byte) : Bool :=
  validUTF8Loop s.length s

/-! ## Keepalive timing -/

/-- The constant `time.Second`: a `time.Duration` counts nanoseconds in an
`int64`. -/
def Second : Int := 1000000000

/-- The constant `writeWait = 10 * time.Second`. -/
def writeWait : Int := 10 * Second

/-- The constant `pongWait = 60 * time.Second`. -/
def pongWait : Int := 60 * Second

/-- The constant `pingPeriod = (pongWait * 9) / 10`; Go's integer division
truncates. -/
def pingPeriod : Int := Int.tdiv (pongWait * 9) 10

/-- The read deadline that `ReadPump` sets at time `t`, at its start and in the
pong handler: `time.Now().Add(pongWait)`. -/
def readDeadline (t : Int) : Int := t + pongWait

/-- The time of tick number `k` (from 0) of the `time.NewTicker(pingPeriod)`
that `WritePump` creates at time `start`. -/
def tickAt (start : Int) (k : Nat) : Int := start + (k + 1) * pingPeriod

/-! ## The origin check -/

/-- Go's `unicode.IsSpace`. -/
def IsSpace (r : Nat) : Bool :=
  decide (r = 0x09 ∨ r = 0x0A ∨ r = 0x0B ∨ r = 0x0C ∨ r = 0x0D ∨ r = 0x20 ∨ r = 0x85 ∨
    r = 0xA0 ∨ r = 0x1680 ∨ (0x2000 ≤ r ∧ r ≤ 0x200A) ∨ r = 0x2028 ∨ r = 0x2029 ∨
    r = 0x202F ∨ r = 0x205F ∨ r = 0x3000)

/-- Go's `utf8.RuneStart`: the byte is no continuation byte. -/
def RuneStart (b : Byte) : Bool :=
  decide (b.val / 64 ≠ 2)

/-- The loop of `utf8.DecodeLastRuneInString` that walks back from index `n - 1`
to `lim` and stops at a byte that can start a rune. -/
def findRuneStart (s : GoString) (lim : Nat) : Nat → Option Nat
  | 0 => none
  | i + 1 =>
    if i < lim then none
    else if RuneStart (s.getD i 0) then some i
    else findRuneStart s lim i

/-- Go's `utf8.DecodeLastRuneInString`: the last rune of `s` and its width. -/
def DecodeLastRuneInString (s : GoString) : Nat × Nat :=
  if s.length = 0 then (RuneError, 0)
  else if (s.getD (s.length - 1) 0).val < 0x80 then ((s.getD (s.length - 1) 0).val, 1)
  else
    let start := (findRuneStart s (s.length - 4) (s.length - 1)).getD (s.length - 4 - 1)
    let d := DecodeRuneInString (s.drop start)
    if start + d.2 ≠ s.length then (RuneError, 1) else d

/-- Go's `strings.TrimLeftFunc(s, unicode.IsSpace)`; `fuel` bounds the number
of runes. -/
def trimLeftSpace : Nat → GoString → GoString
  | 0, s => s
  | _ + 1, [] => []
  | fuel + 1, b :: rest =>
    if IsSpace (DecodeRuneInString (b :: rest)).1 then
      trimLeftSpace fuel ((b :: rest).drop (DecodeRuneInString (b :: rest)).2)
    else b :: rest

/-- Go's `strings.TrimRightFunc(s, unicode.IsSpace)`; `fuel` bounds the number
of runes. -/
def trimRightSpace : Nat → GoString → GoString
  | 0, s => s
  | fuel + 1, s =>
    if s.length = 0 then s
    else if IsSpace (DecodeLastRuneInString s).1 then
      trimRightSpace fuel (s.take (s.length - (DecodeLastRuneInString s).2))
    else s

/-- Go's `strings.TrimSpace`: the string without its leading and trailing
white space. -/
def TrimSpace (s : GoString) : GoString :=
  trimRightSpace s.length (trimLeftSpace s.length s)

/-- Go's `strings.Split(s, sep)` for a separator of one byte. -/
def Split (sep : Byte) : GoString → List GoString
  | [] => [[]]
  | b :: r =>
    if b = sep then [] :: Split sep r
    else
      match Split sep r with
      | h :: t => (b :: h) :: t
      | [] => [[b]]

/-- A Go `map[string]bool`: the value stored under a key, if there is one. -/
abbrev StringSet := GoString → Option Bool

/-- The statement `m[key] = v`. -/
def StringSet.store (m : StringSet) (key : GoString) (v : Bool) : StringSet :=
  fun k => if k = key then some v else m k

/-- The expression `m[key]`: the value stored, `false` if there is none. -/
def StringSet.index (m : StringSet) (key : GoString) : Bool :=
  (m key).getD false

/-- The second loop of `SetupRouter`: `originMap[origin] = true` for every
origin that is not empty. -/
def fillOriginMap (m : StringSet) : List GoString → StringSet
  | [] => m
  | origin :: rest =>
    if origin ≠ [] then fillOriginMap (m.store origin true) rest else fillOriginMap m rest

/-- The slice `origins` of `SetupRouter` after its first loop: the entries of
`corsOrigins` between the commas, each one trimmed. -/
def SetupRouter.origins (corsOrigins : GoString) : List GoString :=
  (Split 0x2C corsOrigins).map TrimSpace

/-- Go's `strings.HasPrefix(s, lit)`: `len(s) >= len(lit) && s[:len(lit)] == lit`. -/
def HasPrefix (s lit : GoString) : Bool :=
  decide (lit.length ≤ s.length) && decide (s.take lit.length = lit)

/-- Go's `strings.Contains(s, c)` for a string `c` of one byte. -/
def Contains (s : GoString) (c : Byte) : Bool :=
  decide (c ∈ s)

/-- The test that `Config.Validate` of gin-contrib/cors makes on an entry of
`AllowOrigins`: the entry contains `*` or starts with an allowed schema.  The
allowed schemas are `http://` and `https://` when the configuration turns on
no others, and `SetupRouter` turns on none. -/
def validOrigin (origin : GoString) : Bool :=
  Contains origin 0x2A || HasPrefix origin (ascii "http://") ||
    HasPrefix origin (ascii "https://")

/-- Whether the call `cors.New(config)` of gin-contrib/cors returns, for a
configuration with `AllowOrigins` set and without `AllowAllOrigins` and
`AllowOriginFunc`, as `SetupRouter` passes it.  The call runs
`config.Validate()` and panics on its error, which there is for an empty
`AllowOrigins` and for an entry that fails the test above. -/
def cors.New (allowOrigins : List GoString) : Bool :=
  !allowOrigins.isEmpty && allowOrigins.all validOrigin

/-- The function `SetupRouter`, as far as the origin check depends on it: the
`AllowedOrigins` of the `WSController` in the router that it returns.  It
enters into `originMap` the entries of `origins` that are not empty, and then
passes all of `origins`, the empty entries too, to `cors.New`; the result
`none` is the panic of `cors.New`, with which `SetupRouter` never returns. -/
def SetupRouter (corsOrigins : GoString) : Option StringSet :=
  let origins := SetupRouter.origins corsOrigins
  let originMap := fillOriginMap (fun _ => none) origins
  if cors.New origins then some originMap else none

/-- A request, as far as the origin check reads it: the values of its `Origin`
header, in order. -/
structure Request where
  originValues : List GoString
deriving DecidableEq, Repr

/-- The call `r.Header.Get("Origin")`: the first value, or the empty string. -/
def Request.getOrigin (r : Request) : GoString :=
  r.originValues.headD []

/-- The function that `WSController.Serve` installs as `upgrader.CheckOrigin`. -/
def CheckOrigin (allowedOrigins : StringSet) (r : Request) : Bool :=
  if r.getOrigin = [] then false else allowedOrigins.index r.getOrigin

/-- A value for `CORS_ORIGINS` with white space around its two entries, among
it a no-break space and an ideographic space. -/
def exampleOrigins : GoString :=
  ascii " http://localhost:5173 ," ++ [0xC2, 0xA0] ++ ascii "https://chat.example\t" ++
    [0xE3, 0x80, 0x80]

/-- The allow-list that `SetupRouter` hands to the `WSController` for
`exampleOrigins`. -/
def exampleAllowed : StringSet :=
  (SetupRouter exampleOrigins).getD (fun _ => none)

/-- A request with two values of the `Origin` header, the first of them an
entry of `exampleOrigins`. -/
def exampleRequest : Request :=
  { originValues := [ascii "https://chat.example", ascii "http://evil.example"] }

/-! ## The hub and closed queues -/

/-- The client whose channel an operation of the loop is on. -/
def Op.target : Op → ClientId
  | .enq c _ => c
  | .drop c _ => c
  | .close c => c

/-- If the earlier one of two operations closes a channel, then the later one
is on another channel. -/
def afterClose (x y : Op) : Prop :=
  ∀ c, x = Op.close c → y.target ≠ c

/-- No operation of the loop is on a channel that the loop has closed before:
no second close and no send, tried or done. -/
def OpsSafe (ops : List Op) : Prop :=
  ops.Pairwise afterClose

/-- Every channel has the capacity 256 of `NewClient` and holds no more. -/
def Bounded (s : HubState) : Prop :=
  ∀ c, (s.send c).cap = 256 ∧ (s.send c).buf.length ≤ 256

/-- The invariant of a hub whose clients register at most once: `Ready` for
the events to come, `Bounded`, `OpsSafe` for the operations so far, and every
channel that the loop closed is closed. -/
def HubInv (s : HubState) (es : List SysEvent) : Prop :=
  Ready s es ∧ Bounded s ∧ OpsSafe s.ops ∧
  ∀ x ∈ s.ops, ∀ c, x = Op.close c → (s.send c).closed = true

/-- Client 1 registers, 257 messages are broadcast while its writer takes none,
and then its reader's unregister arrives. -/
def exampleEvict : List SysEvent :=
  .hub (.register 1) :: (List.replicate 257 (.hub (.broadcast [])) ++ [.hub (.unregister 1)])

/-! ## The rate limiter -/

/-- The struct `rateEntry`; times count nanoseconds. -/
structure rateEntry where
  count : Int
  expiresAt : Int
deriving DecidableEq, Repr

/-- The struct `RateLimiter` without its mutex; `entries` is the map
`map[string]rateEntry`. -/
structure RateLimiter where
  window : Int
  limit : Int
  entries : GoString → Option rateEntry

/-- The limiter that `NewRateLimiter(limit, window)` makes. -/
def NewRateLimiter (limit : Int) (window : Int) : RateLimiter :=
  { window := window, limit := limit, entries := fun _ => none }

/-- The statement `rl.entries[ip] = e`. -/
def RateLimiter.store (rl : RateLimiter) (ip : GoString) (e : rateEntry) : RateLimiter :=
  { rl with entries := fun k => if k = ip then some e else rl.entries k }

/-- The method `Allow(ip)` with the reading `now` of `time.Now()`: the limiter
after the call and the result. -/
def RateLimiter.Allow (rl : RateLimiter) (ip : GoString) (now : Int) : RateLimiter × Bool :=
  match rl.entries ip with
  | none => (rl.store ip { count := 1, expiresAt := now + rl.window }, true)
  | some entry =>
    if now > entry.expiresAt then
      (rl.store ip { count := 1, expiresAt := now + rl.window }, true)
    else if entry.count ≥ rl.limit then (rl, false)
    else (rl.store ip { entry with count := entry.count + 1 }, true)

/-- A sequence of calls of `Allow`, each with its key and clock reading: the
limiter at the end and the results in order. -/
def RateLimiter.run : RateLimiter → List (GoString × Int) → RateLimiter × List Bool
  | rl, [] => (rl, [])
  | rl, c :: r =>
    ((RateLimiter.run (rl.Allow c.1 c.2).1 r).1,
      (rl.Allow c.1 c.2).2 :: (RateLimiter.run (rl.Allow c.1 c.2).1 r).2)

/-- The results of the calls for the key `ip` among the calls `cs` with the
results `bs`. -/
def resultsFor (ip : GoString) : List (GoString × Int) → List Bool → List Bool
  | c :: cs, b :: bs => if c.1 = ip then b :: resultsFor ip cs bs else resultsFor ip cs bs
  | _, _ => []

/-- The number of calls for the key `ip` among `cs`. -/
def callsFor (ip : GoString) (cs : List (GoString × Int)) : Nat :=
  cs.countP (fun c => c.1 = ip)

/-- The limiter `authLimiter` of `SetupRouter`:
`NewRateLimiter(10, 5*time.Minute)`. -/
def authLimiter : RateLimiter :=
  NewRateLimiter 10 (5 * (60 * Second))

/-- Twelve calls after a first one at time 0: eleven for the address `10.0.0.1`
and one for another address, all within five minutes. -/
def exampleCalls : List (GoString × Int) :=
  [(ascii "10.0.0.1", 1), (ascii "10.0.0.1", 2), (ascii "10.0.0.2", 2), (ascii "10.0.0.1", 3),
   (ascii "10.0.0.1", 4), (ascii "10.0.0.1", 5), (ascii "10.0.0.1", 6), (ascii "10.0.0.1", 7),
   (ascii "10.0.0.1", 8), (ascii "10.0.0.1", 9), (ascii "10.0.0.1", 10 * Second),
   (ascii "10.0.0.1", 300 * Second)]
/-! ## Lemmas on the hub loop -/

theorem setSend_same (f : ClientId → Chan) (c : ClientId) (ch : Chan) :
    setSend f c ch c = ch := by
  simp [setSend]

theorem setSend_other (f : ClientId → Chan) (c d : ClientId) (ch : Chan) (h : d ≠ c) :
    setSend f c ch d = f d := by
  simp [setSend, h]

theorem broadcastLoop_spec (m : Msg) :
    ∀ (l : List ClientId) (s : HubState), l.Nodup →
      (∀ c ∈ l, (s.send c).closed = false) →
      ∃ s', broadcastLoop m l s = some s' ∧ s'.channelID = s.channelID ∧
        s'.clients = s.clients.filter
          (fun d => decide (d ∈ l → (s.send d).buf.length < (s.send d).cap)) ∧
        (∀ d, s'.send d = if d ∈ l then (s.send d).afterBroadcast m else s.send d) ∧
        s'.ops = s.ops ++ l.flatMap (fun d => (s.send d).broadcastOps d m) := by
  intro l
  induction l with
  | nil =>
    intro s _ _
    exact ⟨s, rfl, rfl, by simp, by simp, by simp⟩
  | cons c rest ih =>
    intro s hnd hopen
    have hc : c ∉ rest := (List.nodup_cons.mp hnd).1
    have hrest : rest.Nodup := (List.nodup_cons.mp hnd).2
    have hco : (s.send c).closed = false := hopen c (List.mem_cons_self _ _)
    by_cases hlen : (s.send c).buf.length < (s.send c).cap
    · -- the send case fires
      have hopen' : ∀ d ∈ rest, (setSend s.send c
          ((s.send c).push m) d).closed = false := by
        intro d hd
        have hdc : d ≠ c := fun h => hc (h ▸ hd)
        rw [setSend_other _ _ _ _ hdc]
        exact hopen d (List.mem_cons_of_mem _ hd)
      obtain ⟨s', hrun, hid, hcl, hsend, hops⟩ :=
        ih { s with send := setSend s.send c ((s.send c).push m),
                    ops := s.ops ++ [Op.enq c m] } hrest hopen'
      refine ⟨s', ?_, hid, ?_, ?_, ?_⟩
      · have hts : (s.send c).trySend m = .sent ((s.send c).push m) := by
          simp [Chan.trySend, hco, hlen]
        simp only [broadcastLoop, hts]
        exact hrun
      · rw [hcl]
        apply List.filter_congr
        intro d _
        by_cases hdc : d = c
        · subst hdc
          simp [hc, hlen, setSend_same]
        · simp [hdc, setSend_other _ _ _ _ hdc]
      · intro d
        rw [hsend d]
        by_cases hdc : d = c
        · subst hdc
          simp [hc, setSend_same, Chan.afterBroadcast, hlen]
        · simp [hdc, setSend_other _ _ _ _ hdc]
      · rw [hops, List.flatMap_cons, List.append_assoc]
        congr 1
        have : ∀ d ∈ rest, (setSend s.send c
            ((s.send c).push m) d).broadcastOps d m
            = (s.send d).broadcastOps d m := by
          intro d hd
          have hdc : d ≠ c := fun h => hc (h ▸ hd)
          rw [setSend_other _ _ _ _ hdc]
        rw [List.flatMap_congr this]
        simp [Chan.broadcastOps, hlen]
    · -- the default case: delete and close
      have hopen' : ∀ d ∈ rest, (setSend s.send c
          (s.send c).shut d).closed = false := by
        intro d hd
        have hdc : d ≠ c := fun h => hc (h ▸ hd)
        rw [setSend_other _ _ _ _ hdc]
        exact hopen d (List.mem_cons_of_mem _ hd)
      obtain ⟨s', hrun, hid, hcl, hsend, hops⟩ :=
        ih { s.deleteClient c with
              send := setSend s.send c (s.send c).shut,
              ops := s.ops ++ [Op.drop c m] ++ [Op.close c] } hrest hopen'
      refine ⟨s', ?_, hid, ?_, ?_, ?_⟩
      · have hts : (s.send c).trySend m = .full := by
          simp [Chan.trySend, hco, hlen]
        have hcs : (s.send c).close = some (s.send c).shut := by
          simp [Chan.close, hco]
        simp only [broadcastLoop, hts, HubState.closeSend, HubState.deleteClient, hcs]
        exact hrun
      · rw [hcl]
        simp only [HubState.deleteClient, List.filter_filter]
        apply List.filter_congr
        intro d _
        by_cases hdc : d = c
        · subst hdc
          simp [hlen]
        · simp [hdc, setSend_other _ _ _ _ hdc]
      · intro d
        rw [hsend d]
        by_cases hdc : d = c
        · subst hdc
          simp [hc, setSend_same, Chan.afterBroadcast, hlen]
        · simp [hdc, setSend_other _ _ _ _ hdc, HubState.deleteClient]
      · rw [hops, List.flatMap_cons]
        have : ∀ d ∈ rest, (setSend s.send c
            (s.send c).shut d).broadcastOps d m
            = (s.send d).broadcastOps d m := by
          intro d hd
          have hdc : d ≠ c := fun h => hc (h ▸ hd)
          rw [setSend_other _ _ _ _ hdc]
        rw [List.flatMap_congr this]
        simp [Chan.broadcastOps, hlen, HubState.deleteClient]


theorem attempts_append (a b : List Op) : attempts (a ++ b) = attempts a ++ attempts b := by
  induction a with
  | nil => rfl
  | cons x r ih => cases x <;> simp [attempts, ih]

theorem enqTo_append (c : ClientId) (a b : List Op) :
    enqTo c (a ++ b) = enqTo c a ++ enqTo c b := by
  induction a with
  | nil => rfl
  | cons x r ih =>
    cases x with
    | enq d m => by_cases h : d = c <;> simp [enqTo, ih, h]
    | drop d m => simp [enqTo, ih]
    | close d => simp [enqTo, ih]

theorem closesOf_append (a b : List Op) : closesOf (a ++ b) = closesOf a ++ closesOf b := by
  induction a with
  | nil => rfl
  | cons x r ih => cases x <;> simp [closesOf, ih]

theorem attempts_broadcastOps (send : ClientId → Chan) (m : Msg) (l : List ClientId) :
    attempts (l.flatMap (fun d => (send d).broadcastOps d m)) = l.map (fun c => (c, m)) := by
  induction l with
  | nil => rfl
  | cons c r ih =>
    rw [List.flatMap_cons, attempts_append, ih, List.map_cons]
    by_cases h : (send c).buf.length < (send c).cap <;> simp [Chan.broadcastOps, h, attempts]

theorem enqTo_broadcastOps_not_mem (send : ClientId → Chan) (m : Msg) (c : ClientId)
    (l : List ClientId) (hc : c ∉ l) :
    enqTo c (l.flatMap (fun d => (send d).broadcastOps d m)) = [] := by
  induction l with
  | nil => rfl
  | cons d r ih =>
    have hdc : d ≠ c := fun h => hc (h ▸ List.mem_cons_self _ _)
    have hr : c ∉ r := fun h => hc (List.mem_cons_of_mem _ h)
    rw [List.flatMap_cons, enqTo_append, ih hr]
    by_cases h : (send d).buf.length < (send d).cap <;> simp [Chan.broadcastOps, h, enqTo, hdc]

theorem enqTo_broadcastOps_mem (send : ClientId → Chan) (m : Msg) (c : ClientId)
    (l : List ClientId) (hnd : l.Nodup) (hc : c ∈ l) :
    enqTo c (l.flatMap (fun d => (send d).broadcastOps d m))
      = if (send c).buf.length < (send c).cap then [m] else [] := by
  induction l with
  | nil => simp at hc
  | cons d r ih =>
    have hd : d ∉ r := (List.nodup_cons.mp hnd).1
    have hr : r.Nodup := (List.nodup_cons.mp hnd).2
    rw [List.flatMap_cons, enqTo_append]
    by_cases hdc : d = c
    · subst hdc
      rw [enqTo_broadcastOps_not_mem send m d r hd]
      by_cases h : (send d).buf.length < (send d).cap <;> simp [Chan.broadcastOps, h, enqTo]
    · have hcr : c ∈ r := by
        rcases List.mem_cons.mp hc with h | h
        · exact absurd h.symm hdc
        · exact h
      rw [ih hr hcr]
      by_cases h : (send d).buf.length < (send d).cap <;> simp [Chan.broadcastOps, h, enqTo, hdc]

theorem closesOf_broadcastOps (send : ClientId → Chan) (m : Msg) (l : List ClientId) :
    closesOf (l.flatMap (fun d => (send d).broadcastOps d m))
      = l.filter (fun d => decide (¬ (send d).buf.length < (send d).cap)) := by
  induction l with
  | nil => rfl
  | cons c r ih =>
    rw [List.flatMap_cons, closesOf_append, ih]
    by_cases h : (send c).buf.length < (send c).cap
    · simp [Chan.broadcastOps, h, closesOf, List.filter_cons]
    · have h' : (send c).cap ≤ (send c).buf.length := Nat.le_of_not_lt h
      simp [Chan.broadcastOps, h, closesOf, List.filter_cons, h']

/-- A broadcast loop that returns has met only open channels. -/
theorem broadcastLoop_open (m : Msg) :
    ∀ (l : List ClientId) (s s' : HubState), l.Nodup → broadcastLoop m l s = some s' →
      ∀ c ∈ l, (s.send c).closed = false := by
  intro l
  induction l with
  | nil => intro s s' _ _ c hc; simp at hc
  | cons d r ih =>
    intro s s' hnd hrun c hc
    have hd : d ∉ r := (List.nodup_cons.mp hnd).1
    have hr : r.Nodup := (List.nodup_cons.mp hnd).2
    have hdo : (s.send d).closed = false := by
      cases hcl : (s.send d).closed with
      | false => rfl
      | true =>
        have : (s.send d).trySend m = .crash := by simp [Chan.trySend, hcl]
        simp [broadcastLoop, this] at hrun
    rcases List.mem_cons.mp hc with h | h
    · rw [h]; exact hdo
    · have hcd : c ≠ d := fun e => hd (e ▸ h)
      by_cases hlen : (s.send d).buf.length < (s.send d).cap
      · have hts : (s.send d).trySend m = .sent ((s.send d).push m) := by
          simp [Chan.trySend, hdo, hlen]
        simp only [broadcastLoop, hts] at hrun
        have := ih _ _ hr hrun c h
        simpa [setSend_other _ _ _ _ hcd] using this
      · have hts : (s.send d).trySend m = .full := by
          simp [Chan.trySend, hdo, hlen]
        have hcs : (s.send d).close = some (s.send d).shut := by
          simp [Chan.close, hdo]
        simp only [broadcastLoop, hts, HubState.closeSend, HubState.deleteClient, hcs] at hrun
        have := ih _ _ hr hrun c h
        simpa [setSend_other _ _ _ _ hcd] using this

/-- C1. Broadcast fan-out: in a hub whose members have open queues made by
`NewClient`, processing `broadcast(m)` returns, tries one enqueue of `m` on the
queue of each of the N members and on nothing else, and every member with
fewer than 256 buffered items ends with `m` appended at the tail of its
unchanged earlier contents, its queue open, and is still a member. -/
theorem broadcast_fanout (s : HubState) (m : Msg)
    (hopen : ∀ c ∈ s.clients, (s.send c).closed = false)
    (hcap : ∀ c ∈ s.clients, (s.send c).cap = 256) :
    ∃ s' new, Hub.step s (.broadcast m) = some s' ∧ s'.ops = s.ops ++ new ∧
      attempts new = s.clients.map (fun c => (c, m)) ∧
      (attempts new).length = s.clients.length ∧
      (∀ c ∈ s.clients, ((attempts new).map Prod.fst).count c = 1) ∧
      ∀ c ∈ s.clients, (s.send c).buf.length < 256 →
        (s'.send c).buf = (s.send c).buf ++ [m] ∧ (s'.send c).closed = false ∧
        enqTo c new = [m] ∧ c ∈ s'.clients := by
  obtain ⟨s', hrun, _, hcl, hsend, hops⟩ := broadcastLoop_spec m s.clients s s.nodup hopen
  refine ⟨s', _, hrun, hops, attempts_broadcastOps _ _ _, ?_, ?_, ?_⟩
  · rw [attempts_broadcastOps, List.length_map]
  · intro c hc
    rw [attempts_broadcastOps, List.map_map]
    have hid : (Prod.fst ∘ fun c : ClientId => (c, m)) = id := rfl
    rw [hid, List.map_id]
    exact List.count_eq_one_of_mem s.nodup hc
  · intro c hc hlen
    have hlen' : (s.send c).buf.length < (s.send c).cap := by rw [hcap c hc]; exact hlen
    have hs : s'.send c = (s.send c).push m := by
      rw [hsend c]; simp [hc, Chan.afterBroadcast, hlen']
    refine ⟨?_, ?_, ?_, ?_⟩
    · rw [hs]; rfl
    · rw [hs]; exact hopen c hc
    · rw [enqTo_broadcastOps_mem _ _ _ _ s.nodup hc]; simp [hlen']
    · rw [hcl]
      exact List.mem_filter.mpr ⟨hc, by simp [hlen']⟩

/-- A run of C1 on `exampleHub`, where clients 3 and 1 have room. -/
theorem broadcast_fanout_witness :
    (∀ c ∈ exampleHub.clients, (exampleHub.send c).closed = false) ∧
    (∀ c ∈ exampleHub.clients, (exampleHub.send c).cap = 256) ∧
    ∃ s' new, Hub.step exampleHub (.broadcast [104, 105]) = some s' ∧
      s'.ops = exampleHub.ops ++ new ∧
      attempts new = exampleHub.clients.map (fun c => (c, [104, 105])) ∧
      (attempts new).length = exampleHub.clients.length ∧
      (∀ c ∈ exampleHub.clients, ((attempts new).map Prod.fst).count c = 1) ∧
      ∀ c ∈ exampleHub.clients, (exampleHub.send c).buf.length < 256 →
        (s'.send c).buf = (exampleHub.send c).buf ++ [[104, 105]] ∧
        (s'.send c).closed = false ∧ enqTo c new = [[104, 105]] ∧ c ∈ s'.clients :=
  ⟨by decide, by decide, broadcast_fanout exampleHub [104, 105] (by decide) (by decide)⟩

/-- The order in which the keys of the map are visited does not matter: two
orders of the same keys leave the same members and the same queues, and
enqueue the same messages on every queue. -/
theorem broadcastLoop_perm (m : Msg) (l1 l2 : List ClientId) (s : HubState)
    (hp : l1.Perm l2) (hnd : l1.Nodup) (hopen : ∀ c ∈ l1, (s.send c).closed = false) :
    ∃ s1 s2, broadcastLoop m l1 s = some s1 ∧ broadcastLoop m l2 s = some s2 ∧
      s1.clients = s2.clients ∧ (∀ d, s1.send d = s2.send d) ∧ s1.ops.Perm s2.ops ∧
      ∀ c, enqTo c s1.ops = enqTo c s2.ops := by
  have hnd2 : l2.Nodup := hp.nodup_iff.mp hnd
  have hopen2 : ∀ c ∈ l2, (s.send c).closed = false :=
    fun c hc => hopen c (hp.mem_iff.mpr hc)
  obtain ⟨s1, h1, _, hc1, hs1, ho1⟩ := broadcastLoop_spec m l1 s hnd hopen
  obtain ⟨s2, h2, _, hc2, hs2, ho2⟩ := broadcastLoop_spec m l2 s hnd2 hopen2
  refine ⟨s1, s2, h1, h2, ?_, ?_, ?_, ?_⟩
  · rw [hc1, hc2]
    apply List.filter_congr
    intro d _
    simp only [hp.mem_iff]
  · intro d
    rw [hs1 d, hs2 d]
    simp only [hp.mem_iff]
  · rw [ho1, ho2]
    exact List.Perm.append_left _ (hp.flatMap_right _)
  · intro c
    rw [ho1, ho2, enqTo_append, enqTo_append]
    by_cases hc : c ∈ l1
    · rw [enqTo_broadcastOps_mem _ _ _ _ hnd hc,
        enqTo_broadcastOps_mem _ _ _ _ hnd2 (hp.mem_iff.mp hc)]
    · rw [enqTo_broadcastOps_not_mem _ _ _ _ hc,
        enqTo_broadcastOps_not_mem _ _ _ _ (fun h => hc (hp.mem_iff.mpr h))]

/-! ## Single events -/

theorem step_broadcast_some (s s' : HubState) (m : Msg)
    (h : Hub.step s (.broadcast m) = some s') :
    (∀ c ∈ s.clients, (s.send c).closed = false) ∧
    s'.clients = s.clients.filter
      (fun d => decide (d ∈ s.clients → (s.send d).buf.length < (s.send d).cap)) ∧
    (∀ d, s'.send d = if d ∈ s.clients then (s.send d).afterBroadcast m else s.send d) ∧
    s'.ops = s.ops ++ s.clients.flatMap (fun d => (s.send d).broadcastOps d m) := by
  have hopen := broadcastLoop_open m s.clients s s' s.nodup h
  obtain ⟨t, hrun, _, hcl, hsend, hops⟩ := broadcastLoop_spec m s.clients s s.nodup hopen
  have ht : t = s' := by
    have : some t = some s' := by rw [← hrun]; exact h
    exact Option.some.inj this
  subst ht
  exact ⟨hopen, hcl, hsend, hops⟩

theorem step_unregister_member (s : HubState) (c : ClientId) (hc : c ∈ s.clients)
    (hopen : (s.send c).closed = false) :
    Hub.step s (.unregister c) =
      some { s.deleteClient c with send := setSend s.send c (s.send c).shut,
                                   ops := s.ops ++ [Op.close c] } := by
  have hcs : (s.send c).close = some (s.send c).shut := by simp [Chan.close, hopen]
  simp [Hub.step, hc, HubState.closeSend, HubState.deleteClient, hcs]

theorem step_unregister_some (s s' : HubState) (c : ClientId) (hc : c ∈ s.clients)
    (h : Hub.step s (.unregister c) = some s') : (s.send c).closed = false := by
  cases hcl : (s.send c).closed with
  | false => rfl
  | true =>
    have : (s.send c).close = none := by simp [Chan.close, hcl]
    simp [Hub.step, hc, HubState.closeSend, HubState.deleteClient, this] at h

/-- C4. Unregister of a connection that is not a member returns the very same
state (membership, every queue with its closed flag, no channel operation, no
crash); and for every state, processing `unregister(c)` twice in a row gives
what processing it once gives. -/
theorem unregister_nonmember_noop (s : HubState) (c : ClientId) :
    (c ∉ s.clients → Hub.step s (.unregister c) = some s) ∧
    Hub.run s [.unregister c, .unregister c] = Hub.run s [.unregister c] := by
  constructor
  · intro hc
    simp [Hub.step, hc]
  · by_cases hc : c ∈ s.clients
    · cases hcl : (s.send c).closed with
      | true =>
        have : (s.send c).close = none := by simp [Chan.close, hcl]
        simp [Hub.run, Hub.step, hc, HubState.closeSend, HubState.deleteClient, this]
      | false =>
        have h1 := step_unregister_member s c hc hcl
        simp only [Hub.run, h1, Option.some_bind, Option.bind_some]
        simp [Hub.step, HubState.deleteClient]
    · simp [Hub.run, Hub.step, hc]

/-- C4 on `exampleHub` and client 9, which is not a member. -/
theorem unregister_nonmember_noop_witness :
    9 ∉ exampleHub.clients ∧ Hub.step exampleHub (.unregister 9) = some exampleHub ∧
    Hub.run exampleHub [.unregister 9, .unregister 9] = Hub.run exampleHub [.unregister 9] :=
  ⟨by decide, (unregister_nonmember_noop exampleHub 9).1 (by decide),
    (unregister_nonmember_noop exampleHub 9).2⟩

/-- C5. Unregister of a member with an open queue returns a state in which
exactly that connection has left the membership (the others keep their place),
its queue is closed with the buffered items still in it, the one channel
operation performed is that close, and every other connection keeps its queue
as it was. -/
theorem unregister_member (s : HubState) (c : ClientId) (hc : c ∈ s.clients)
    (hopen : (s.send c).closed = false) :
    ∃ s', Hub.step s (.unregister c) = some s' ∧
      s'.clients = s.clients.filter (fun d => d != c) ∧
      c ∉ s'.clients ∧ (∀ d, d ≠ c → (d ∈ s'.clients ↔ d ∈ s.clients)) ∧
      (s'.send c).closed = true ∧ (s'.send c).buf = (s.send c).buf ∧
      (s'.send c).cap = (s.send c).cap ∧
      (∀ d, d ≠ c → s'.send d = s.send d) ∧
      s'.ops = s.ops ++ [Op.close c] := by
  refine ⟨_, step_unregister_member s c hc hopen, rfl, ?_, ?_, ?_, ?_, ?_, ?_, rfl⟩
  · simp [HubState.deleteClient]
  · intro d hd
    simp [HubState.deleteClient, List.mem_filter, hd]
  · simp [setSend_same, Chan.shut]
  · simp [setSend_same, Chan.shut]
  · simp [setSend_same, Chan.shut]
  · intro d hd
    simp [setSend_other _ _ _ _ hd]

/-- C5 on `exampleHub` and its member 2. -/
theorem unregister_member_witness :
    2 ∈ exampleHub.clients ∧ (exampleHub.send 2).closed = false ∧
    ∃ s', Hub.step exampleHub (.unregister 2) = some s' ∧
      s'.clients = exampleHub.clients.filter (fun d => d != 2) ∧
      2 ∉ s'.clients ∧ (∀ d, d ≠ 2 → (d ∈ s'.clients ↔ d ∈ exampleHub.clients)) ∧
      (s'.send 2).closed = true ∧ (s'.send 2).buf = (exampleHub.send 2).buf ∧
      (s'.send 2).cap = (exampleHub.send 2).cap ∧
      (∀ d, d ≠ 2 → s'.send d = exampleHub.send d) ∧
      s'.ops = exampleHub.ops ++ [Op.close 2] :=
  ⟨by decide, by decide, unregister_member exampleHub 2 (by decide) (by decide)⟩

/-! ## A closed queue is out of the hub's reach -/

theorem step_closed_frozen (s s' : HubState) (e : Event) (c : ClientId)
    (hcl : (s.send c).closed = true) (h : Hub.step s e = some s') :
    s'.send c = s.send c ∧ enqTo c s'.ops = enqTo c s.ops := by
  cases e with
  | register d =>
    simp only [Hub.step, Option.some.injEq] at h
    subst h
    exact ⟨rfl, rfl⟩
  | unregister d =>
    by_cases hd : d ∈ s.clients
    · have hdo := step_unregister_some s s' d hd h
      have hdc : c ≠ d := by
        intro e
        rw [e, hdo] at hcl
        exact Bool.noConfusion hcl
      rw [step_unregister_member s d hd hdo] at h
      have h' := Option.some.inj h
      subst h'
      refine ⟨?_, ?_⟩
      · simp [setSend_other _ _ _ _ hdc, HubState.deleteClient]
      · simp [enqTo_append, enqTo, HubState.deleteClient]
    · simp only [Hub.step, hd, if_false, Option.some.injEq] at h
      subst h
      exact ⟨rfl, rfl⟩
  | broadcast m =>
    obtain ⟨hopen, _, hsend, hops⟩ := step_broadcast_some s s' m h
    have hc : c ∉ s.clients := by
      intro hc
      rw [hopen c hc] at hcl
      exact Bool.noConfusion hcl
    refine ⟨?_, ?_⟩
    · rw [hsend c]; simp [hc]
    · rw [hops, enqTo_append, enqTo_broadcastOps_not_mem _ _ _ _ hc, List.append_nil]

theorem run_closed_frozen (c : ClientId) :
    ∀ (es : List Event) (s s' : HubState), (s.send c).closed = true →
      Hub.run s es = some s' → s'.send c = s.send c ∧ enqTo c s'.ops = enqTo c s.ops := by
  intro es
  induction es with
  | nil =>
    intro s s' _ h
    simp only [Hub.run, Option.some.injEq] at h
    subst h
    exact ⟨rfl, rfl⟩
  | cons e r ih =>
    intro s s' hcl h
    simp only [Hub.run] at h
    cases h1 : Hub.step s e with
    | none => simp [h1] at h
    | some t =>
      rw [h1, Option.some_bind] at h
      obtain ⟨hs, he⟩ := step_closed_frozen s t e c hcl h1
      obtain ⟨hs', he'⟩ := ih t s' (by rw [hs]; exact hcl) h
      exact ⟨hs'.trans hs, he'.trans he⟩

theorem sys_run_closed_frozen (c : ClientId) :
    ∀ (es : List SysEvent) (s s' : HubState), (s.send c).closed = true →
      Sys.run s es = some s' →
      (s'.send c).closed = true ∧ enqTo c s'.ops = enqTo c s.ops ∧
      ∃ k, (s'.send c).buf = (s.send c).buf.drop k := by
  intro es
  induction es with
  | nil =>
    intro s s' hcl h
    simp only [Sys.run, Option.some.injEq] at h
    subst h
    exact ⟨hcl, rfl, 0, rfl⟩
  | cons e r ih =>
    intro s s' hcl h
    simp only [Sys.run] at h
    cases h1 : Sys.step s e with
    | none => simp [h1] at h
    | some t =>
      rw [h1, Option.some_bind] at h
      have key : (t.send c).closed = true ∧ enqTo c t.ops = enqTo c s.ops ∧
          ∃ k, (t.send c).buf = (s.send c).buf.drop k := by
        cases e with
        | hub e =>
          obtain ⟨hs, he⟩ := step_closed_frozen s t e c hcl h1
          exact ⟨by rw [hs]; exact hcl, he, 0, by rw [hs]; rfl⟩
        | recv d =>
          simp only [Sys.step, Option.some.injEq] at h1
          subst h1
          by_cases hdc : c = d
          · subst hdc
            refine ⟨?_, rfl, 1, ?_⟩
            · simp [setSend_same, Chan.recv, hcl]
            · simp [setSend_same, Chan.recv]
          · exact ⟨by simp [setSend_other _ _ _ _ hdc, hcl], rfl, 0,
              by simp [setSend_other _ _ _ _ hdc]⟩
      obtain ⟨hk1, hk2, k, hk3⟩ := key
      obtain ⟨h1', h2', k', h3'⟩ := ih t s' hk1 h
      exact ⟨h1', h2'.trans hk2, k + k', by rw [h3', hk3, List.drop_drop]⟩

/-! ## The writer on a closed queue -/

theorem writePump_returned (w : Writer) (hr : w.returned = true) :
    ∀ sched, WritePump w sched = w := by
  intro sched
  induction sched with
  | nil => rfl
  | cons x r ih =>
    obtain ⟨sel, ok⟩ := x
    simp [WritePump, WritePump.iter, hr, ih]

/-- On a closed queue the writer returns and closes the transport as soon as
the receive case has been taken once more than there are buffered items. -/
theorem writePump_closed_returns :
    ∀ (sched : List (Select × Bool)) (w : Writer), w.queue.closed = true →
      w.returned = w.connClosed →
      w.queue.buf.length < recvCount sched →
      (WritePump w sched).returned = true ∧ (WritePump w sched).connClosed = true := by
  intro sched
  induction sched with
  | nil => intro w _ _ h; simp [recvCount] at h
  | cons x r ih =>
    intro w hcl hrc hlen
    obtain ⟨sel, ok⟩ := x
    cases hret : w.returned with
    | true =>
      rw [writePump_returned w hret]
      exact ⟨hret, by rw [← hrc]; exact hret⟩
    | false =>
      have done : ∀ v : Writer, v.returned = true → v.connClosed = true →
          (WritePump v r).returned = true ∧ (WritePump v r).connClosed = true := by
        intro v h1 h2
        rw [writePump_returned v h1]
        exact ⟨h1, h2⟩
      cases sel with
      | tick =>
        cases ok with
        | true =>
          simp only [WritePump, WritePump.iter, hret, if_true, Bool.false_eq_true, if_false]
          exact ih _ hcl (by simpa [hret] using hrc) (by simpa [recvCount] using hlen)
        | false =>
          simp only [WritePump, WritePump.iter, hret, Bool.false_eq_true, if_false]
          exact done _ rfl rfl
      | recv =>
        cases hb : w.queue.buf with
        | nil =>
          simp only [WritePump, WritePump.iter, hret, hb, hcl, if_true, Bool.false_eq_true,
            if_false]
          exact done _ rfl rfl
        | cons m rest =>
          cases ok with
          | true =>
            simp only [WritePump, WritePump.iter, hret, hb, if_true, Bool.false_eq_true,
              if_false]
            apply ih
            · simpa [Chan.recv] using hcl
            · simpa [hret] using hrc
            · simp only [recvCount, hb, List.length_cons] at hlen
              simp only [Chan.recv, hb, List.tail_cons]
              omega
          | false =>
            simp only [WritePump, WritePump.iter, hret, hb, Bool.false_eq_true, if_false]
            exact done _ rfl rfl

/-- C2. Backpressure eviction: when `broadcast(m)` is processed in a hub whose
members have open queues, a member whose queue of capacity 256 holds 256 items
is removed from the membership and its queue is closed with its contents as
they were (`m` is not enqueued on it).  Its writer then returns and closes the
transport once it has taken the receive case more often than items are
buffered.  Whatever the hub processes afterwards leaves that queue as it is;
with the writers' receives interleaved the queue stays closed, only loses items
at its head, and nothing is enqueued on it any more. -/
theorem backpressure_eviction (s : HubState) (m : Msg) (c : ClientId)
    (hopen : ∀ d ∈ s.clients, (s.send d).closed = false)
    (hc : c ∈ s.clients) (hcap : (s.send c).cap = 256)
    (hfull : (s.send c).buf.length = 256) :
    ∃ s', Hub.step s (.broadcast m) = some s' ∧
      c ∉ s'.clients ∧ (s'.send c).closed = true ∧ (s'.send c).buf = (s.send c).buf ∧
      enqTo c s'.ops = enqTo c s.ops ∧
      (closesOf (s'.ops.drop s.ops.length)).count c = 1 ∧
      (∀ sched, (s'.send c).buf.length < recvCount sched →
        (WritePump (Writer.start (s'.send c)) sched).returned = true ∧
        (WritePump (Writer.start (s'.send c)) sched).connClosed = true) ∧
      (∀ es s'', Hub.run s' es = some s'' → s''.send c = s'.send c) ∧
      (∀ es s'', Sys.run s' es = some s'' →
        (s''.send c).closed = true ∧ enqTo c s''.ops = enqTo c s'.ops ∧
        ∃ k, (s''.send c).buf = (s'.send c).buf.drop k) := by
  obtain ⟨s', hrun, _, hcl, hsend, hops⟩ := broadcastLoop_spec m s.clients s s.nodup hopen
  have hlen : ¬ (s.send c).buf.length < (s.send c).cap := by
    rw [hcap, hfull]; exact Nat.lt_irrefl _
  have hs : s'.send c = (s.send c).shut := by
    rw [hsend c]; simp [hc, Chan.afterBroadcast, hlen]
  have hclosed : (s'.send c).closed = true := by rw [hs]; rfl
  refine ⟨s', hrun, ?_, hclosed, by rw [hs]; rfl, ?_, ?_, ?_, ?_, ?_⟩
  · rw [hcl]
    intro hmem
    have := (List.mem_filter.mp hmem).2
    simp [hc, hlen] at this
  · rw [hops, enqTo_append, enqTo_broadcastOps_mem _ _ _ _ s.nodup hc]
    simp [hlen]
  · rw [hops, List.drop_left, closesOf_broadcastOps]
    apply List.count_eq_one_of_mem (s.nodup.filter _)
    exact List.mem_filter.mpr ⟨hc, by simp [hlen]⟩
  · intro sched hsched
    exact writePump_closed_returns sched (Writer.start (s'.send c)) hclosed rfl hsched
  · intro es s'' h
    exact (run_closed_frozen c es s' s'' hclosed h).1
  · intro es s'' h
    exact sys_run_closed_frozen c es s' s'' hclosed h

/-- C2 on `exampleHub`, whose member 2 has 256 buffered items. -/
theorem backpressure_eviction_witness :
    (∀ d ∈ exampleHub.clients, (exampleHub.send d).closed = false) ∧
    2 ∈ exampleHub.clients ∧ (exampleHub.send 2).cap = 256 ∧
    (exampleHub.send 2).buf.length = 256 ∧
    ∃ s', Hub.step exampleHub (.broadcast [104, 105]) = some s' ∧
      2 ∉ s'.clients ∧ (s'.send 2).closed = true ∧
      (s'.send 2).buf = (exampleHub.send 2).buf ∧
      enqTo 2 s'.ops = enqTo 2 exampleHub.ops ∧
      (closesOf (s'.ops.drop exampleHub.ops.length)).count 2 = 1 ∧
      (∀ sched, (s'.send 2).buf.length < recvCount sched →
        (WritePump (Writer.start (s'.send 2)) sched).returned = true ∧
        (WritePump (Writer.start (s'.send 2)) sched).connClosed = true) ∧
      (∀ es s'', Hub.run s' es = some s'' → s''.send 2 = s'.send 2) ∧
      (∀ es s'', Sys.run s' es = some s'' →
        (s''.send 2).closed = true ∧ enqTo 2 s''.ops = enqTo 2 s'.ops ∧
        ∃ k, (s''.send 2).buf = (s'.send 2).buf.drop k) :=
  ⟨by decide, by decide, by decide, List.length_replicate 256 [],
    backpressure_eviction exampleHub [104, 105] 2 (by decide) (by decide) (by decide)
      (List.length_replicate 256 [])⟩

/-! ## Runs of the hub with its writers -/

theorem sys_run_append (a b : List SysEvent) :
    ∀ s, Sys.run s (a ++ b) = (Sys.run s a).bind (fun t => Sys.run t b) := by
  induction a with
  | nil => intro s; rfl
  | cons e r ih =>
    intro s
    simp only [List.cons_append, Sys.run]
    cases Sys.step s e with
    | none => rfl
    | some t => simp [ih]

theorem sys_run_cons_some (s s' : HubState) (e : SysEvent) (r : List SysEvent)
    (h : Sys.run s (e :: r) = some s') :
    ∃ t, Sys.step s e = some t ∧ Sys.run t r = some s' := by
  simp only [Sys.run] at h
  cases h1 : Sys.step s e with
  | none => simp [h1] at h
  | some t =>
    rw [h1, Option.some_bind] at h
    exact ⟨t, rfl, h⟩

/-- One step keeps a non-member out unless it registers it, and enqueues
nothing on its queue. -/
theorem sys_step_nonmember (s t : HubState) (e : SysEvent) (c : ClientId)
    (hc : c ∉ s.clients) (he : e ≠ .hub (.register c)) (h : Sys.step s e = some t) :
    c ∉ t.clients ∧ enqTo c t.ops = enqTo c s.ops := by
  cases e with
  | recv d =>
    simp only [Sys.step, Option.some.injEq] at h
    subst h
    exact ⟨hc, rfl⟩
  | hub e =>
    cases e with
    | register d =>
      have hdc : c ≠ d := fun e => he (by rw [e])
      simp only [Sys.step, Hub.step, Option.some.injEq] at h
      subst h
      refine ⟨?_, rfl⟩
      simp [HubState.insertClient, List.mem_insert_iff, hc, hdc]
    | unregister d =>
      by_cases hd : d ∈ s.clients
      · have hdo := step_unregister_some s t d hd h
        have h' := h
        simp only [Sys.step] at h'
        rw [step_unregister_member s d hd hdo] at h'
        have h'' := Option.some.inj h'
        subst h''
        refine ⟨?_, ?_⟩
        · simp [HubState.deleteClient, List.mem_filter, hc]
        · simp [enqTo_append, enqTo, HubState.deleteClient]
      · simp only [Sys.step, Hub.step, hd, if_false, Option.some.injEq] at h
        subst h
        exact ⟨hc, rfl⟩
    | broadcast m =>
      obtain ⟨_, hcl, _, hops⟩ := step_broadcast_some s t m h
      refine ⟨?_, ?_⟩
      · rw [hcl]
        intro hmem
        exact hc (List.mem_filter.mp hmem).1
      · rw [hops, enqTo_append, enqTo_broadcastOps_not_mem _ _ _ _ hc, List.append_nil]

theorem sys_run_nonmember (c : ClientId) :
    ∀ (es : List SysEvent) (s s' : HubState), c ∉ s.clients →
      SysEvent.hub (.register c) ∉ es → Sys.run s es = some s' →
      c ∉ s'.clients ∧ enqTo c s'.ops = enqTo c s.ops := by
  intro es
  induction es with
  | nil =>
    intro s s' hc _ h
    simp only [Sys.run, Option.some.injEq] at h
    subst h
    exact ⟨hc, rfl⟩
  | cons e r ih =>
    intro s s' hc hes h
    obtain ⟨t, h1, h2⟩ := sys_run_cons_some s s' e r h
    have he : e ≠ .hub (.register c) := fun e' => hes (e' ▸ List.mem_cons_self _ _)
    have hr : SysEvent.hub (.register c) ∉ r := fun h' => hes (List.mem_cons_of_mem _ h')
    obtain ⟨hct, hops⟩ := sys_step_nonmember s t e c hc he h1
    obtain ⟨hcs, hops'⟩ := ih t s' hct hr h2
    exact ⟨hcs, hops'.trans hops⟩

/-- One step in which `c` is a member before and after enqueues on the queue of
`c` exactly the message of the event, if the event is a broadcast. -/
theorem sys_step_member (s t : HubState) (e : SysEvent) (c : ClientId)
    (hc : c ∈ s.clients) (hct : c ∈ t.clients) (h : Sys.step s e = some t) :
    enqTo c t.ops = enqTo c s.ops ++ broadcastsOf [e] := by
  cases e with
  | recv d =>
    simp only [Sys.step, Option.some.injEq] at h
    subst h
    simp [broadcastsOf]
  | hub e =>
    cases e with
    | register d =>
      simp only [Sys.step, Hub.step, Option.some.injEq] at h
      subst h
      simp [broadcastsOf, HubState.insertClient]
    | unregister d =>
      by_cases hd : d ∈ s.clients
      · have hdo := step_unregister_some s t d hd h
        have h' := h
        simp only [Sys.step] at h'
        rw [step_unregister_member s d hd hdo] at h'
        have h'' := Option.some.inj h'
        subst h''
        simp [enqTo_append, enqTo, HubState.deleteClient, broadcastsOf]
      · simp only [Sys.step, Hub.step, hd, if_false, Option.some.injEq] at h
        subst h
        simp [broadcastsOf]
    | broadcast m =>
      obtain ⟨_, hcl, _, hops⟩ := step_broadcast_some s t m h
      have hlen : (s.send c).buf.length < (s.send c).cap := by
        rw [hcl] at hct
        have := (List.mem_filter.mp hct).2
        simpa [hc] using this
      rw [hops, enqTo_append, enqTo_broadcastOps_mem _ _ _ _ s.nodup hc]
      simp [hlen, broadcastsOf]

theorem broadcastsOf_cons (e : SysEvent) (r : List SysEvent) :
    broadcastsOf (e :: r) = broadcastsOf [e] ++ broadcastsOf r := by
  cases e with
  | recv d => rfl
  | hub e => cases e <;> rfl

/-- While `c` stays a member, its queue is sent exactly the broadcasts. -/
theorem sys_run_member (c : ClientId) :
    ∀ (post : List SysEvent) (s1 s : HubState), c ∈ s1.clients →
      Sys.run s1 post = some s → SysEvent.hub (.register c) ∉ post → c ∈ s.clients →
      enqTo c s.ops = enqTo c s1.ops ++ broadcastsOf post := by
  intro post
  induction post with
  | nil =>
    intro s1 s _ h _ _
    simp only [Sys.run, Option.some.injEq] at h
    subst h
    simp [broadcastsOf]
  | cons e r ih =>
    intro s1 s hc h hes hcs
    obtain ⟨t, h1, h2⟩ := sys_run_cons_some s1 s e r h
    have hr : SysEvent.hub (.register c) ∉ r := fun h' => hes (List.mem_cons_of_mem _ h')
    have hct : c ∈ t.clients := by
      by_contra hct
      exact (sys_run_nonmember c r t s hct hr h2).1 hcs
    rw [ih t s hct h2 hr hcs, sys_step_member s1 t e c hc hct h1, broadcastsOf_cons e r,
      List.append_assoc]

theorem sys_run_register_mem (s0 s1 : HubState) (pre : List SysEvent) (c : ClientId)
    (h : Sys.run s0 (pre ++ [.hub (.register c)]) = some s1) :
    ∃ t, Sys.run s0 pre = some t ∧ s1 = t.insertClient c := by
  rw [sys_run_append] at h
  cases h0 : Sys.run s0 pre with
  | none => simp [h0] at h
  | some t =>
    rw [h0, Option.some_bind] at h
    simp only [Sys.run, Sys.step, Hub.step, Option.some_bind, Option.some.injEq] at h
    exact ⟨t, rfl, h.symm⟩

theorem registersOf_cons_subset (e : SysEvent) (r : List SysEvent) :
    ∀ c ∈ registersOf r, c ∈ registersOf (e :: r) := by
  intro c hc
  cases e with
  | recv d => exact hc
  | hub e =>
    cases e with
    | register d => exact List.mem_cons_of_mem _ hc
    | unregister d => exact hc
    | broadcast m => exact hc

theorem registersOf_cons_nodup (e : SysEvent) (r : List SysEvent)
    (h : (registersOf (e :: r)).Nodup) : (registersOf r).Nodup := by
  cases e with
  | recv d => exact h
  | hub e =>
    cases e with
    | register d => exact (List.nodup_cons.mp h).2
    | unregister d => exact h
    | broadcast m => exact h

theorem mem_registersOf (c : ClientId) :
    ∀ es : List SysEvent, c ∈ registersOf es ↔ SysEvent.hub (.register c) ∈ es := by
  intro es
  induction es with
  | nil => simp [registersOf]
  | cons e r ih =>
    cases e with
    | recv d => simp [registersOf, ih]
    | hub e =>
      cases e with
      | register d =>
        simp only [registersOf, List.mem_cons, ih, SysEvent.hub.injEq, Event.register.injEq]
      | unregister d => simp [registersOf, ih]
      | broadcast m => simp [registersOf, ih]

theorem registersOf_append (a b : List SysEvent) :
    registersOf (a ++ b) = registersOf a ++ registersOf b := by
  induction a with
  | nil => rfl
  | cons e r ih =>
    cases e with
    | recv d => simpa [registersOf] using ih
    | hub e => cases e <;> simpa [registersOf] using ih

/-- A step from a ready state does not crash and leads to a ready state. -/
theorem sys_step_ready (s : HubState) (e : SysEvent) (r : List SysEvent)
    (h : Ready s (e :: r)) : ∃ t, Sys.step s e = some t ∧ Ready t r := by
  obtain ⟨hopen, hfut, hnd⟩ := h
  have hnd' := registersOf_cons_nodup e r hnd
  have hfut' : ∀ c ∈ registersOf r, (s.send c).closed = false ∧ c ∉ s.clients :=
    fun c hc => hfut c (registersOf_cons_subset e r c hc)
  cases e with
  | recv d =>
    refine ⟨_, rfl, ?_, ?_, hnd'⟩
    · intro c hc
      by_cases hcd : c = d
      · subst hcd
        simpa [setSend_same, Chan.recv] using hopen c hc
      · simpa [setSend_other _ _ _ _ hcd] using hopen c hc
    · intro c hc
      refine ⟨?_, (hfut' c hc).2⟩
      by_cases hcd : c = d
      · subst hcd
        simpa [setSend_same, Chan.recv] using (hfut' c hc).1
      · simpa [setSend_other _ _ _ _ hcd] using (hfut' c hc).1
  | hub e =>
    cases e with
    | register d =>
      have hd : d ∉ registersOf r := (List.nodup_cons.mp hnd).1
      have hdo := (hfut d (List.mem_cons_self _ _)).1
      refine ⟨_, rfl, ?_, ?_, hnd'⟩
      · intro c hc
        rcases List.mem_insert_iff.mp hc with h | h
        · rw [h]; exact hdo
        · exact hopen c h
      · intro c hc
        refine ⟨(hfut' c hc).1, ?_⟩
        intro hmem
        rcases List.mem_insert_iff.mp hmem with h | h
        · exact hd (h ▸ hc)
        · exact (hfut' c hc).2 h
    | unregister d =>
      by_cases hd : d ∈ s.clients
      · refine ⟨_, step_unregister_member s d hd (hopen d hd), ?_, ?_, hnd'⟩
        · intro c hc
          have hc' := List.mem_filter.mp hc
          have hcd : c ≠ d := by simpa using hc'.2
          simpa [setSend_other _ _ _ _ hcd] using hopen c hc'.1
        · intro c hc
          have hcd : c ≠ d := fun e => (hfut' c hc).2 (e ▸ hd)
          refine ⟨by simpa [setSend_other _ _ _ _ hcd] using (hfut' c hc).1, ?_⟩
          intro hmem
          exact (hfut' c hc).2 (List.mem_filter.mp hmem).1
      · refine ⟨s, by simp [Sys.step, Hub.step, hd], hopen, hfut', hnd'⟩
    | broadcast m =>
      obtain ⟨t, hrun, _, hcl, hsend, _⟩ := broadcastLoop_spec m s.clients s s.nodup hopen
      refine ⟨t, hrun, ?_, ?_, hnd'⟩
      · intro c hc
        rw [hcl] at hc
        have hc' := List.mem_filter.mp hc
        have hlen : (s.send c).buf.length < (s.send c).cap := by simpa [hc'.1] using hc'.2
        rw [hsend c]
        simpa [hc'.1, Chan.afterBroadcast, hlen, Chan.push] using hopen c hc'.1
      · intro c hc
        have hcn := (hfut' c hc).2
        refine ⟨?_, ?_⟩
        · rw [hsend c]
          simpa [hcn] using (hfut' c hc).1
        · rw [hcl]
          intro hmem
          exact hcn (List.mem_filter.mp hmem).1

/-- A run from a ready state never crashes. -/
theorem sys_run_ready :
    ∀ (es : List SysEvent) (s : HubState), Ready s es → ∃ s', Sys.run s es = some s' := by
  intro es
  induction es with
  | nil => intro s _; exact ⟨s, rfl⟩
  | cons e r ih =>
    intro s h
    obtain ⟨t, h1, h2⟩ := sys_step_ready s e r h
    obtain ⟨s', h3⟩ := ih t h2
    exact ⟨s', by simp [Sys.run, h1, h3]⟩

theorem ready_newHub (id : Nat) (es : List SysEvent) (h : (registersOf es).Nodup) :
    Ready (newHub id freshHeap) es :=
  ⟨by intro c hc; simp [newHub] at hc, by intro c _; exact ⟨rfl, by simp [newHub]⟩, h⟩

/-- C3. Per-group FIFO delivery.  For every run of the hub loop interleaved
with receives of the writers: if `c` is still a member at the end, then the
messages enqueued on its queue since its last registration are exactly the
broadcasts the hub processed after that registration, in order.  And a hub
made by `newHub` over clients made by `NewClient`, each registered at most
once, processes every such sequence of events without crashing, and every
connection that is a member at the end has been enqueued exactly the
broadcasts that came after its registration, in order. -/
theorem fifo_delivery (c : ClientId) :
    (∀ (s0 s1 s : HubState) (pre post : List SysEvent),
      Sys.run s0 (pre ++ [.hub (.register c)]) = some s1 →
      Sys.run s1 post = some s → SysEvent.hub (.register c) ∉ post → c ∈ s.clients →
      enqTo c s.ops = enqTo c s1.ops ++ broadcastsOf post) ∧
    (∀ (id : Nat) (es : List SysEvent), (registersOf es).Nodup →
      ∃ s, Sys.run (newHub id freshHeap) es = some s ∧
        (c ∈ s.clients → ∃ pre post, es = pre ++ .hub (.register c) :: post ∧
          enqTo c s.ops = broadcastsOf post)) := by
  constructor
  · intro s0 s1 s pre post h1 h2 hlast hmem
    obtain ⟨t, _, ht⟩ := sys_run_register_mem s0 s1 pre c h1
    have hc1 : c ∈ s1.clients := by
      rw [ht]
      simp [HubState.insertClient, List.mem_insert_iff]
    exact sys_run_member c post s1 s hc1 h2 hlast hmem
  · intro id es hnd
    obtain ⟨s, hs⟩ := sys_run_ready es (newHub id freshHeap) (ready_newHub id es hnd)
    refine ⟨s, hs, ?_⟩
    intro hmem
    have hreg : SysEvent.hub (.register c) ∈ es := by
      by_contra hno
      exact (sys_run_nonmember c es _ s (by simp [newHub]) hno hs).1 hmem
    obtain ⟨pre, post, hsplit⟩ := List.append_of_mem hreg
    refine ⟨pre, post, hsplit, ?_⟩
    subst hsplit
    rw [registersOf_append] at hnd
    have hnd2 : (registersOf pre ++ c :: registersOf post).Nodup := by
      simpa [registersOf] using hnd
    have hpre : SysEvent.hub (.register c) ∉ pre := by
      intro h
      have h1 : c ∈ registersOf pre := (mem_registersOf c pre).mpr h
      exact (List.disjoint_of_nodup_append hnd2) h1 (List.mem_cons_self _ _)
    have hpost : SysEvent.hub (.register c) ∉ post := by
      intro h
      have h1 : c ∈ registersOf post := (mem_registersOf c post).mpr h
      exact (List.nodup_cons.mp (List.Nodup.of_append_right hnd2)).1 h1
    rw [sys_run_append] at hs
    cases h0 : Sys.run (newHub id freshHeap) pre with
    | none => simp [h0] at hs
    | some t =>
      rw [h0, Option.some_bind] at hs
      obtain ⟨t1, ht1, hrun⟩ := sys_run_cons_some t s _ post hs
      simp only [Sys.step, Hub.step, Option.some.injEq] at ht1
      subst ht1
      have hnon := sys_run_nonmember c pre _ t (by simp [newHub]) hpre h0
      have hc1 : c ∈ (t.insertClient c).clients := by
        simp [HubState.insertClient, List.mem_insert_iff]
      rw [sys_run_member c post _ s hc1 hrun hpost hmem]
      have : enqTo c (t.insertClient c).ops = [] := by
        show enqTo c t.ops = []
        rw [hnon.2]
        rfl
      rw [this, List.nil_append]

/-- C3 on `exampleRun`: client 2 registers after the first broadcast and is
sent the three later ones. -/
theorem fifo_delivery_witness :
    (Sys.run (newHub 7 freshHeap) (examplePre ++ [.hub (.register 2)]) = some exampleMid ∧
      Sys.run exampleMid examplePost = some exampleEnd ∧
      SysEvent.hub (.register 2) ∉ examplePost ∧ 2 ∈ exampleEnd.clients ∧
      enqTo 2 exampleEnd.ops = enqTo 2 exampleMid.ops ++ broadcastsOf examplePost ∧
      broadcastsOf examplePost = [[98], [99], [100]]) ∧
    ((registersOf exampleRun).Nodup ∧
      ∃ s, Sys.run (newHub 7 freshHeap) exampleRun = some s ∧
        (2 ∈ s.clients → ∃ pre post, exampleRun = pre ++ .hub (.register 2) :: post ∧
          enqTo 2 s.ops = broadcastsOf post)) :=
  ⟨⟨rfl, rfl, by decide, by decide,
      (fifo_delivery 2).1 (newHub 7 freshHeap) exampleMid exampleEnd examplePre examplePost
        rfl rfl (by decide) (by decide), by decide⟩,
    by decide, (fifo_delivery 2).2 7 exampleRun (by decide)⟩

/-! ## The registry -/

theorem sys_step_channelID (s t : HubState) (e : SysEvent) (h : Sys.step s e = some t) :
    t.channelID = s.channelID := by
  cases e with
  | recv d =>
    simp only [Sys.step, Option.some.injEq] at h
    subst h
    rfl
  | hub e =>
    cases e with
    | register d =>
      simp only [Sys.step, Hub.step, Option.some.injEq] at h
      subst h
      rfl
    | unregister d =>
      by_cases hd : d ∈ s.clients
      · have hdo := step_unregister_some s t d hd h
        have h' := h
        simp only [Sys.step] at h'
        rw [step_unregister_member s d hd hdo] at h'
        have h'' := Option.some.inj h'
        subst h''
        rfl
      · simp only [Sys.step, Hub.step, hd, if_false, Option.some.injEq] at h
        subst h
        rfl
    | broadcast m =>
      have hopen := broadcastLoop_open m s.clients s t s.nodup h
      obtain ⟨t', hrun, hid, _⟩ := broadcastLoop_spec m s.clients s s.nodup hopen
      have : t' = t := by
        have : some t' = some t := by rw [← hrun]; exact h
        exact Option.some.inj this
      rw [← this]
      exact hid

theorem get_of_none (w : Manager) (id : Nat) (h : w.hubs id = none) :
    w.Get id = ({ hubs := fun k => if k = id then some w.heap.length else w.hubs k
                  heap := w.heap ++ [newHub id freshHeap]
                  loops := w.loops ++ [w.heap.length] }, w.heap.length) := by
  simp [Manager.Get, h]

theorem get_of_some (w : Manager) (id : Nat) (p : HubPtr) (h : w.hubs id = some p) :
    w.Get id = (w, p) := by
  simp [Manager.Get, h]

theorem inv_newManager : NewManager.Inv := by
  refine ⟨rfl, ?_⟩
  intro id p
  simp [NewManager]

theorem inv_get (w : Manager) (id : Nat) (hw : w.Inv) : (w.Get id).1.Inv := by
  cases hid : w.hubs id with
  | some p => rw [get_of_some w id p hid]; exact hw
  | none =>
    rw [get_of_none w id hid]
    obtain ⟨hl, hm⟩ := hw
    refine ⟨?_, ?_⟩
    · simp only [List.length_append, List.length_singleton, List.range_succ, hl]
    · intro k p
      simp only
      constructor
      · intro hk
        by_cases hkid : k = id
        · simp only [hkid, if_true, Option.some.injEq] at hk
          subst hk
          exact ⟨newHub id freshHeap, List.getElem?_concat_length _ _, by rw [hkid]; rfl⟩
        · simp only [hkid, if_false] at hk
          obtain ⟨h, hh, hc⟩ := (hm k p).mp hk
          have hp : p < w.heap.length := (List.getElem?_eq_some.mp hh).1
          exact ⟨h, by rw [List.getElem?_append_left hp]; exact hh, hc⟩
      · rintro ⟨h, hh, hc⟩
        by_cases hp : p < w.heap.length
        · rw [List.getElem?_append_left hp] at hh
          have hk := (hm k p).mpr ⟨h, hh, hc⟩
          have hkid : k ≠ id := by
            intro e
            rw [e, hid] at hk
            exact Option.noConfusion hk
          simp [hkid, hk]
        · have hlen : p < (w.heap ++ [newHub id freshHeap]).length :=
            (List.getElem?_eq_some.mp hh).1
          rw [List.length_append, List.length_singleton] at hlen
          have hpe : (p : Nat) = w.heap.length := by omega
          subst hpe
          rw [List.getElem?_concat_length] at hh
          have hh' := Option.some.inj hh
          subst hh'
          have : k = id := hc.symm
          simp [this]

theorem inv_step (w w' : Manager) (e : MEvent) (hw : w.Inv) (h : World.step w e = some w') :
    w'.Inv := by
  cases e with
  | get id =>
    simp only [World.step, Option.some.injEq] at h
    subst h
    exact inv_get w id hw
  | hub p e =>
    simp only [World.step] at h
    cases hp : w.heap[p]? with
    | none =>
      simp only [hp, Option.some.injEq] at h
      subst h
      exact hw
    | some hb =>
      simp only [hp] at h
      cases hs : Sys.step hb e with
      | none => simp [hs] at h
      | some hb' =>
        simp only [hs, Option.some.injEq] at h
        subst h
        have hcid := sys_step_channelID hb hb' e hs
        have hplt : p < w.heap.length := (List.getElem?_eq_some.mp hp).1
        obtain ⟨hl, hm⟩ := hw
        refine ⟨by simp only [List.length_set]; exact hl, ?_⟩
        intro k q
        simp only
        rw [hm k q, List.getElem?_set]
        by_cases hpq : p = q
        · subst hpq
          simp only [if_true, hplt, hp, Option.some.injEq]
          constructor
          · rintro ⟨h, rfl, hc⟩
            exact ⟨hb', rfl, hcid.trans hc⟩
          · rintro ⟨h, rfl, hc⟩
            exact ⟨hb, rfl, hcid.symm.trans hc⟩
        · simp only [hpq, if_false]

theorem inv_run : ∀ (es : List MEvent) (w w' : Manager), w.Inv →
    World.run w es = some w' → w'.Inv := by
  intro es
  induction es with
  | nil =>
    intro w w' hw h
    simp only [World.run, Option.some.injEq] at h
    subst h
    exact hw
  | cons e r ih =>
    intro w w' hw h
    simp only [World.run] at h
    cases h1 : World.step w e with
    | none => simp [h1] at h
    | some t =>
      rw [h1, Option.some_bind] at h
      exact ih t w' (inv_step w t e hw h1) h

/-- An entry of the map survives every event. -/
theorem hubs_step (w w' : Manager) (e : MEvent) (id : Nat) (p : HubPtr)
    (hid : w.hubs id = some p) (h : World.step w e = some w') : w'.hubs id = some p := by
  cases e with
  | get k =>
    simp only [World.step, Option.some.injEq] at h
    subst h
    cases hk : w.hubs k with
    | some q => rw [get_of_some w k q hk]; exact hid
    | none =>
      rw [get_of_none w k hk]
      have hne : id ≠ k := by
        intro e
        rw [e, hk] at hid
        exact Option.noConfusion hid
      simp [hne, hid]
  | hub q e =>
    simp only [World.step] at h
    cases hq : w.heap[q]? with
    | none =>
      simp only [hq, Option.some.injEq] at h
      subst h
      exact hid
    | some hb =>
      simp only [hq] at h
      cases hs : Sys.step hb e with
      | none => simp [hs] at h
      | some hb' =>
        simp only [hs, Option.some.injEq] at h
        subst h
        exact hid

theorem hubs_run (id : Nat) (p : HubPtr) : ∀ (es : List MEvent) (w w' : Manager),
    w.hubs id = some p → World.run w es = some w' → w'.hubs id = some p := by
  intro es
  induction es with
  | nil =>
    intro w w' hid h
    simp only [World.run, Option.some.injEq] at h
    subst h
    exact hid
  | cons e r ih =>
    intro w w' hid h
    simp only [World.run] at h
    cases h1 : World.step w e with
    | none => simp [h1] at h
    | some t =>
      rw [h1, Option.some_bind] at h
      exact ih t w' (hubs_step w t e id p hid h1) h

/-- C6. Registry get is stable and non-evicting.  In every state `w` that the
process reaches from `NewManager()` by calls of `Get` and hub events:
`Get(id)` for an id without entry allocates one hub at a new address, with that
channel id and no members, starts one loop for it (none ran for that address
before), stores it under `id` and leaves every other entry as it was; `Get(id)`
for an id with an entry returns the stored hub and changes nothing; after any
further events (also when the hub has no member left) `Get(id)` still returns
that same hub, for which exactly one loop runs and whose channel id is `id`;
and no two ids share a hub, no two hubs a channel id. -/
theorem registry_get_stable (es : List MEvent) (w : Manager)
    (h : World.run NewManager es = some w) :
    (∀ id, w.hubs id = none →
      (w.Get id).2 = w.heap.length ∧
      (w.Get id).1.heap = w.heap ++ [newHub id freshHeap] ∧
      (newHub id freshHeap).channelID = id ∧ (newHub id freshHeap).clients = [] ∧
      (w.Get id).1.loops = w.loops ++ [(w.Get id).2] ∧ (w.Get id).2 ∉ w.loops ∧
      (w.Get id).1.hubs id = some (w.Get id).2 ∧
      ∀ k, k ≠ id → (w.Get id).1.hubs k = w.hubs k) ∧
    (∀ id p, w.hubs id = some p → w.Get id = (w, p)) ∧
    (∀ id p, w.hubs id = some p → ∀ es' w', World.run w es' = some w' →
      w'.Get id = (w', p) ∧ w'.loops.count p = 1 ∧
      ∃ hb, w'.heap[p]? = some hb ∧ hb.channelID = id) ∧
    (∀ id1 id2 p, w.hubs id1 = some p → w.hubs id2 = some p → id1 = id2) ∧
    (∀ (p1 p2 : Nat) h1 h2, w.heap[p1]? = some h1 → w.heap[p2]? = some h2 →
      h1.channelID = h2.channelID → p1 = p2) := by
  have hw : w.Inv := inv_run es NewManager w inv_newManager h
  refine ⟨?_, ?_, ?_, ?_, ?_⟩
  · intro id hid
    rw [get_of_none w id hid]
    refine ⟨rfl, rfl, rfl, rfl, rfl, ?_, by simp, ?_⟩
    · simp only
      rw [hw.1, List.mem_range]
      exact Nat.lt_irrefl _
    · intro k hk
      simp [hk]
  · intro id p hid
    exact get_of_some w id p hid
  · intro id p hid es' w' hrun
    have hw' : w'.Inv := inv_run es' w w' hw hrun
    have hid' := hubs_run id p es' w w' hid hrun
    obtain ⟨hb, hhb, hc⟩ := (hw'.2 id p).mp hid'
    refine ⟨get_of_some w' id p hid', ?_, hb, hhb, hc⟩
    rw [hw'.1]
    apply List.count_eq_one_of_mem (List.nodup_range _)
    exact List.mem_range.mpr (List.getElem?_eq_some.mp hhb).1
  · intro id1 id2 p h1 h2
    obtain ⟨a, ha, hca⟩ := (hw.2 id1 p).mp h1
    obtain ⟨b, hb, hcb⟩ := (hw.2 id2 p).mp h2
    rw [ha] at hb
    have := Option.some.inj hb
    rw [← hca, ← hcb, this]
  · intro p1 p2 h1 h2 hp1 hp2 hc
    have e1 := (hw.2 h1.channelID p1).mpr ⟨h1, hp1, rfl⟩
    have e2 := (hw.2 h1.channelID p2).mpr ⟨h2, hp2, hc.symm⟩
    rw [e1] at e2
    exact Option.some.inj e2

/-- C6 on `exampleWorld`: channel 7 keeps hub 0 after its only member left. -/
theorem registry_get_stable_witness :
    World.run NewManager exampleEvents = some exampleWorld ∧
    exampleWorld.hubs 7 = some 0 ∧ exampleWorld.hubs 9 = some 1 ∧
    exampleWorld.hubs 8 = none ∧
    exampleWorld.Get 7 = (exampleWorld, 0) ∧
    (exampleWorld.Get 8).2 = 2 ∧
    World.run exampleWorld [.hub 0 (.hub (.unregister 1))] = some exampleWorldLeft ∧
    (exampleWorldLeft.heap[0]?).map (fun hb => hb.clients) = some [] ∧
    (exampleWorldLeft.Get 7 = (exampleWorldLeft, 0) ∧ exampleWorldLeft.loops.count 0 = 1 ∧
      ∃ hb, exampleWorldLeft.heap[0]? = some hb ∧ hb.channelID = 7) :=
  ⟨rfl, rfl, rfl, rfl,
    (registry_get_stable exampleEvents exampleWorld rfl).2.1 7 0 rfl,
    ((registry_get_stable exampleEvents exampleWorld rfl).1 8 rfl).1,
    rfl, rfl,
    (registry_get_stable exampleEvents exampleWorld rfl).2.2.1 7 0 rfl
      [.hub 0 (.hub (.unregister 1))] exampleWorldLeft rfl⟩

/-! ## Concurrent first access -/

theorem setPC_same (f : Nat → PC) (i : Nat) (pc : PC) : setPC f i pc i = pc := by
  simp [setPC]

theorem setPC_other (f : Nat → PC) (i j : Nat) (pc : PC) (h : j ≠ i) :
    setPC f i pc j = f j := by
  simp [setPC, h]

theorem started_eq_get (w0 : Manager) (id : Nat) (h : w0.hubs id = none) :
    w0.started id = (w0.Get id).1 := by
  rw [get_of_none w0 id h]
  rfl

theorem started_hubs (w0 : Manager) (id : Nat) :
    (w0.started id).hubs id = some w0.heap.length := by
  simp [Manager.started, Manager.stored]

theorem conc_inv_init (w0 : Manager) (id : Nat) : Conc.Inv w0 id (Conc.init w0) :=
  Or.inl ⟨rfl, fun _ => Or.inl rfl, Or.inl ⟨rfl, fun _ => rfl⟩⟩

theorem conc_inv_step (w0 : Manager) (id : Nat) (hnew : w0.hubs id = none) (s : Conc)
    (k : Nat) (hs : Conc.Inv w0 id s) : Conc.Inv w0 id (Conc.step id s k) := by
  rcases hs with ⟨hl, hidle, hm⟩ | ⟨i, hl, hidle, hh⟩
  · -- the mutex is free
    rcases hidle k with hk | hk
    · -- caller k takes the mutex
      have hstep : Conc.step id s k
          = { s with locked := true, callers := setPC s.callers k .atLookup } := by
        simp [Conc.step, hk, hl]
      rw [hstep]
      refine Or.inr ⟨k, rfl, ?_, Or.inl ⟨setPC_same _ _ _, ?_⟩⟩
      · intro j hj
        simp only [setPC_other _ _ _ _ hj]
        exact hidle j
      · rcases hm with ⟨hm0, hall⟩ | hm3
        · refine Or.inl ⟨hm0, ?_⟩
          intro j hj
          simp only [setPC_other _ _ _ _ hj]
          exact hall j
        · exact Or.inr hm3
    · have hstep : Conc.step id s k = s := by simp [Conc.step, hk]
      rw [hstep]
      exact Or.inl ⟨hl, hidle, hm⟩
  · by_cases hki : k = i
    · subst hki
      rcases hh with ⟨hpc, hm⟩ | ⟨hpc, hm, hall⟩ | ⟨hpc, hm, hall⟩ | ⟨hpc, hm, hall⟩ | ⟨hpc, hm⟩
      · -- the lookup
        rcases hm with ⟨hm0, hall⟩ | hm3
        · have hstep : Conc.step id s k = { s with callers := setPC s.callers k .atNewHub } := by
            simp [Conc.step, hpc, hm0, hnew]
          rw [hstep]
          refine Or.inr ⟨k, hl, ?_, Or.inr (Or.inl ⟨setPC_same _ _ _, hm0, ?_⟩)⟩
          · intro j hj
            simp only [setPC_other _ _ _ _ hj]
            exact hidle j hj
          · intro j hj
            simp only [setPC_other _ _ _ _ hj]
            exact hall j hj
        · have hstep : Conc.step id s k
              = { s with callers := setPC s.callers k (.atReturn w0.heap.length) } := by
            simp [Conc.step, hpc, hm3, started_hubs]
          rw [hstep]
          refine Or.inr ⟨k, hl, ?_, Or.inr (Or.inr (Or.inr (Or.inr ⟨setPC_same _ _ _, hm3⟩)))⟩
          intro j hj
          simp only [setPC_other _ _ _ _ hj]
          exact hidle j hj
      · -- newHub
        have hstep : Conc.step id s k
            = { s with m := w0.allocated id,
                       callers := setPC s.callers k (.atStore w0.heap.length) } := by
          simp [Conc.step, hpc, hm, Manager.allocated]
        rw [hstep]
        refine Or.inr ⟨k, hl, ?_, Or.inr (Or.inr (Or.inl ⟨setPC_same _ _ _, rfl, ?_⟩))⟩
        · intro j hj
          simp only [setPC_other _ _ _ _ hj]
          exact hidle j hj
        · intro j hj
          simp only [setPC_other _ _ _ _ hj]
          exact hall j hj
      · -- the map store
        have hstep : Conc.step id s k
            = { s with m := w0.stored id,
                       callers := setPC s.callers k (.atGo w0.heap.length) } := by
          simp [Conc.step, hpc, hm, Manager.stored, Manager.allocated]
        rw [hstep]
        refine Or.inr ⟨k, hl, ?_, Or.inr (Or.inr (Or.inr (Or.inl ⟨setPC_same _ _ _, rfl, ?_⟩)))⟩
        · intro j hj
          simp only [setPC_other _ _ _ _ hj]
          exact hidle j hj
        · intro j hj
          simp only [setPC_other _ _ _ _ hj]
          exact hall j hj
      · -- go hub.run()
        have hstep : Conc.step id s k
            = { s with m := w0.started id,
                       callers := setPC s.callers k (.atReturn w0.heap.length) } := by
          simp [Conc.step, hpc, hm, Manager.started, Manager.stored, Manager.allocated]
        rw [hstep]
        refine Or.inr ⟨k, hl, ?_, Or.inr (Or.inr (Or.inr (Or.inr ⟨setPC_same _ _ _, rfl⟩)))⟩
        intro j hj
        simp only [setPC_other _ _ _ _ hj]
        exact hidle j hj
      · -- return and unlock
        have hstep : Conc.step id s k
            = { s with locked := false,
                       callers := setPC s.callers k (.done w0.heap.length) } := by
          simp [Conc.step, hpc]
        rw [hstep]
        refine Or.inl ⟨rfl, ?_, Or.inr hm⟩
        intro j
        by_cases hj : j = k
        · rw [hj]; exact Or.inr (setPC_same _ _ _)
        · simp only [setPC_other _ _ _ _ hj]
          exact hidle j hj
    · -- a caller without the mutex: it waits or has returned
      have hstep : Conc.step id s k = s := by
        rcases hidle k hki with hk | hk
        · simp [Conc.step, hk, hl]
        · simp [Conc.step, hk]
      rw [hstep]
      exact Or.inr ⟨i, hl, hidle, hh⟩

theorem conc_inv_run (w0 : Manager) (id : Nat) (hnew : w0.hubs id = none) :
    ∀ (sched : List Nat) (s : Conc), Conc.Inv w0 id s → Conc.Inv w0 id (Conc.run id s sched) := by
  intro sched
  induction sched with
  | nil => intro s hs; exact hs
  | cons k r ih =>
    intro s hs
    exact ih _ (conc_inv_step w0 id hnew s k hs)

theorem conc_inv_done (w0 : Manager) (id : Nat) (s : Conc) (hs : Conc.Inv w0 id s)
    (i : Nat) (h : HubPtr) (hd : s.callers i = .done h) :
    h = w0.heap.length ∧ s.m = w0.started id := by
  have idle : (s.callers i = .atLock ∨ s.callers i = .done w0.heap.length) →
      h = w0.heap.length := by
    rintro (hk | hk)
    · rw [hk] at hd; exact PC.noConfusion hd
    · rw [hk] at hd; exact (PC.done.inj hd).symm
  have notLock : ¬ s.callers i = .atLock := by
    intro hk
    rw [hk] at hd
    exact PC.noConfusion hd
  rcases hs with ⟨_, hidle, hm⟩ | ⟨i0, _, hidle, hh⟩
  · refine ⟨idle (hidle i), ?_⟩
    rcases hm with ⟨_, hall⟩ | hm3
    · exact absurd (hall i) notLock
    · exact hm3
  · have hne : i ≠ i0 := by
      intro e
      subst e
      rcases hh with ⟨hpc, _⟩ | ⟨hpc, _⟩ | ⟨hpc, _⟩ | ⟨hpc, _⟩ | ⟨hpc, _⟩ <;>
        · rw [hpc] at hd
          exact PC.noConfusion hd
    refine ⟨idle (hidle i hne), ?_⟩
    rcases hh with ⟨_, hm⟩ | ⟨_, _, hall⟩ | ⟨_, _, hall⟩ | ⟨_, _, hall⟩ | ⟨_, hm⟩
    · rcases hm with ⟨_, hall⟩ | hm3
      · exact absurd (hall i hne) notLock
      · exact hm3
    · exact absurd (hall i hne) notLock
    · exact absurd (hall i hne) notLock
    · exact absurd (hall i hne) notLock
    · exact hm

theorem conc_inv_manager (w0 : Manager) (id : Nat) (s : Conc) (hs : Conc.Inv w0 id s) :
    s.m = w0 ∨ s.m = w0.allocated id ∨ s.m = w0.stored id ∨ s.m = w0.started id := by
  rcases hs with ⟨_, _, hm⟩ | ⟨i0, _, _, hh⟩
  · rcases hm with ⟨hm0, _⟩ | hm3
    · exact Or.inl hm0
    · exact Or.inr (Or.inr (Or.inr hm3))
  · rcases hh with ⟨_, hm⟩ | ⟨_, hm, _⟩ | ⟨_, hm, _⟩ | ⟨_, hm, _⟩ | ⟨_, hm⟩
    · rcases hm with ⟨hm0, _⟩ | hm3
      · exact Or.inl hm0
      · exact Or.inr (Or.inr (Or.inr hm3))
    · exact Or.inl hm
    · exact Or.inr (Or.inl hm)
    · exact Or.inr (Or.inr (Or.inl hm))
    · exact Or.inr (Or.inr (Or.inr hm))

theorem conc_run_append (id : Nat) (a b : List Nat) :
    ∀ s, Conc.run id s (a ++ b) = Conc.run id (Conc.run id s a) b := by
  induction a with
  | nil => intro s; rfl
  | cons k r ih => intro s; exact ih _

/-- A caller that can move gets closer to its return, and only it moves. -/
theorem conc_step_active (id : Nat) (s : Conc) (i : Nat)
    (h : (s.callers i).holding = true ∨ (s.callers i = .atLock ∧ s.locked = false)) :
    (∀ j, j ≠ i → (Conc.step id s i).callers j = s.callers j) ∧
    ((Conc.step id s i).callers i).rank < (s.callers i).rank ∧
    (((Conc.step id s i).callers i).holding = true ∨
      ((∃ hub, (Conc.step id s i).callers i = .done hub) ∧
        (Conc.step id s i).locked = false)) := by
  cases hpc : s.callers i with
  | atLock =>
    have hl : s.locked = false := by
      rcases h with h | h
      · rw [hpc] at h; exact absurd h (by decide)
      · exact h.2
    have hstep : Conc.step id s i
        = { s with locked := true, callers := setPC s.callers i .atLookup } := by
      simp [Conc.step, hpc, hl]
    rw [hstep]
    exact ⟨fun j hj => setPC_other _ _ _ _ hj, by simp [setPC_same, PC.rank],
      Or.inl (by simp [setPC_same, PC.holding])⟩
  | atLookup =>
    cases hh : s.m.hubs id with
    | some hub =>
      have hstep : Conc.step id s i
          = { s with callers := setPC s.callers i (.atReturn hub) } := by
        simp [Conc.step, hpc, hh]
      rw [hstep]
      exact ⟨fun j hj => setPC_other _ _ _ _ hj, by simp [setPC_same, PC.rank],
        Or.inl (by simp [setPC_same, PC.holding])⟩
    | none =>
      have hstep : Conc.step id s i = { s with callers := setPC s.callers i .atNewHub } := by
        simp [Conc.step, hpc, hh]
      rw [hstep]
      exact ⟨fun j hj => setPC_other _ _ _ _ hj, by simp [setPC_same, PC.rank],
        Or.inl (by simp [setPC_same, PC.holding])⟩
  | atNewHub =>
    simp only [Conc.step, hpc]
    exact ⟨fun j hj => setPC_other _ _ _ _ hj, by simp [setPC_same, PC.rank],
      Or.inl (by simp [setPC_same, PC.holding])⟩
  | atStore hub =>
    simp only [Conc.step, hpc]
    exact ⟨fun j hj => setPC_other _ _ _ _ hj, by simp [setPC_same, PC.rank],
      Or.inl (by simp [setPC_same, PC.holding])⟩
  | atGo hub =>
    simp only [Conc.step, hpc]
    exact ⟨fun j hj => setPC_other _ _ _ _ hj, by simp [setPC_same, PC.rank],
      Or.inl (by simp [setPC_same, PC.holding])⟩
  | atReturn hub =>
    have hstep : Conc.step id s i
        = { s with locked := false, callers := setPC s.callers i (.done hub) } := by
      simp [Conc.step, hpc]
    rw [hstep]
    exact ⟨fun j hj => setPC_other _ _ _ _ hj, by simp [setPC_same, PC.rank],
      Or.inr ⟨⟨hub, setPC_same _ _ _⟩, rfl⟩⟩
  | done hub =>
    rcases h with h | h
    · rw [hpc] at h; exact Bool.noConfusion h
    · rw [hpc] at h; exact PC.noConfusion h.1

/-- A caller that can move returns within as many steps of its own as its rank
says; the mutex is free then and no other caller has moved. -/
theorem conc_finish (id : Nat) (i : Nat) :
    ∀ (n : Nat) (s : Conc),
      ((s.callers i).holding = true ∨ (s.callers i = .atLock ∧ s.locked = false) ∨
        ((∃ hub, s.callers i = .done hub) ∧ s.locked = false)) →
      (s.callers i).rank ≤ n →
      (∃ hub, (Conc.run id s (List.replicate n i)).callers i = .done hub) ∧
      (Conc.run id s (List.replicate n i)).locked = false ∧
      ∀ j, j ≠ i → (Conc.run id s (List.replicate n i)).callers j = s.callers j := by
  intro n
  induction n with
  | zero =>
    intro s h hr
    have hdone : ∃ hub, s.callers i = .done hub := by
      cases hpc : s.callers i with
      | done hub => exact ⟨hub, rfl⟩
      | _ => rw [hpc] at hr; simp [PC.rank] at hr
    obtain ⟨hub, hpc⟩ := hdone
    rcases h with h | h | h
    · rw [hpc] at h; exact Bool.noConfusion h
    · rw [hpc] at h; exact PC.noConfusion h.1
    · exact ⟨⟨hub, hpc⟩, h.2, fun _ _ => rfl⟩
  | succ n ih =>
    intro s h hr
    simp only [List.replicate_succ, Conc.run]
    rcases h with h | h | h
    · obtain ⟨hother, hrank, hnext⟩ := conc_step_active id s i (Or.inl h)
      have hn : ((Conc.step id s i).callers i).rank ≤ n := by omega
      have hnext' : ((Conc.step id s i).callers i).holding = true ∨
          ((Conc.step id s i).callers i = .atLock ∧ (Conc.step id s i).locked = false) ∨
          ((∃ hub, (Conc.step id s i).callers i = .done hub) ∧
            (Conc.step id s i).locked = false) := by
        rcases hnext with h' | h'
        · exact Or.inl h'
        · exact Or.inr (Or.inr h')
      obtain ⟨h1, h2, h3⟩ := ih _ hnext' hn
      exact ⟨h1, h2, fun j hj => (h3 j hj).trans (hother j hj)⟩
    · obtain ⟨hother, hrank, hnext⟩ := conc_step_active id s i (Or.inr h)
      have hn : ((Conc.step id s i).callers i).rank ≤ n := by omega
      have hnext' : ((Conc.step id s i).callers i).holding = true ∨
          ((Conc.step id s i).callers i = .atLock ∧ (Conc.step id s i).locked = false) ∨
          ((∃ hub, (Conc.step id s i).callers i = .done hub) ∧
            (Conc.step id s i).locked = false) := by
        rcases hnext with h' | h'
        · exact Or.inl h'
        · exact Or.inr (Or.inr h')
      obtain ⟨h1, h2, h3⟩ := ih _ hnext' hn
      exact ⟨h1, h2, fun j hj => (h3 j hj).trans (hother j hj)⟩
    · obtain ⟨⟨hub, hpc⟩, hl⟩ := h
      have hstep : Conc.step id s i = s := by simp [Conc.step, hpc]
      rw [hstep]
      exact ih s (Or.inr (Or.inr ⟨⟨hub, hpc⟩, hl⟩)) (by rw [hpc]; simp [PC.rank])

theorem pc_rank_le (pc : PC) : pc.rank ≤ 6 := by
  cases pc <;> simp [PC.rank]

/-- From every state of the invariant every caller can still return. -/
theorem conc_progress (w0 : Manager) (id : Nat) (s : Conc) (hs : Conc.Inv w0 id s)
    (i : Nat) : ∃ more hub, (Conc.run id s more).callers i = .done hub := by
  rcases hs with ⟨hl, hidle, _⟩ | ⟨i0, hl, hidle, hh⟩
  · rcases hidle i with hk | hk
    · obtain ⟨⟨hub, h1⟩, _, _⟩ := conc_finish id i 6 s (Or.inr (Or.inl ⟨hk, hl⟩))
        (pc_rank_le _)
      exact ⟨_, hub, h1⟩
    · exact ⟨[], _, hk⟩
  · have hhold : (s.callers i0).holding = true := by
      rcases hh with ⟨hpc, _⟩ | ⟨hpc, _⟩ | ⟨hpc, _⟩ | ⟨hpc, _⟩ | ⟨hpc, _⟩ <;>
        · rw [hpc]; rfl
    obtain ⟨⟨hub0, h1⟩, h2, h3⟩ := conc_finish id i0 6 s (Or.inl hhold) (pc_rank_le _)
    by_cases hi : i = i0
    · subst hi
      exact ⟨_, hub0, h1⟩
    · rcases hidle i hi with hk | hk
      · have hk' : (Conc.run id s (List.replicate 6 i0)).callers i = .atLock := by
          rw [h3 i hi]; exact hk
        obtain ⟨⟨hub, h4⟩, _, _⟩ := conc_finish id i 6 _ (Or.inr (Or.inl ⟨hk', h2⟩))
          (pc_rank_le _)
        refine ⟨List.replicate 6 i0 ++ List.replicate 6 i, hub, ?_⟩
        rw [conc_run_append]
        exact h4
      · exact ⟨[], _, hk⟩

/-- A single caller, left alone, does what `Manager.Get` does. -/
theorem conc_single_caller (w0 : Manager) (id : Nat) (i : Nat) :
    (Conc.run id (Conc.init w0) (List.replicate 6 i)).m = (w0.Get id).1 ∧
    (Conc.run id (Conc.init w0) (List.replicate 6 i)).callers i = .done (w0.Get id).2 := by
  cases hid : w0.hubs id with
  | some hub =>
    rw [get_of_some w0 id hub hid]
    simp [List.replicate, Conc.run, Conc.step, Conc.init, setPC, hid]
  | none =>
    rw [get_of_none w0 id hid]
    simp [List.replicate, Conc.run, Conc.step, Conc.init, setPC, hid]

/-- C7. Concurrent first access: callers of `Get(id)` for an id without entry,
interleaved statement by statement in any order under the mutex.  At every
point of every interleaving, each caller that has returned holds the hub that
one sequential `Get(id)` returns, and the manager is then exactly as after that
one call (one hub allocated, one loop started); so any two callers that have
returned hold the identical hub.  At no point has more than one hub been
allocated or more than one loop been started, and every caller can still
return. -/
theorem concurrent_first_get (w0 : Manager) (id : Nat) (hnew : w0.hubs id = none)
    (sched : List Nat) :
    (∀ i hub, (Conc.run id (Conc.init w0) sched).callers i = .done hub →
      hub = (w0.Get id).2 ∧ (Conc.run id (Conc.init w0) sched).m = (w0.Get id).1) ∧
    (∀ i j hub hub', (Conc.run id (Conc.init w0) sched).callers i = .done hub →
      (Conc.run id (Conc.init w0) sched).callers j = .done hub' → hub = hub') ∧
    ((Conc.run id (Conc.init w0) sched).m.heap = w0.heap ∨
      (Conc.run id (Conc.init w0) sched).m.heap = w0.heap ++ [newHub id freshHeap]) ∧
    ((Conc.run id (Conc.init w0) sched).m.loops = w0.loops ∨
      (Conc.run id (Conc.init w0) sched).m.loops = w0.loops ++ [w0.heap.length]) ∧
    (∀ i, ∃ more,
      (Conc.run id (Conc.run id (Conc.init w0) sched) more).callers i
        = .done (w0.Get id).2) := by
  have hinv := conc_inv_run w0 id hnew sched (Conc.init w0) (conc_inv_init w0 id)
  have hget2 : (w0.Get id).2 = w0.heap.length := by rw [get_of_none w0 id hnew]
  refine ⟨?_, ?_, ?_, ?_, ?_⟩
  · intro i hub hd
    obtain ⟨h1, h2⟩ := conc_inv_done w0 id _ hinv i hub hd
    exact ⟨h1.trans hget2.symm, h2.trans (started_eq_get w0 id hnew)⟩
  · intro i j hub hub' hi hj
    rw [(conc_inv_done w0 id _ hinv i hub hi).1, (conc_inv_done w0 id _ hinv j hub' hj).1]
  · rcases conc_inv_manager w0 id _ hinv with h | h | h | h <;> rw [h]
    · exact Or.inl rfl
    · exact Or.inr rfl
    · exact Or.inr rfl
    · exact Or.inr rfl
  · rcases conc_inv_manager w0 id _ hinv with h | h | h | h <;> rw [h]
    · exact Or.inl rfl
    · exact Or.inl rfl
    · exact Or.inl rfl
    · exact Or.inr rfl
  · intro i
    obtain ⟨more, hub, hd⟩ := conc_progress w0 id _ hinv i
    refine ⟨more, ?_⟩
    have hinv' := conc_inv_run w0 id hnew more _ hinv
    rw [hd, (conc_inv_done w0 id _ hinv' i hub hd).1, hget2]

/-- C7 on `exampleSchedule`: callers 0, 1 and 2 of `Get(7)` on a new manager
all return hub 0. -/
theorem concurrent_first_get_witness :
    NewManager.hubs 7 = none ∧
    (Conc.run 7 (Conc.init NewManager) exampleSchedule).callers 0 = .done 0 ∧
    (Conc.run 7 (Conc.init NewManager) exampleSchedule).callers 1 = .done 0 ∧
    (Conc.run 7 (Conc.init NewManager) exampleSchedule).callers 2 = .done 0 ∧
    (0 = (NewManager.Get 7).2 ∧
      (Conc.run 7 (Conc.init NewManager) exampleSchedule).m = (NewManager.Get 7).1) ∧
    (Conc.run 7 (Conc.init NewManager) exampleSchedule).m.loops = [0] :=
  ⟨rfl, by decide, by decide, by decide,
    (concurrent_first_get NewManager 7 rfl exampleSchedule).1 2 0 (by decide), by decide⟩

/-! ## The writer pump -/

theorem textsOf_append (a b : List (Frame × Bool)) :
    textsOf (a ++ b) = textsOf a ++ textsOf b := by
  induction a with
  | nil => rfl
  | cons x r ih =>
    obtain ⟨f, ok⟩ := x
    cases f <;> simp [textsOf, ih]

theorem writer_inv_start (q : Chan) : Writer.Inv q.buf (Writer.start q) :=
  ⟨rfl, Or.inl ⟨rfl, rfl, by intro g hg; simp [Writer.start] at hg⟩⟩

theorem writer_inv_iter (ms : List Msg) (w : Writer) (sel : Select) (ok : Bool)
    (hw : Writer.Inv ms w) : Writer.Inv ms (WritePump.iter w sel ok) := by
  obtain ⟨htx, hst⟩ := hw
  rcases hst with ⟨hr, hc, hall⟩ | ⟨hr, hc, hlast⟩
  · have snoc : ∀ (f : Frame), f ≠ Frame.close →
        ∀ g ∈ w.frames ++ [(f, true)], g.1 ≠ Frame.close ∧ g.2 = true := by
      intro f hf g hg
      rcases List.mem_append.mp hg with h | h
      · exact hall g h
      · rw [List.mem_singleton.mp h]; exact ⟨hf, rfl⟩
    cases sel with
    | recv =>
      cases hb : w.queue.buf with
      | nil =>
        cases hcl : w.queue.closed with
        | false =>
          have : WritePump.iter w .recv ok = w := by simp [WritePump.iter, hr, hb, hcl]
          rw [this]
          exact ⟨htx, Or.inl ⟨hr, hc, hall⟩⟩
        | true =>
          have : WritePump.iter w .recv ok
              = ({ w with frames := w.frames ++ [(Frame.close, ok)] } : Writer).ret := by
            simp [WritePump.iter, hr, hb, hcl]
          rw [this]
          refine ⟨?_, Or.inr ⟨rfl, rfl, w.frames, (Frame.close, ok), rfl, hall,
            Or.inr ⟨rfl, hb, hcl⟩⟩⟩
          simpa [Writer.ret, textsOf_append, textsOf] using htx
      | cons m rest =>
        have htx' : textsOf (w.frames ++ [(Frame.text m, ok)]) ++ rest = ms := by
          rw [← htx, hb, textsOf_append]
          simp [textsOf]
        cases ok with
        | true =>
          have : WritePump.iter w .recv true
              = { w with queue := w.queue.recv,
                         frames := w.frames ++ [(Frame.text m, true)] } := by
            simp [WritePump.iter, hr, hb]
          rw [this]
          refine ⟨?_, Or.inl ⟨hr, hc, snoc _ (by simp)⟩⟩
          simpa [Chan.recv, hb] using htx'
        | false =>
          have : WritePump.iter w .recv false
              = ({ w with queue := w.queue.recv,
                          frames := w.frames ++ [(Frame.text m, false)] } : Writer).ret := by
            simp [WritePump.iter, hr, hb]
          rw [this]
          refine ⟨?_, Or.inr ⟨rfl, rfl, w.frames, (Frame.text m, false), rfl, hall,
            Or.inl ⟨rfl, by simp⟩⟩⟩
          simpa [Chan.recv, hb, Writer.ret] using htx'
    | tick =>
      have htx' : textsOf (w.frames ++ [(Frame.ping, ok)]) ++ w.queue.buf = ms := by
        rw [← htx, textsOf_append]
        simp [textsOf]
      cases ok with
      | true =>
        have : WritePump.iter w .tick true
            = { w with frames := w.frames ++ [(Frame.ping, true)] } := by
          simp [WritePump.iter, hr]
        rw [this]
        exact ⟨htx', Or.inl ⟨hr, hc, snoc _ (by simp)⟩⟩
      | false =>
        have : WritePump.iter w .tick false
            = ({ w with frames := w.frames ++ [(Frame.ping, false)] } : Writer).ret := by
          simp [WritePump.iter, hr]
        rw [this]
        exact ⟨htx', Or.inr ⟨rfl, rfl, w.frames, (Frame.ping, false), rfl, hall,
          Or.inl ⟨rfl, by simp⟩⟩⟩
  · have : WritePump.iter w sel ok = w := by simp [WritePump.iter, hr]
    rw [this]
    exact ⟨htx, Or.inr ⟨hr, hc, hlast⟩⟩

theorem writer_inv_run (ms : List Msg) :
    ∀ (sched : List (Select × Bool)) (w : Writer), Writer.Inv ms w →
      Writer.Inv ms (WritePump w sched) := by
  intro sched
  induction sched with
  | nil => intro w hw; exact hw
  | cons x r ih =>
    intro w hw
    obtain ⟨sel, ok⟩ := x
    exact ih _ (writer_inv_iter ms w sel ok hw)

/-- When no write of the schedule fails, no frame is recorded as failed. -/
theorem writePump_all_ok :
    ∀ (sched : List (Select × Bool)) (w : Writer), (∀ x ∈ sched, x.2 = true) →
      (∀ g ∈ w.frames, g.2 = true) → ∀ g ∈ (WritePump w sched).frames, g.2 = true := by
  intro sched
  induction sched with
  | nil => intro w _ hw; exact hw
  | cons x r ih =>
    intro w hs hw
    obtain ⟨sel, ok⟩ := x
    have hok : ok = true := hs (sel, ok) (List.mem_cons_self _ _)
    subst hok
    apply ih _ (fun y hy => hs y (List.mem_cons_of_mem _ hy))
    intro g hg
    have snoc : ∀ f : Frame, g ∈ w.frames ++ [(f, true)] → g.2 = true := by
      intro f h
      rcases List.mem_append.mp h with h | h
      · exact hw g h
      · rw [List.mem_singleton.mp h]
    cases hr : w.returned with
    | true =>
      have : WritePump.iter w sel true = w := by simp [WritePump.iter, hr]
      rw [this] at hg
      exact hw g hg
    | false =>
      cases sel with
      | tick =>
        have : WritePump.iter w .tick true
            = { w with frames := w.frames ++ [(Frame.ping, true)] } := by
          simp [WritePump.iter, hr]
        rw [this] at hg
        exact snoc _ hg
      | recv =>
        cases hb : w.queue.buf with
        | nil =>
          cases hcl : w.queue.closed with
          | false =>
            have : WritePump.iter w .recv true = w := by simp [WritePump.iter, hr, hb, hcl]
            rw [this] at hg
            exact hw g hg
          | true =>
            have : WritePump.iter w .recv true
                = ({ w with frames := w.frames ++ [(Frame.close, true)] } : Writer).ret := by
              simp [WritePump.iter, hr, hb, hcl]
            rw [this] at hg
            exact snoc _ hg
        | cons m rest =>
          have : WritePump.iter w .recv true
              = { w with queue := w.queue.recv,
                         frames := w.frames ++ [(Frame.text m, true)] } := by
            simp [WritePump.iter, hr, hb]
          rw [this] at hg
          exact snoc _ hg

/-- C10. Writer flush-then-close, for a queue that is closed with messages still
buffered and any schedule of select outcomes and write results.  At every
point the text frames written so far followed by the messages still queued
are the buffered messages in their order; no frame follows a close frame or a
failed write; and once a close frame or a failed write has happened the pump
has returned and closed the transport.  If no write fails and the receive case
is taken more often than messages are buffered, the frames written are the
buffered messages in order (with pings in between only), followed by one close
frame, and the pump has returned and closed the transport. -/
theorem writer_flush_then_close (q : Chan) (hq : q.closed = true)
    (sched : List (Select × Bool)) :
    textsOf (WritePump (Writer.start q) sched).frames
      ++ (WritePump (Writer.start q) sched).queue.buf = q.buf ∧
    (∀ a g b, (WritePump (Writer.start q) sched).frames = a ++ g :: b → b ≠ [] →
      g.1 ≠ Frame.close ∧ g.2 = true) ∧
    (∀ g ∈ (WritePump (Writer.start q) sched).frames, (g.1 = Frame.close ∨ g.2 = false) →
      (WritePump (Writer.start q) sched).returned = true ∧
      (WritePump (Writer.start q) sched).connClosed = true) ∧
    ((∀ x ∈ sched, x.2 = true) → q.buf.length < recvCount sched →
      ∃ pre, (WritePump (Writer.start q) sched).frames = pre ++ [(Frame.close, true)] ∧
        (∀ g ∈ pre, g.1 ≠ Frame.close) ∧ textsOf pre = q.buf ∧
        (WritePump (Writer.start q) sched).returned = true ∧
        (WritePump (Writer.start q) sched).connClosed = true) := by
  have hinv := writer_inv_run q.buf sched (Writer.start q) (writer_inv_start q)
  obtain ⟨htx, hst⟩ := hinv
  refine ⟨htx, ?_, ?_, ?_⟩
  · intro a g b hsplit hb
    rcases hst with ⟨_, _, hall⟩ | ⟨_, _, pre, f, hfr, hpre, _⟩
    · apply hall
      rw [hsplit]
      simp
    · apply hpre
      obtain ⟨b', l, hbl⟩ : ∃ b' l, b = b' ++ [l] := by
        rcases List.eq_nil_or_concat b with h | ⟨b', l, h⟩
        · exact absurd h hb
        · exact ⟨b', l, by simpa using h⟩
      rw [hsplit, hbl] at hfr
      have hfr' : (a ++ g :: b') ++ [l] = pre ++ [f] := by simpa using hfr
      have := (List.append_inj' hfr' rfl).1
      rw [← this]
      simp
  · intro g hg hbad
    rcases hst with ⟨_, _, hall⟩ | ⟨hr, hc, _⟩
    · have := hall g hg
      rcases hbad with h | h
      · exact absurd h this.1
      · rw [this.2] at h; exact Bool.noConfusion h
    · exact ⟨hr, hc⟩
  · intro hok hlen
    obtain ⟨hret, hconn⟩ := writePump_closed_returns sched (Writer.start q) hq rfl hlen
    have hallok := writePump_all_ok sched (Writer.start q) hok
      (by intro g hg; simp [Writer.start] at hg)
    rcases hst with ⟨hr, _, _⟩ | ⟨_, _, pre, f, hfr, hpre, hf⟩
    · rw [hret] at hr; exact Bool.noConfusion hr
    · have hfok : f.2 = true := hallok f (by rw [hfr]; simp)
      rcases hf with ⟨hff, _⟩ | ⟨hfc, hbuf, _⟩
      · rw [hfok] at hff; exact Bool.noConfusion hff
      · have hfeq : f = (Frame.close, true) := Prod.ext hfc hfok
        subst hfeq
        refine ⟨pre, hfr, fun g hg => (hpre g hg).1, ?_, hret, hconn⟩
        rw [hfr, hbuf, textsOf_append] at htx
        simpa [textsOf] using htx

/-- C10 on `exampleQueue`: two text frames with a ping in between, then the
close frame. -/
theorem writer_flush_then_close_witness :
    exampleQueue.closed = true ∧
    (∀ x ∈ [(Select.recv, true), (Select.tick, true), (Select.recv, true),
        (Select.recv, true)], x.2 = true) ∧
    exampleQueue.buf.length < recvCount [(Select.recv, true), (Select.tick, true),
      (Select.recv, true), (Select.recv, true)] ∧
    (WritePump (Writer.start exampleQueue) [(Select.recv, true), (Select.tick, true),
      (Select.recv, true), (Select.recv, true)]).frames
      = [(Frame.text [1], true), (Frame.ping, true), (Frame.text [2], true),
          (Frame.close, true)] ∧
    ∃ pre, (WritePump (Writer.start exampleQueue) [(Select.recv, true), (Select.tick, true),
        (Select.recv, true), (Select.recv, true)]).frames = pre ++ [(Frame.close, true)] ∧
      (∀ g ∈ pre, g.1 ≠ Frame.close) ∧ textsOf pre = exampleQueue.buf ∧
      (WritePump (Writer.start exampleQueue) [(Select.recv, true), (Select.tick, true),
        (Select.recv, true), (Select.recv, true)]).returned = true ∧
      (WritePump (Writer.start exampleQueue) [(Select.recv, true), (Select.tick, true),
        (Select.recv, true), (Select.recv, true)]).connClosed = true :=
  ⟨rfl, by decide, by decide, by decide,
    (writer_flush_then_close exampleQueue rfl [(Select.recv, true), (Select.tick, true),
      (Select.recv, true), (Select.recv, true)]).2.2.2 (by decide) (by decide)⟩

/-! ## The JSON encoding read back -/

theorem hexVal_hexDigit : ∀ n, n < 16 → hexVal (hexDigit n) = some n := by
  decide

theorem byte_ofNat_val (b : Byte) : (Fin.ofNat b.val : Byte) = b := by
  apply Fin.ext
  show b.val % 256 = b.val
  exact Nat.mod_eq_of_lt b.isLt

theorem unquoteBody_plain (b : Byte) (X : List Byte) (h1 : b ≠ 0x22) (h2 : b ≠ 0x5C)
    (h3 : 0x20 ≤ b.val) :
    unquoteBody (b :: X) = (unquoteBody X).map (fun x => (b :: x.1, x.2)) := by
  have h3' : ¬ b.val < 0x20 := Nat.not_lt.mpr h3
  rw [unquoteBody.eq_def]
  simp [h1, h2, h3']

theorem unquoteBody_high (b : Byte) (X : List Byte) (h : 0x80 ≤ b.val) :
    unquoteBody (b :: X) = (unquoteBody X).map (fun x => (b :: x.1, x.2)) := by
  apply unquoteBody_plain
  · intro e; rw [e] at h; revert h; decide
  · intro e; rw [e] at h; revert h; decide
  · omega

theorem unquoteBody_u (h1 h2 h3 h4 : Byte) (a b c d : Nat) (X : List Byte)
    (e1 : hexVal h1 = some a) (e2 : hexVal h2 = some b) (e3 : hexVal h3 = some c)
    (e4 : hexVal h4 = some d) :
    unquoteBody (0x5C :: 0x75 :: h1 :: h2 :: h3 :: h4 :: X)
      = (unquoteBody X).map
          (fun x => (EncodeRune (((a * 16 + b) * 16 + c) * 16 + d) ++ x.1, x.2)) := by
  rw [unquoteBody.eq_def]
  simp [e1, e2, e3, e4]

theorem unquoteBody_esc (e ch : Byte) (X : List Byte) (he : e ≠ 0x75)
    (hu : unescape e = some ch) :
    unquoteBody (0x5C :: e :: X) = (unquoteBody X).map (fun x => (ch :: x.1, x.2)) := by
  rw [unquoteBody.eq_def]
  simp [he, hu]

theorem encodeRune_ascii (b : Byte) (h : b.val < 0x80) : EncodeRune b.val = [b] := by
  simp [EncodeRune, h, byte_ofNat_val]

/-- An ASCII byte outside `htmlSafeSet` is read back from its escape. -/
theorem unquoteBody_escapeByte (b : Byte) (X : List Byte) (h : b.val < 0x80) :
    unquoteBody (escapeByte b ++ X) = (unquoteBody X).map (fun x => (b :: x.1, x.2)) := by
  unfold escapeByte
  by_cases h1 : b = 0x5C ∨ b = 0x22
  · rw [if_pos h1]
    rcases h1 with h1 | h1 <;> subst h1 <;>
      exact unquoteBody_esc _ _ X (by decide) (by decide)
  rw [if_neg h1]
  by_cases h2 : b = 0x08
  · rw [if_pos h2]; subst h2
    exact unquoteBody_esc _ _ X (by decide) (by decide)
  rw [if_neg h2]
  by_cases h3 : b = 0x0C
  · rw [if_pos h3]; subst h3
    exact unquoteBody_esc _ _ X (by decide) (by decide)
  rw [if_neg h3]
  by_cases h4 : b = 0x0A
  · rw [if_pos h4]; subst h4
    exact unquoteBody_esc _ _ X (by decide) (by decide)
  rw [if_neg h4]
  by_cases h5 : b = 0x0D
  · rw [if_pos h5]; subst h5
    exact unquoteBody_esc _ _ X (by decide) (by decide)
  rw [if_neg h5]
  by_cases h6 : b = 0x09
  · rw [if_pos h6]; subst h6
    exact unquoteBody_esc _ _ X (by decide) (by decide)
  rw [if_neg h6]
  have hx : hexVal (hexDigit (b.val / 16)) = some (b.val / 16) :=
    hexVal_hexDigit _ (by omega)
  have hy : hexVal (hexDigit (b.val % 16)) = some (b.val % 16) :=
    hexVal_hexDigit _ (by omega)
  have h0 : hexVal 0x30 = some 0 := by decide
  have := unquoteBody_u 0x30 0x30 _ _ 0 0 _ _ X h0 h0 hx hy
  have hv : ((0 * 16 + 0) * 16 + b.val / 16) * 16 + b.val % 16 = b.val := by omega
  rw [hv, encodeRune_ascii b h] at this
  exact this

theorem unquoteBody_ufffd (X : List Byte) :
    unquoteBody (ascii "\\ufffd" ++ X)
      = (unquoteBody X).map (fun x => ([0xEF, 0xBF, 0xBD] ++ x.1, x.2)) := by
  have := unquoteBody_u 0x66 0x66 0x66 0x64 15 15 15 13 X (by decide) (by decide) (by decide)
    (by decide)
  have hr : EncodeRune (((15 * 16 + 15) * 16 + 15) * 16 + 13) = [0xEF, 0xBF, 0xBD] := by
    decide
  rw [hr] at this
  exact this

theorem unquoteBody_u2028 (X : List Byte) :
    unquoteBody (ascii "\\u202" ++ hexDigit (0x2028 % 16) :: X)
      = (unquoteBody X).map (fun x => ([0xE2, 0x80, 0xA8] ++ x.1, x.2)) := by
  have := unquoteBody_u 0x32 0x30 0x32 0x38 2 0 2 8 X (by decide) (by decide) (by decide)
    (by decide)
  have hr : EncodeRune (((2 * 16 + 0) * 16 + 2) * 16 + 8) = [0xE2, 0x80, 0xA8] := by decide
  rw [hr] at this
  exact this

theorem unquoteBody_u2029 (X : List Byte) :
    unquoteBody (ascii "\\u202" ++ hexDigit (0x2029 % 16) :: X)
      = (unquoteBody X).map (fun x => ([0xE2, 0x80, 0xA9] ++ x.1, x.2)) := by
  have := unquoteBody_u 0x32 0x30 0x32 0x39 2 0 2 9 X (by decide) (by decide) (by decide)
    (by decide)
  have hr : EncodeRune (((2 * 16 + 0) * 16 + 2) * 16 + 9) = [0xE2, 0x80, 0xA9] := by decide
  rw [hr] at this
  exact this

/-- What `DecodeRuneInString` finds at a byte that is not ASCII: an invalid
byte, or a well-formed sequence of two, three or four bytes, none of them
ASCII; only `E2 80 A8` and `E2 80 A9` decode to U+2028 and U+2029. -/
theorem decodeRune_cases (b : Byte) (rest : List Byte) (hb : 0x80 ≤ b.val) :
    ((DecodeRuneInString (b :: rest)).1 = RuneError ∧
      (DecodeRuneInString (b :: rest)).2 = 1) ∨
    (∃ b1 r, rest = b1 :: r ∧ 0x80 ≤ b1.val ∧ (DecodeRuneInString (b :: rest)).2 = 2 ∧
      (DecodeRuneInString (b :: rest)).1 < 0x800) ∨
    (∃ b1 b2 r, rest = b1 :: b2 :: r ∧ 0x80 ≤ b1.val ∧ 0x80 ≤ b2.val ∧
      (DecodeRuneInString (b :: rest)).2 = 3 ∧
      ((DecodeRuneInString (b :: rest)).1 = 0x2028 → b = 0xE2 ∧ b1 = 0x80 ∧ b2 = 0xA8) ∧
      ((DecodeRuneInString (b :: rest)).1 = 0x2029 → b = 0xE2 ∧ b1 = 0x80 ∧ b2 = 0xA9)) ∨
    (∃ b1 b2 b3 r, rest = b1 :: b2 :: b3 :: r ∧ 0x80 ≤ b1.val ∧ 0x80 ≤ b2.val ∧
      0x80 ≤ b3.val ∧ (DecodeRuneInString (b :: rest)).2 = 4 ∧
      0x10000 ≤ (DecodeRuneInString (b :: rest)).1) := by
  have h0 : ¬ b.val < 0x80 := Nat.not_lt.mpr hb
  have hlt := b.isLt
  by_cases h1 : b.val < 0xC2
  · left; simp [DecodeRuneInString, h0, h1]
  by_cases h2 : b.val < 0xE0
  · rcases rest with _ | ⟨b1, r⟩
    · left; simp [DecodeRuneInString, h0, h1, h2]
    · by_cases hc : b1.val < 0x80 ∨ 0xBF < b1.val
      · left; simp [DecodeRuneInString, h0, h1, h2, hc]
      · right; left
        have hval : (DecodeRuneInString (b :: b1 :: r))
            = ((b.val % 32) * 64 + b1.val % 64, 2) := by
          simp [DecodeRuneInString, h0, h1, h2, hc]
        refine ⟨b1, r, rfl, by omega, by rw [hval], ?_⟩
        rw [hval]
        simp only
        omega
  by_cases h3 : b.val < 0xF0
  · rcases rest with _ | ⟨b1, _ | ⟨b2, r⟩⟩
    · left; simp [DecodeRuneInString, h0, h1, h2, h3]
    · left; simp [DecodeRuneInString, h0, h1, h2, h3]
    · by_cases hc1 : b1.val < (if b.val = 0xE0 then 0xA0 else 0x80) ∨
          (if b.val = 0xED then 0x9F else 0xBF) < b1.val
      · left; simp [DecodeRuneInString, h0, h1, h2, h3, hc1]
      · by_cases hc2 : b2.val < 0x80 ∨ 0xBF < b2.val
        · left; simp [DecodeRuneInString, h0, h1, h2, h3, hc1, hc2]
        · right; right; left
          have hb1 : 0x80 ≤ b1.val ∧ b1.val ≤ 0xBF := by
            split_ifs at hc1 <;> omega
          have hval : (DecodeRuneInString (b :: b1 :: b2 :: r))
              = ((b.val % 16) * 4096 + (b1.val % 64) * 64 + b2.val % 64, 3) := by
            simp [DecodeRuneInString, h0, h1, h2, h3, hc1, hc2]
          refine ⟨b1, b2, r, rfl, hb1.1, by omega, by rw [hval], ?_, ?_⟩
          · rw [hval]
            intro hv
            simp only at hv
            refine ⟨Fin.ext ?_, Fin.ext ?_, Fin.ext ?_⟩
            · show b.val = 0xE2; omega
            · show b1.val = 0x80; omega
            · show b2.val = 0xA8; omega
          · rw [hval]
            intro hv
            simp only at hv
            refine ⟨Fin.ext ?_, Fin.ext ?_, Fin.ext ?_⟩
            · show b.val = 0xE2; omega
            · show b1.val = 0x80; omega
            · show b2.val = 0xA9; omega
  by_cases h4 : b.val < 0xF5
  · rcases rest with _ | ⟨b1, _ | ⟨b2, _ | ⟨b3, r⟩⟩⟩
    · left; simp [DecodeRuneInString, h0, h1, h2, h3, h4]
    · left; simp [DecodeRuneInString, h0, h1, h2, h3, h4]
    · left; simp [DecodeRuneInString, h0, h1, h2, h3, h4]
    · by_cases hc1 : b1.val < (if b.val = 0xF0 then 0x90 else 0x80) ∨
          (if b.val = 0xF4 then 0x8F else 0xBF) < b1.val
      · left; simp [DecodeRuneInString, h0, h1, h2, h3, h4, hc1]
      · by_cases hc2 : b2.val < 0x80 ∨ 0xBF < b2.val
        · left; simp [DecodeRuneInString, h0, h1, h2, h3, h4, hc1, hc2]
        · by_cases hc3 : b3.val < 0x80 ∨ 0xBF < b3.val
          · left; simp [DecodeRuneInString, h0, h1, h2, h3, h4, hc1, hc2, hc3]
          · right; right; right
            have hb1 : 0x80 ≤ b1.val ∧ (b.val = 0xF0 → 0x90 ≤ b1.val) := by
              split_ifs at hc1 <;> omega
            have hb1' : b1.val ≤ 0xBF := by
              split_ifs at hc1 <;> omega
            have hval : (DecodeRuneInString (b :: b1 :: b2 :: b3 :: r))
                = ((b.val % 8) * 262144 + (b1.val % 64) * 4096 + (b2.val % 64) * 64
                    + b3.val % 64, 4) := by
              simp [DecodeRuneInString, h0, h1, h2, h3, h4, hc1, hc2, hc3]
            refine ⟨b1, b2, b3, r, rfl, hb1.1, by omega, by omega, by rw [hval], ?_⟩
            rw [hval]
            simp only
            clear hc1 hval
            by_cases hf0 : b.val = 0xF0
            · have := hb1.2 hf0
              omega
            · omega
  · left; simp [DecodeRuneInString, h0, h1, h2, h3, h4]

theorem htmlSafe_plain (b : Byte) (h : htmlSafe b = true) :
    b ≠ 0x22 ∧ b ≠ 0x5C ∧ 0x20 ≤ b.val := by
  simp only [htmlSafe, Bool.and_eq_true, decide_eq_true_eq, bne_iff_ne, ne_eq] at h
  exact ⟨h.1.1.1.1.2, h.1.1.1.2, h.1.1.1.1.1.1⟩

/-- Reading back what the encoder wrote for a string gives the string with its
invalid bytes replaced, and stops behind the closing quote. -/
theorem unquoteBody_appendStringLoop :
    ∀ (fuel : Nat) (s : GoString) (rest : List Byte), s.length ≤ fuel →
      unquoteBody (appendStringLoop fuel s ++ 0x22 :: rest)
        = some (coerceUTF8 fuel s, rest) := by
  intro fuel
  induction fuel with
  | zero =>
    intro s rest hs
    rw [unquoteBody.eq_def]
    simp [appendStringLoop, coerceUTF8]
  | succ fuel ih =>
    intro s rest hs
    rcases s with _ | ⟨b, r⟩
    · rw [unquoteBody.eq_def]
      simp [appendStringLoop, coerceUTF8]
    have hr : r.length ≤ fuel := by simpa using hs
    by_cases hb : b.val < 0x80
    · -- an ASCII byte
      have hco : coerceUTF8 (fuel + 1) (b :: r) = b :: coerceUTF8 fuel r := by
        simp [coerceUTF8, hb]
      rw [hco]
      by_cases hsafe : htmlSafe b = true
      · have hap : appendStringLoop (fuel + 1) (b :: r) = b :: appendStringLoop fuel r := by
          simp [appendStringLoop, hb, hsafe]
        obtain ⟨h1, h2, h3⟩ := htmlSafe_plain b hsafe
        rw [hap, List.cons_append, unquoteBody_plain b _ h1 h2 h3, ih r rest hr]
        rfl
      · have hap : appendStringLoop (fuel + 1) (b :: r)
            = escapeByte b ++ appendStringLoop fuel r := by
          simp [appendStringLoop, hb, hsafe]
        rw [hap, List.append_assoc, unquoteBody_escapeByte b _ hb, ih r rest hr]
        rfl
    · have hb' : 0x80 ≤ b.val := Nat.le_of_not_lt hb
      rcases decodeRune_cases b r hb' with hbad | ⟨b1, r', hr', hb1, hsz, hc⟩ |
          ⟨b1, b2, r', hr', hb1, hb2, hsz, h28, h29⟩ |
          ⟨b1, b2, b3, r', hr', hb1, hb2, hb3, hsz, hc⟩
      · -- a byte that starts no sequence
        have hco : coerceUTF8 (fuel + 1) (b :: r) = [0xEF, 0xBF, 0xBD] ++ coerceUTF8 fuel r := by
          simp [coerceUTF8, hb, hbad]
        have hap : appendStringLoop (fuel + 1) (b :: r)
            = ascii "\\ufffd" ++ appendStringLoop fuel r := by
          simp [appendStringLoop, hb, hbad]
        rw [hco, hap, List.append_assoc, unquoteBody_ufffd, ih r rest hr]
        rfl
      · -- two bytes
        subst hr'
        have hlen : r'.length ≤ fuel := by
          simp only [List.length_cons] at hr
          omega
        have hne : ¬ ((DecodeRuneInString (b :: b1 :: r')).1 = RuneError ∧
            (DecodeRuneInString (b :: b1 :: r')).2 = 1) := by
          rw [hsz]; simp
        have hn28 : ¬ ((DecodeRuneInString (b :: b1 :: r')).1 = 0x2028 ∨
            (DecodeRuneInString (b :: b1 :: r')).1 = 0x2029) := by
          omega
        have hco : coerceUTF8 (fuel + 1) (b :: b1 :: r') = b :: b1 :: coerceUTF8 fuel r' := by
          rw [coerceUTF8]
          simp only [hb, if_false, hsz]
          rw [if_neg (fun h => absurd h.2 (by decide))]
          rfl
        have hap : appendStringLoop (fuel + 1) (b :: b1 :: r')
            = b :: b1 :: appendStringLoop fuel r' := by
          rw [appendStringLoop]
          simp only [hb, if_false, hsz]
          rw [if_neg (fun h => absurd h.2 (by decide)), if_neg hn28]
          rfl
        rw [hco, hap, List.cons_append, List.cons_append, unquoteBody_high b _ hb',
          unquoteBody_high b1 _ hb1, ih r' rest hlen]
        rfl
      · -- three bytes
        subst hr'
        have hlen : r'.length ≤ fuel := by
          simp only [List.length_cons] at hr
          omega
        have hne : ¬ ((DecodeRuneInString (b :: b1 :: b2 :: r')).1 = RuneError ∧
            (DecodeRuneInString (b :: b1 :: b2 :: r')).2 = 1) := by
          rw [hsz]; simp
        have hco : coerceUTF8 (fuel + 1) (b :: b1 :: b2 :: r')
            = b :: b1 :: b2 :: coerceUTF8 fuel r' := by
          rw [coerceUTF8]
          simp only [hb, if_false, hsz]
          rw [if_neg (fun h => absurd h.2 (by decide))]
          rfl
        rw [hco]
        by_cases hc28 : (DecodeRuneInString (b :: b1 :: b2 :: r')).1 = 0x2028
        · obtain ⟨e0, e1, e2⟩ := h28 hc28
          have hap : appendStringLoop (fuel + 1) (b :: b1 :: b2 :: r')
              = ascii "\\u202" ++ hexDigit (0x2028 % 16) :: appendStringLoop fuel r' := by
            rw [appendStringLoop]
            simp only [hb, if_false, hsz]
            rw [if_neg (fun h => absurd h.2 (by decide)), if_pos (Or.inl hc28), hc28]
            rfl
          rw [hap, List.append_assoc, List.cons_append, unquoteBody_u2028, ih r' rest hlen,
            e0, e1, e2]
          rfl
        by_cases hc29 : (DecodeRuneInString (b :: b1 :: b2 :: r')).1 = 0x2029
        · obtain ⟨e0, e1, e2⟩ := h29 hc29
          have hap : appendStringLoop (fuel + 1) (b :: b1 :: b2 :: r')
              = ascii "\\u202" ++ hexDigit (0x2029 % 16) :: appendStringLoop fuel r' := by
            rw [appendStringLoop]
            simp only [hb, if_false, hsz]
            rw [if_neg (fun h => absurd h.2 (by decide)), if_pos (Or.inr hc29), hc29]
            rfl
          rw [hap, List.append_assoc, List.cons_append, unquoteBody_u2029, ih r' rest hlen,
            e0, e1, e2]
          rfl
        have hap : appendStringLoop (fuel + 1) (b :: b1 :: b2 :: r')
            = b :: b1 :: b2 :: appendStringLoop fuel r' := by
          rw [appendStringLoop]
          simp only [hb, if_false, hsz]
          rw [if_neg (fun h => absurd h.2 (by decide)),
            if_neg (fun h => h.elim hc28 hc29)]
          rfl
        rw [hap, List.cons_append, List.cons_append, List.cons_append,
          unquoteBody_high b _ hb', unquoteBody_high b1 _ hb1, unquoteBody_high b2 _ hb2,
          ih r' rest hlen]
        rfl
      · -- four bytes
        subst hr'
        have hlen : r'.length ≤ fuel := by
          simp only [List.length_cons] at hr
          omega
        have hne : ¬ ((DecodeRuneInString (b :: b1 :: b2 :: b3 :: r')).1 = RuneError ∧
            (DecodeRuneInString (b :: b1 :: b2 :: b3 :: r')).2 = 1) := by
          rw [hsz]; simp
        have hn28 : ¬ ((DecodeRuneInString (b :: b1 :: b2 :: b3 :: r')).1 = 0x2028 ∨
            (DecodeRuneInString (b :: b1 :: b2 :: b3 :: r')).1 = 0x2029) := by
          omega
        have hco : coerceUTF8 (fuel + 1) (b :: b1 :: b2 :: b3 :: r')
            = b :: b1 :: b2 :: b3 :: coerceUTF8 fuel r' := by
          rw [coerceUTF8]
          simp only [hb, if_false, hsz]
          rw [if_neg (fun h => absurd h.2 (by decide))]
          rfl
        have hap : appendStringLoop (fuel + 1) (b :: b1 :: b2 :: b3 :: r')
            = b :: b1 :: b2 :: b3 :: appendStringLoop fuel r' := by
          rw [appendStringLoop]
          simp only [hb, if_false, hsz]
          rw [if_neg (fun h => absurd h.2 (by decide)), if_neg hn28]
          rfl
        rw [hco, hap, List.cons_append, List.cons_append, List.cons_append, List.cons_append,
          unquoteBody_high b _ hb', unquoteBody_high b1 _ hb1, unquoteBody_high b2 _ hb2,
          unquoteBody_high b3 _ hb3, ih r' rest hlen]
        rfl

theorem validUTF8Loop_cons (fuel : Nat) (b0 : Byte) (rest : List Byte) :
    validUTF8Loop (fuel + 1) (b0 :: rest) =
      if b0.val < 0x80 then validUTF8Loop fuel rest
      else if 0xC2 ≤ b0.val ∧ b0.val ≤ 0xDF then
        match rest with
        | b1 :: r => isCont b1 && validUTF8Loop fuel r
        | _ => false
      else if 0xE0 ≤ b0.val ∧ b0.val ≤ 0xEF then
        match rest with
        | b1 :: b2 :: r =>
          isCont b1 && isCont b2 &&
            decide (b0.val = 0xE0 → 0xA0 ≤ b1.val) && decide (b0.val = 0xED → b1.val ≤ 0x9F) &&
            validUTF8Loop fuel r
        | _ => false
      else if 0xF0 ≤ b0.val ∧ b0.val ≤ 0xF4 then
        match rest with
        | b1 :: b2 :: b3 :: r =>
          isCont b1 && isCont b2 && isCont b3 &&
            decide (b0.val = 0xF0 → 0x90 ≤ b1.val) && decide (b0.val = 0xF4 → b1.val ≤ 0x8F) &&
            validUTF8Loop fuel r
        | _ => false
      else false := by
  rfl

/-- A well-formed string that starts with a non-ASCII byte starts with a
sequence of two, three or four bytes that `DecodeRuneInString` accepts, and
is well-formed behind it. -/
theorem validUTF8_cases (fuel : Nat) (b : Byte) (r : List Byte) (hb : 0x80 ≤ b.val)
    (hv : validUTF8Loop (fuel + 1) (b :: r) = true) :
    (∃ b1 r', r = b1 :: r' ∧ validUTF8Loop fuel r' = true ∧
      (DecodeRuneInString (b :: r)).2 = 2) ∨
    (∃ b1 b2 r', r = b1 :: b2 :: r' ∧ validUTF8Loop fuel r' = true ∧
      (DecodeRuneInString (b :: r)).2 = 3) ∨
    (∃ b1 b2 b3 r', r = b1 :: b2 :: b3 :: r' ∧ validUTF8Loop fuel r' = true ∧
      (DecodeRuneInString (b :: r)).2 = 4) := by
  have h0 : ¬ b.val < 0x80 := Nat.not_lt.mpr hb
  rw [validUTF8Loop_cons] at hv
  simp only [h0, if_false] at hv
  by_cases h2 : 0xC2 ≤ b.val ∧ b.val ≤ 0xDF
  · rw [if_pos h2] at hv
    rcases r with _ | ⟨b1, r'⟩
    · simp at hv
    · simp only [Bool.and_eq_true, isCont, decide_eq_true_eq] at hv
      left
      refine ⟨b1, r', rfl, hv.2, ?_⟩
      have e1 : ¬ b.val < 0xC2 := by omega
      have e2 : b.val < 0xE0 := by omega
      have e3 : ¬ (b1.val < 0x80 ∨ 0xBF < b1.val) := by omega
      simp [DecodeRuneInString, h0, e1, e2, e3]
  rw [if_neg h2] at hv
  by_cases h3 : 0xE0 ≤ b.val ∧ b.val ≤ 0xEF
  · rw [if_pos h3] at hv
    rcases r with _ | ⟨b1, _ | ⟨b2, r'⟩⟩
    · simp at hv
    · simp at hv
    · simp only [Bool.and_eq_true, isCont, decide_eq_true_eq] at hv
      right; left
      refine ⟨b1, b2, r', rfl, hv.2, ?_⟩
      obtain ⟨⟨⟨⟨hc1, hc2⟩, he0⟩, hed⟩, _⟩ := hv
      have e1 : ¬ b.val < 0xC2 := by omega
      have e2 : ¬ b.val < 0xE0 := by omega
      have e3 : b.val < 0xF0 := by omega
      have e4 : ¬ (b1.val < (if b.val = 0xE0 then 0xA0 else 0x80) ∨
          (if b.val = 0xED then 0x9F else 0xBF) < b1.val) := by
        split_ifs <;> omega
      have e5 : ¬ (b2.val < 0x80 ∨ 0xBF < b2.val) := by omega
      simp [DecodeRuneInString, h0, e1, e2, e3, e4, e5]
  rw [if_neg h3] at hv
  by_cases h4 : 0xF0 ≤ b.val ∧ b.val ≤ 0xF4
  · rw [if_pos h4] at hv
    rcases r with _ | ⟨b1, _ | ⟨b2, _ | ⟨b3, r'⟩⟩⟩
    · simp at hv
    · simp at hv
    · simp at hv
    · simp only [Bool.and_eq_true, isCont, decide_eq_true_eq] at hv
      right; right
      refine ⟨b1, b2, b3, r', rfl, hv.2, ?_⟩
      obtain ⟨⟨⟨⟨⟨hc1, hc2⟩, hc3⟩, hf0⟩, hf4⟩, _⟩ := hv
      have e1 : ¬ b.val < 0xC2 := by omega
      have e2 : ¬ b.val < 0xE0 := by omega
      have e3 : ¬ b.val < 0xF0 := by omega
      have e3' : b.val < 0xF5 := by omega
      have e4 : ¬ (b1.val < (if b.val = 0xF0 then 0x90 else 0x80) ∨
          (if b.val = 0xF4 then 0x8F else 0xBF) < b1.val) := by
        split_ifs <;> omega
      have e5 : ¬ (b2.val < 0x80 ∨ 0xBF < b2.val) := by omega
      have e6 : ¬ (b3.val < 0x80 ∨ 0xBF < b3.val) := by omega
      simp [DecodeRuneInString, h0, e1, e2, e3, e3', e4, e5, e6]
  · rw [if_neg h4] at hv
    exact Bool.noConfusion hv

/-- More fuel than needed changes nothing for a well-formed string. -/
theorem validUTF8Loop_mono :
    ∀ (fuel : Nat) (s : List Byte), validUTF8Loop fuel s = true →
      validUTF8Loop (fuel + 1) s = true := by
  intro fuel
  induction fuel with
  | zero =>
    intro s h
    rcases s with _ | ⟨b, r⟩
    · rfl
    · simp [validUTF8Loop] at h
  | succ fuel ih =>
    intro s h
    rcases s with _ | ⟨b, r⟩
    · rfl
    by_cases hb : b.val < 0x80
    · rw [validUTF8Loop_cons] at h ⊢
      simp only [hb, if_true] at h ⊢
      exact ih r h
    · have hb' : 0x80 ≤ b.val := Nat.le_of_not_lt hb
      have key := h
      rw [validUTF8Loop_cons] at key ⊢
      simp only [hb, if_false] at key ⊢
      by_cases h2 : 0xC2 ≤ b.val ∧ b.val ≤ 0xDF
      · rw [if_pos h2] at key ⊢
        rcases r with _ | ⟨b1, r'⟩
        · simp at key
        · simp only [Bool.and_eq_true] at key ⊢
          exact ⟨key.1, ih r' key.2⟩
      rw [if_neg h2] at key ⊢
      by_cases h3 : 0xE0 ≤ b.val ∧ b.val ≤ 0xEF
      · rw [if_pos h3] at key ⊢
        rcases r with _ | ⟨b1, _ | ⟨b2, r'⟩⟩
        · simp at key
        · simp at key
        · simp only [Bool.and_eq_true] at key ⊢
          exact ⟨key.1, ih r' key.2⟩
      rw [if_neg h3] at key ⊢
      by_cases h4 : 0xF0 ≤ b.val ∧ b.val ≤ 0xF4
      · rw [if_pos h4] at key ⊢
        rcases r with _ | ⟨b1, _ | ⟨b2, _ | ⟨b3, r'⟩⟩⟩
        · simp at key
        · simp at key
        · simp at key
        · simp only [Bool.and_eq_true] at key ⊢
          exact ⟨key.1, ih r' key.2⟩
      · rw [if_neg h4] at key
        exact Bool.noConfusion key

/-- Well-formed UTF-8 is left as it is. -/
theorem coerceUTF8_valid :
    ∀ (fuel n : Nat) (s : GoString), validUTF8Loop fuel s = true → s.length ≤ n →
      coerceUTF8 n s = s := by
  intro fuel
  induction fuel with
  | zero =>
    intro n s hv _
    rcases s with _ | ⟨b, r⟩
    · cases n <;> rfl
    · simp [validUTF8Loop] at hv
  | succ fuel ih =>
    intro n s hv hs
    rcases s with _ | ⟨b, r⟩
    · cases n <;> rfl
    rcases n with _ | n
    · simp at hs
    have hr : r.length ≤ n := by simpa using hs
    by_cases hb : b.val < 0x80
    · have hv' : validUTF8Loop fuel r = true := by
        rw [validUTF8Loop_cons] at hv
        simpa [hb] using hv
      rw [coerceUTF8]
      simp only [hb, if_true]
      rw [ih n r hv' hr]
    · have hb' : 0x80 ≤ b.val := Nat.le_of_not_lt hb
      rcases validUTF8_cases fuel b r hb' hv with ⟨b1, r', hr', hv', hsz⟩ |
          ⟨b1, b2, r', hr', hv', hsz⟩ | ⟨b1, b2, b3, r', hr', hv', hsz⟩
      · subst hr'
        have hlen : r'.length ≤ n := by
          simp only [List.length_cons] at hr
          omega
        rw [coerceUTF8]
        simp only [hb, if_false, hsz]
        rw [if_neg (fun h => absurd h.2 (by decide))]
        show b :: b1 :: coerceUTF8 n r' = _
        rw [ih n r' hv' hlen]
      · subst hr'
        have hlen : r'.length ≤ n := by
          simp only [List.length_cons] at hr
          omega
        rw [coerceUTF8]
        simp only [hb, if_false, hsz]
        rw [if_neg (fun h => absurd h.2 (by decide))]
        show b :: b1 :: b2 :: coerceUTF8 n r' = _
        rw [ih n r' hv' hlen]
      · subst hr'
        have hlen : r'.length ≤ n := by
          simp only [List.length_cons] at hr
          omega
        rw [coerceUTF8]
        simp only [hb, if_false, hsz]
        rw [if_neg (fun h => absurd h.2 (by decide))]
        show b :: b1 :: b2 :: b3 :: coerceUTF8 n r' = _
        rw [ih n r' hv' hlen]

theorem dropLit_append (lit X : List Byte) : dropLit lit (lit ++ X) = some X := by
  induction lit with
  | nil => cases X <;> rfl
  | cons a l ih => simp [dropLit, ih]

/-- Reading back an encoded string value that is followed by `rest`. -/
theorem unquoteBody_appendString (s : GoString) (rest : List Byte) :
    unquoteBody (appendStringLoop s.length s ++ [0x22] ++ rest)
      = some (coerceUTF8 s.length s, rest) := by
  rw [List.append_assoc]
  exact unquoteBody_appendStringLoop s.length s rest (Nat.le_refl _)

/-- The decoder reads from an encoded message the sender and the content, each
with its invalid bytes replaced, and is left with the digits of the timestamp
and the closing brace. -/
theorem decodeMessage_Marshal (msg : Message) :
    decodeMessage (Marshal msg)
      = some (coerceUTF8 msg.Sender.length msg.Sender,
          coerceUTF8 msg.Content.length msg.Content,
          formatInt msg.Timestamp ++ ascii "\x7d") := by
  have e1 : Marshal msg = ascii "\x7b\"sender\":\"" ++
      (appendStringLoop msg.Sender.length msg.Sender ++ [0x22] ++
        (ascii ",\"content\":\"" ++
          (appendStringLoop msg.Content.length msg.Content ++ [0x22] ++
            (ascii ",\"timestamp\":" ++ (formatInt msg.Timestamp ++ ascii "\x7d"))))) := by
    simp only [Marshal, appendString]
    rfl
  rw [e1]
  simp only [decodeMessage, dropLit_append, Option.some_bind, Option.bind_some,
    unquoteBody_appendString]

theorem readPump_iter_frame (u : GoString) (p : List Byte) (t : Int)
    (hlen : p.length ≤ 1024) :
    ReadPump.iter u (.frame p) t
      = some (Marshal { Sender := u, Content := p, Timestamp := t }) := by
  simp [ReadPump.iter, ReadMessage, hlen]

/-- C8. Server-built message and wire shape: for a frame of at most 1024 bytes
the reader sends to the hub `json.Marshal` of the message whose sender is the
connection's name, whose content is the payload and whose timestamp is the
clock reading; the encoding consists of the members `sender`, `content` and
`timestamp` in this order; what a decoder reads as sender and as timestamp is
determined by the name and the clock, whatever the payload is; and the name
`A` with the payload `hello` gives `{"sender":"A","content":"hello","timestamp":t}`. -/
theorem reader_builds_message (u : GoString) (p : List Byte) (t : Int)
    (hlen : p.length ≤ 1024) :
    ReadPump.iter u (.frame p) t
      = some (Marshal { Sender := u, Content := p, Timestamp := t }) ∧
    Marshal { Sender := u, Content := p, Timestamp := t }
      = ascii "\x7b\"sender\":" ++ (appendString u ++ (ascii ",\"content\":" ++
          (appendString p ++ (ascii ",\"timestamp\":" ++ (formatInt t ++ ascii "\x7d"))))) ∧
    ((ReadPump.iter u (.frame p) t).bind decodeMessage).map (fun x => (x.1, x.2.2))
      = some (coerceUTF8 u.length u, formatInt t ++ ascii "\x7d") ∧
    ReadPump.iter (ascii "A") (.frame (ascii "hello")) t
      = some (ascii "\x7b\"sender\":\"A\",\"content\":\"hello\",\"timestamp\":"
          ++ (formatInt t ++ ascii "\x7d")) := by
  refine ⟨readPump_iter_frame u p t hlen, rfl, ?_, rfl⟩
  rw [readPump_iter_frame u p t hlen, Option.some_bind, decodeMessage_Marshal]
  rfl

/-- C8 for the name `A`, a payload that carries a timestamp of its own, and the
clock reading 1700000000. -/
theorem reader_builds_message_witness :
    (ascii "\x7b\"timestamp\":1\x7d").length ≤ 1024 ∧
    ReadPump.iter (ascii "A") (.frame (ascii "\x7b\"timestamp\":1\x7d")) 1700000000
      = some (ascii
          "\x7b\"sender\":\"A\",\"content\":\"\x7b\\\"timestamp\\\":1\x7d\",\"timestamp\":1700000000\x7d") ∧
    ((ReadPump.iter (ascii "A") (.frame (ascii "\x7b\"timestamp\":1\x7d")) 1700000000).bind
        decodeMessage).map (fun x => (x.1, x.2.2))
      = some (coerceUTF8 (ascii "A").length (ascii "A"),
          formatInt 1700000000 ++ ascii "\x7d") :=
  ⟨by decide, by decide,
    (reader_builds_message (ascii "A") (ascii "\x7b\"timestamp\":1\x7d") 1700000000
      (by decide)).2.2.1⟩

/-! ## The escapes of the encoder -/

/-- Fuel beyond the length of the string changes nothing for the encoder. -/
theorem appendStringLoop_succ :
    ∀ (fuel : Nat) (s : GoString), s.length ≤ fuel →
      appendStringLoop (fuel + 1) s = appendStringLoop fuel s := by
  intro fuel
  induction fuel with
  | zero =>
    intro s hs
    have : s = [] := List.length_eq_zero.mp (Nat.le_zero.mp hs)
    subst this
    rfl
  | succ fuel ih =>
    intro s hs
    rcases s with _ | ⟨b, r⟩
    · rfl
    have hr : r.length ≤ fuel := by simpa using hs
    have hd : ∀ k, (r.drop k).length ≤ fuel := fun k => by
      rw [List.length_drop]; omega
    rw [appendStringLoop, appendStringLoop]
    simp only [ih r hr, ih _ (hd _)]

theorem appendStringLoop_fuel (s : GoString) :
    ∀ n, appendStringLoop (s.length + n) s = appendStringLoop s.length s := by
  intro n
  induction n with
  | zero => rfl
  | succ n ih =>
    rw [← Nat.add_assoc, appendStringLoop_succ _ s (by omega), ih]

/-- What follows a string does not change the first rune that
`DecodeRuneInString` finds in it, as long as it does not start with a
continuation byte. -/
theorem decodeRune_append (b : Byte) (x y : List Byte)
    (hy : ∀ c ∈ y.head?, c.val < 0x80 ∨ 0xBF < c.val) :
    DecodeRuneInString (b :: (x ++ y)) = DecodeRuneInString (b :: x) := by
  by_cases h0 : b.val < 0x80
  · simp [DecodeRuneInString, h0]
  by_cases h1 : b.val < 0xC2
  · simp [DecodeRuneInString, h0, h1]
  by_cases h2 : b.val < 0xE0
  · rcases x with _ | ⟨x1, xr⟩
    · rcases y with _ | ⟨y1, yr⟩
      · rfl
      · have hy1 : y1.val < 0x80 ∨ 0xBF < y1.val := hy y1 (by simp)
        simp [DecodeRuneInString, h0, h1, h2, hy1]
    · simp [DecodeRuneInString, h0, h1, h2]
  by_cases h3 : b.val < 0xF0
  · rcases x with _ | ⟨x1, _ | ⟨x2, xr⟩⟩
    · rcases y with _ | ⟨y1, _ | ⟨y2, yr⟩⟩
      · rfl
      · simp [DecodeRuneInString, h0, h1, h2, h3]
      · have hy1 : y1.val < 0x80 ∨ 0xBF < y1.val := hy y1 (by simp)
        have hc : y1.val < (if b.val = 0xE0 then 0xA0 else 0x80) ∨
            (if b.val = 0xED then 0x9F else 0xBF) < y1.val := by
          rcases hy1 with h | h
          · left; split_ifs <;> omega
          · right; split_ifs <;> omega
        simp [DecodeRuneInString, h0, h1, h2, h3, hc]
    · rcases y with _ | ⟨y1, yr⟩
      · rfl
      · have hy1 : y1.val < 0x80 ∨ 0xBF < y1.val := hy y1 (by simp)
        simp [DecodeRuneInString, h0, h1, h2, h3, hy1]
    · simp [DecodeRuneInString, h0, h1, h2, h3]
  by_cases h4 : b.val < 0xF5
  · rcases x with _ | ⟨x1, _ | ⟨x2, _ | ⟨x3, xr⟩⟩⟩
    · rcases y with _ | ⟨y1, _ | ⟨y2, _ | ⟨y3, yr⟩⟩⟩
      · rfl
      · simp [DecodeRuneInString, h0, h1, h2, h3, h4]
      · simp [DecodeRuneInString, h0, h1, h2, h3, h4]
      · have hy1 : y1.val < 0x80 ∨ 0xBF < y1.val := hy y1 (by simp)
        have hc : y1.val < (if b.val = 0xF0 then 0x90 else 0x80) ∨
            (if b.val = 0xF4 then 0x8F else 0xBF) < y1.val := by
          rcases hy1 with h | h
          · left; split_ifs <;> omega
          · right; split_ifs <;> omega
        simp [DecodeRuneInString, h0, h1, h2, h3, h4, hc]
    · rcases y with _ | ⟨y1, _ | ⟨y2, yr⟩⟩
      · rfl
      · simp [DecodeRuneInString, h0, h1, h2, h3, h4]
      · have hy1 : y1.val < 0x80 ∨ 0xBF < y1.val := hy y1 (by simp)
        simp [DecodeRuneInString, h0, h1, h2, h3, h4, hy1]
    · rcases y with _ | ⟨y1, yr⟩
      · rfl
      · have hy1 : y1.val < 0x80 ∨ 0xBF < y1.val := hy y1 (by simp)
        simp [DecodeRuneInString, h0, h1, h2, h3, h4, hy1]
    · simp [DecodeRuneInString, h0, h1, h2, h3, h4]
  · simp [DecodeRuneInString, h0, h1, h2, h3, h4]

/-- The width that `DecodeRuneInString` reports lies within the string. -/
theorem decodeRune_size (b : Byte) (r : List Byte) :
    1 ≤ (DecodeRuneInString (b :: r)).2 ∧ (DecodeRuneInString (b :: r)).2 ≤ r.length + 1 := by
  by_cases hb : b.val < 0x80
  · simp [DecodeRuneInString, hb]
  · rcases decodeRune_cases b r (Nat.le_of_not_lt hb) with hbad | ⟨b1, r', hr', _, hsz, _⟩ |
        ⟨b1, b2, r', hr', _, _, hsz, _, _⟩ | ⟨b1, b2, b3, r', hr', _, _, _, hsz, _⟩
    · rw [hbad.2]; omega
    · rw [hsz, hr']; simp
    · rw [hsz, hr']; simp
    · rw [hsz, hr']; simp

theorem appendStringLoop_low (fuel : Nat) (b : Byte) (rest : List Byte) (hb : b.val < 0x80) :
    appendStringLoop (fuel + 1) (b :: rest)
      = (if htmlSafe b then [b] else escapeByte b) ++ appendStringLoop fuel rest := by
  rw [appendStringLoop]
  simp only [hb, if_true]

theorem appendStringLoop_high (fuel : Nat) (b : Byte) (rest : List Byte)
    (hb : ¬ b.val < 0x80) :
    appendStringLoop (fuel + 1) (b :: rest)
      = if (DecodeRuneInString (b :: rest)).1 = RuneError ∧
            (DecodeRuneInString (b :: rest)).2 = 1 then
          ascii "\\ufffd" ++ appendStringLoop fuel rest
        else if (DecodeRuneInString (b :: rest)).1 = 0x2028 ∨
            (DecodeRuneInString (b :: rest)).1 = 0x2029 then
          ascii "\\u202" ++ hexDigit ((DecodeRuneInString (b :: rest)).1 % 16) ::
            appendStringLoop fuel (rest.drop ((DecodeRuneInString (b :: rest)).2 - 1))
        else
          (b :: rest).take (DecodeRuneInString (b :: rest)).2 ++
            appendStringLoop fuel (rest.drop ((DecodeRuneInString (b :: rest)).2 - 1)) := by
  rw [appendStringLoop]
  simp only [hb, if_false]

/-- The encoder works rune by rune: at a byte that is no continuation byte the
encoding of a string is the encoding of what is before it followed by the
encoding of what is from it on. -/
theorem appendStringLoop_append :
    ∀ (fuel : Nat) (pre : GoString), pre.length ≤ fuel → ∀ (s2 : GoString),
      (∀ c ∈ s2.head?, c.val < 0x80 ∨ 0xBF < c.val) →
      appendStringLoop (fuel + s2.length) (pre ++ s2)
        = appendStringLoop fuel pre ++ appendStringLoop s2.length s2 := by
  intro fuel
  induction fuel with
  | zero =>
    intro pre hp s2 _
    have : pre = [] := List.length_eq_zero.mp (Nat.le_zero.mp hp)
    subst this
    simp [appendStringLoop]
  | succ fuel ih =>
    intro pre hp s2 hy
    rcases pre with _ | ⟨b, r⟩
    · rw [List.nil_append, Nat.add_comm, appendStringLoop_fuel]
      rfl
    have hr : r.length ≤ fuel := by simpa using hp
    have e : fuel + 1 + s2.length = (fuel + s2.length) + 1 := by omega
    rw [e, List.cons_append]
    by_cases hb : b.val < 0x80
    · rw [appendStringLoop_low _ b _ hb, appendStringLoop_low _ b _ hb, ih r hr s2 hy,
        List.append_assoc]
    · have hsz := decodeRune_size b r
      have hdr : (r ++ s2).drop ((DecodeRuneInString (b :: r)).2 - 1)
          = r.drop ((DecodeRuneInString (b :: r)).2 - 1) ++ s2 :=
        List.drop_append_of_le_length (by omega)
      have htk : (b :: (r ++ s2)).take (DecodeRuneInString (b :: r)).2
          = (b :: r).take (DecodeRuneInString (b :: r)).2 := by
        rw [← List.cons_append]
        exact List.take_append_of_le_length (by simpa using hsz.2)
      have hdl : (r.drop ((DecodeRuneInString (b :: r)).2 - 1)).length ≤ fuel := by
        rw [List.length_drop]; omega
      rw [appendStringLoop_high _ b _ hb, appendStringLoop_high _ b _ hb,
        decodeRune_append b r s2 hy, hdr, htk, ih r hr s2 hy, ih _ hdl s2 hy]
      split_ifs <;> simp [List.append_assoc]

/-- The encoding of a string is the encoding of its parts, when the second
part does not start with a continuation byte. -/
theorem stringBody_append (pre s2 : GoString)
    (hy : ∀ c ∈ s2.head?, c.val < 0x80 ∨ 0xBF < c.val) :
    stringBody (pre ++ s2) = stringBody pre ++ stringBody s2 := by
  unfold stringBody
  rw [List.length_append]
  exact appendStringLoop_append pre.length pre (Nat.le_refl _) s2 hy

/-- What the encoder writes for an ASCII byte. -/
theorem stringBody_cons_low (b : Byte) (post : GoString) (hb : b.val < 0x80) :
    stringBody (b :: post)
      = (if htmlSafe b then [b] else escapeByte b) ++ stringBody post := by
  unfold stringBody
  rw [List.length_cons, appendStringLoop_low _ b _ hb]

/-- What the encoder writes for the three bytes `E2 80 lo` of U+2028 or
U+2029. -/
theorem stringBody_lineSep (post : GoString) :
    stringBody (0xE2 :: 0x80 :: 0xA8 :: post) = ascii "\\u2028" ++ stringBody post ∧
    stringBody (0xE2 :: 0x80 :: 0xA9 :: post) = ascii "\\u2029" ++ stringBody post := by
  have e : ∀ b : Byte, (0xE2 :: 0x80 :: b :: post).length = post.length + 2 + 1 := by
    intro b; simp
  have f := appendStringLoop_fuel post 2
  unfold stringBody
  constructor
  · rw [e, appendStringLoop_high _ _ _ (by decide)]
    have hd : DecodeRuneInString (0xE2 :: 0x80 :: 0xA8 :: post) = (0x2028, 3) := rfl
    rw [hd]
    simp only
    rw [if_neg (by decide), if_pos (by decide)]
    show ascii "\\u202" ++ hexDigit (0x2028 % 16) :: appendStringLoop (post.length + 2) post = _
    rw [f]
    rfl
  · rw [e, appendStringLoop_high _ _ _ (by decide)]
    have hd : DecodeRuneInString (0xE2 :: 0x80 :: 0xA9 :: post) = (0x2029, 3) := rfl
    rw [hd]
    simp only
    rw [if_neg (by decide), if_pos (by decide)]
    show ascii "\\u202" ++ hexDigit (0x2029 % 16) :: appendStringLoop (post.length + 2) post = _
    rw [f]
    rfl

/-- A byte that is not ASCII starts a sequence that `DecodeRuneInString`
rejects, or the string is well-formed exactly if it is behind that sequence. -/
theorem validUTF8_high (fuel : Nat) (b : Byte) (r : List Byte) (hb : 0x80 ≤ b.val) :
    ((DecodeRuneInString (b :: r)).1 = RuneError ∧ (DecodeRuneInString (b :: r)).2 = 1) ∨
    validUTF8Loop (fuel + 1) (b :: r)
      = validUTF8Loop fuel (r.drop ((DecodeRuneInString (b :: r)).2 - 1)) := by
  have h0 : ¬ b.val < 0x80 := Nat.not_lt.mpr hb
  have hlt := b.isLt
  by_cases h1 : b.val < 0xC2
  · left; simp [DecodeRuneInString, h0, h1]
  by_cases h2 : b.val < 0xE0
  · rcases r with _ | ⟨b1, r'⟩
    · left; simp [DecodeRuneInString, h0, h1, h2]
    · by_cases hc : b1.val < 0x80 ∨ 0xBF < b1.val
      · left; simp [DecodeRuneInString, h0, h1, h2, hc]
      · right
        have hval : (DecodeRuneInString (b :: b1 :: r'))
            = ((b.val % 32) * 64 + b1.val % 64, 2) := by
          simp [DecodeRuneInString, h0, h1, h2, hc]
        have e2 : 0xC2 ≤ b.val ∧ b.val ≤ 0xDF := by omega
        have e3 : isCont b1 = true := by
          simp only [isCont, Bool.and_eq_true, decide_eq_true_eq]; omega
        rw [hval, validUTF8Loop_cons]
        simp [h0, e2, e3]
  by_cases h3 : b.val < 0xF0
  · rcases r with _ | ⟨b1, _ | ⟨b2, r'⟩⟩
    · left; simp [DecodeRuneInString, h0, h1, h2, h3]
    · left; simp [DecodeRuneInString, h0, h1, h2, h3]
    · by_cases hc1 : b1.val < (if b.val = 0xE0 then 0xA0 else 0x80) ∨
          (if b.val = 0xED then 0x9F else 0xBF) < b1.val
      · left; simp [DecodeRuneInString, h0, h1, h2, h3, hc1]
      · by_cases hc2 : b2.val < 0x80 ∨ 0xBF < b2.val
        · left; simp [DecodeRuneInString, h0, h1, h2, h3, hc1, hc2]
        · right
          have hval : (DecodeRuneInString (b :: b1 :: b2 :: r'))
              = ((b.val % 16) * 4096 + (b1.val % 64) * 64 + b2.val % 64, 3) := by
            simp [DecodeRuneInString, h0, h1, h2, h3, hc1, hc2]
          have e2 : ¬ (0xC2 ≤ b.val ∧ b.val ≤ 0xDF) := by omega
          have e3 : 0xE0 ≤ b.val ∧ b.val ≤ 0xEF := by omega
          have hb1 : 0x80 ≤ b1.val ∧ b1.val ≤ 0xBF ∧ (b.val = 0xE0 → 0xA0 ≤ b1.val) ∧
              (b.val = 0xED → b1.val ≤ 0x9F) := by
            split_ifs at hc1 <;> omega
          have e4 : isCont b1 = true := by
            simp only [isCont, Bool.and_eq_true, decide_eq_true_eq]; omega
          have e5 : isCont b2 = true := by
            simp only [isCont, Bool.and_eq_true, decide_eq_true_eq]; omega
          rw [hval, validUTF8Loop_cons]
          simp only [h0, e2, e3, e4, e5, if_false, if_true, Bool.true_and, List.drop_succ_cons,
            List.drop_zero, Nat.add_one_sub_one]
          have d1 : decide (b.val = 0xE0 → 0xA0 ≤ b1.val) = true := decide_eq_true hb1.2.2.1
          have d2 : decide (b.val = 0xED → b1.val ≤ 0x9F) = true := decide_eq_true hb1.2.2.2
          rw [d1, d2]
          rfl
  by_cases h4 : b.val < 0xF5
  · rcases r with _ | ⟨b1, _ | ⟨b2, _ | ⟨b3, r'⟩⟩⟩
    · left; simp [DecodeRuneInString, h0, h1, h2, h3, h4]
    · left; simp [DecodeRuneInString, h0, h1, h2, h3, h4]
    · left; simp [DecodeRuneInString, h0, h1, h2, h3, h4]
    · by_cases hc1 : b1.val < (if b.val = 0xF0 then 0x90 else 0x80) ∨
          (if b.val = 0xF4 then 0x8F else 0xBF) < b1.val
      · left; simp [DecodeRuneInString, h0, h1, h2, h3, h4, hc1]
      · by_cases hc2 : b2.val < 0x80 ∨ 0xBF < b2.val
        · left; simp [DecodeRuneInString, h0, h1, h2, h3, h4, hc1, hc2]
        · by_cases hc3 : b3.val < 0x80 ∨ 0xBF < b3.val
          · left; simp [DecodeRuneInString, h0, h1, h2, h3, h4, hc1, hc2, hc3]
          · right
            have hval : (DecodeRuneInString (b :: b1 :: b2 :: b3 :: r'))
                = ((b.val % 8) * 262144 + (b1.val % 64) * 4096 + (b2.val % 64) * 64
                    + b3.val % 64, 4) := by
              simp [DecodeRuneInString, h0, h1, h2, h3, h4, hc1, hc2, hc3]
            have e2 : ¬ (0xC2 ≤ b.val ∧ b.val ≤ 0xDF) := by omega
            have e3 : ¬ (0xE0 ≤ b.val ∧ b.val ≤ 0xEF) := by omega
            have e3' : 0xF0 ≤ b.val ∧ b.val ≤ 0xF4 := by omega
            have hb1 : 0x80 ≤ b1.val ∧ b1.val ≤ 0xBF ∧ (b.val = 0xF0 → 0x90 ≤ b1.val) ∧
                (b.val = 0xF4 → b1.val ≤ 0x8F) := by
              split_ifs at hc1 <;> omega
            have e4 : isCont b1 = true := by
              simp only [isCont, Bool.and_eq_true, decide_eq_true_eq]; omega
            have e5 : isCont b2 = true := by
              simp only [isCont, Bool.and_eq_true, decide_eq_true_eq]; omega
            have e6 : isCont b3 = true := by
              simp only [isCont, Bool.and_eq_true, decide_eq_true_eq]; omega
            rw [hval, validUTF8Loop_cons]
            simp only [h0, e2, e3, e3', e4, e5, e6, if_false, if_true, Bool.true_and,
              List.drop_succ_cons, List.drop_zero, Nat.add_one_sub_one]
            have d1 : decide (b.val = 0xF0 → 0x90 ≤ b1.val) = true := decide_eq_true hb1.2.2.1
            have d2 : decide (b.val = 0xF4 → b1.val ≤ 0x8F) = true := decide_eq_true hb1.2.2.2
            rw [d1, d2]
            rfl
  · left; simp [DecodeRuneInString, h0, h1, h2, h3, h4]

theorem coerceUTF8_low (fuel : Nat) (b : Byte) (rest : List Byte) (hb : b.val < 0x80) :
    coerceUTF8 (fuel + 1) (b :: rest) = b :: coerceUTF8 fuel rest := by
  rw [coerceUTF8]
  simp only [hb, if_true]

theorem coerceUTF8_high (fuel : Nat) (b : Byte) (rest : List Byte) (hb : ¬ b.val < 0x80) :
    coerceUTF8 (fuel + 1) (b :: rest)
      = if (DecodeRuneInString (b :: rest)).1 = RuneError ∧
            (DecodeRuneInString (b :: rest)).2 = 1 then
          [0xEF, 0xBF, 0xBD] ++ coerceUTF8 fuel rest
        else
          (b :: rest).take (DecodeRuneInString (b :: rest)).2
            ++ coerceUTF8 fuel (rest.drop ((DecodeRuneInString (b :: rest)).2 - 1)) := by
  rw [coerceUTF8]
  simp only [hb, if_false]

/-- Replacing the invalid bytes never shortens a string, and lengthens one that
is not well-formed: each replacement puts three bytes for one. -/
theorem coerceUTF8_length :
    ∀ (fuel : Nat) (s : GoString), s.length ≤ fuel →
      s.length ≤ (coerceUTF8 fuel s).length ∧
      (validUTF8Loop fuel s = false → s.length < (coerceUTF8 fuel s).length) := by
  intro fuel
  induction fuel with
  | zero =>
    intro s hs
    have : s = [] := List.length_eq_zero.mp (Nat.le_zero.mp hs)
    subst this
    simp [coerceUTF8, validUTF8Loop]
  | succ fuel ih =>
    intro s hs
    rcases s with _ | ⟨b, r⟩
    · simp [coerceUTF8, validUTF8Loop]
    have hr : r.length ≤ fuel := by simpa using hs
    by_cases hb : b.val < 0x80
    · have hv : validUTF8Loop (fuel + 1) (b :: r) = validUTF8Loop fuel r := by
        rw [validUTF8Loop_cons]; simp [hb]
      rw [coerceUTF8_low _ b r hb, hv]
      simp only [List.length_cons]
      have := ih r hr
      exact ⟨by omega, fun h => by have := this.2 h; omega⟩
    · have hsz := decodeRune_size b r
      have hdl : (r.drop ((DecodeRuneInString (b :: r)).2 - 1)).length ≤ fuel := by
        rw [List.length_drop]; omega
      have ih1 := ih r hr
      have ih2 := ih _ hdl
      rw [List.length_drop] at ih2
      rw [coerceUTF8_high _ b r hb]
      by_cases hbad : (DecodeRuneInString (b :: r)).1 = RuneError ∧
          (DecodeRuneInString (b :: r)).2 = 1
      · rw [if_pos hbad]
        simp only [List.length_append, List.length_cons, List.length_nil]
        exact ⟨by omega, fun _ => by omega⟩
      · rw [if_neg hbad]
        have hv := (validUTF8_high fuel b r (Nat.le_of_not_lt hb)).resolve_left hbad
        rw [hv]
        simp only [List.length_append, List.length_take, List.length_cons]
        have hmin : min (DecodeRuneInString (b :: r)).2 (r.length + 1)
            = (DecodeRuneInString (b :: r)).2 := Nat.min_eq_left hsz.2
        rw [hmin]
        exact ⟨by omega, fun h => by have := ih2.2 h; omega⟩

/-- A string that is not well-formed UTF-8 is changed by the replacement. -/
theorem coerceUTF8_invalid (s : GoString) (h : validUTF8 s = false) :
    coerceUTF8 s.length s ≠ s := by
  intro e
  have := (coerceUTF8_length s.length s (Nat.le_refl _)).2 h
  rw [e] at this
  exact Nat.lt_irrefl _ this

set_option maxRecDepth 100000 in
/-- What `encoding/json` writes for each ASCII byte, spelled out. -/
theorem escape_table :
    ∀ b : Byte, b.val < 0x80 →
      (if htmlSafe b then [b] else escapeByte b)
        = if b = 0x22 then ascii "\\\""
          else if b = 0x5C then ascii "\\\\"
          else if b = 0x08 then ascii "\\b"
          else if b = 0x0C then ascii "\\f"
          else if b = 0x0A then ascii "\\n"
          else if b = 0x0D then ascii "\\r"
          else if b = 0x09 then ascii "\\t"
          else if b.val < 0x20 ∨ b = 0x3C ∨ b = 0x3E ∨ b = 0x26 then
            ascii "\\u00" ++ [hexDigit (b.val / 16), hexDigit (b.val % 16)]
          else [b] := by
  decide

theorem hexDigit_table : (List.range 16).map hexDigit = ascii "0123456789abcdef" := by
  decide

/-- What the encoder writes for a byte at which `DecodeRuneInString` finds no
well-formed sequence. -/
theorem stringBody_cons_bad (b : Byte) (post : GoString) (hb : 0x80 ≤ b.val)
    (hbad : DecodeRuneInString (b :: post) = (RuneError, 1)) :
    stringBody (b :: post) = ascii "\\ufffd" ++ stringBody post := by
  unfold stringBody
  rw [List.length_cons, appendStringLoop_high _ b _ (Nat.not_lt.mpr hb), hbad]
  simp

/-- C9 fails as stated: the payload `FF` is no valid UTF-8 and is read back as
U+FFFD, the payloads `FF` and `FE` are encoded alike, and the payload `<`
travels as the escape `\u003c`. -/
theorem content_not_verbatim :
    (ReadPump.iter (ascii "A") (.frame [0xFF]) 0).bind decodedContent
      = some [0xEF, 0xBF, 0xBD] ∧
    (ReadPump.iter (ascii "A") (.frame [0xFF]) 0).bind decodedContent ≠ some [0xFF] ∧
    ReadPump.iter (ascii "A") (.frame [0xFF]) 0 = ReadPump.iter (ascii "A") (.frame [0xFE]) 0 ∧
    ReadPump.iter (ascii "A") (.frame (ascii "<")) 0
      = some (ascii "\x7b\"sender\":\"A\",\"content\":\"\\u003c\",\"timestamp\":0\x7d") := by
  decide

/-- C9, amended.  For every payload `p` of at most 1024 bytes:
the reader forwards the object whose member `content` is the string literal
with `stringBody p` between its quotes;
the content that a decoder reads from it is `p` with each byte that starts no
well-formed UTF-8 sequence replaced by U+FFFD;
it is `p`, byte for byte, if `p` is well-formed UTF-8, and it is not `p` if `p`
is not well-formed;
the encoder escapes: wherever an ASCII byte stands in `p`, the literal has at
that place a backslash and the byte for a quote and a backslash, one of
`\b \f \n \r \t` or `\u00XX` for a control character, `\u003c`, `\u003e`,
`\u0026` for `<`, `>`, `&`, and the byte itself otherwise; it has `\u2028` and
`\u2029` for the three bytes of U+2028 and U+2029; and it has `\ufffd` for a
byte from `C0` on at which no well-formed sequence starts. -/
theorem content_roundtrip (u : GoString) (p : List Byte) (t : Int)
    (hlen : p.length ≤ 1024) :
    ReadPump.iter u (.frame p) t
      = some (ascii "\x7b\"sender\":" ++ (appendString u ++ (ascii ",\"content\":" ++
          ((0x22 :: (stringBody p ++ [0x22])) ++ (ascii ",\"timestamp\":" ++
            (formatInt t ++ ascii "\x7d")))))) ∧
    (ReadPump.iter u (.frame p) t).bind decodedContent = some (coerceUTF8 p.length p) ∧
    (validUTF8 p = true →
      (ReadPump.iter u (.frame p) t).bind decodedContent = some p) ∧
    (validUTF8 p = false →
      (ReadPump.iter u (.frame p) t).bind decodedContent ≠ some p) ∧
    (∀ (pre : GoString) (b : Byte) (post : GoString), p = pre ++ b :: post → b.val < 0x80 →
      stringBody p = stringBody pre ++
        ((if b = 0x22 then ascii "\\\""
          else if b = 0x5C then ascii "\\\\"
          else if b = 0x08 then ascii "\\b"
          else if b = 0x0C then ascii "\\f"
          else if b = 0x0A then ascii "\\n"
          else if b = 0x0D then ascii "\\r"
          else if b = 0x09 then ascii "\\t"
          else if b.val < 0x20 ∨ b = 0x3C ∨ b = 0x3E ∨ b = 0x26 then
            ascii "\\u00" ++ [hexDigit (b.val / 16), hexDigit (b.val % 16)]
          else [b]) ++ stringBody post)) ∧
    (List.range 16).map hexDigit = ascii "0123456789abcdef" ∧
    (∀ (pre post : GoString), p = pre ++ 0xE2 :: 0x80 :: 0xA8 :: post →
      stringBody p = stringBody pre ++ (ascii "\\u2028" ++ stringBody post)) ∧
    (∀ (pre post : GoString), p = pre ++ 0xE2 :: 0x80 :: 0xA9 :: post →
      stringBody p = stringBody pre ++ (ascii "\\u2029" ++ stringBody post)) ∧
    (∀ (pre : GoString) (b : Byte) (post : GoString), p = pre ++ b :: post → 0xC0 ≤ b.val →
      DecodeRuneInString (b :: post) = (RuneError, 1) →
      stringBody p = stringBody pre ++ (ascii "\\ufffd" ++ stringBody post)) := by
  have h : (ReadPump.iter u (.frame p) t).bind decodedContent
      = some (coerceUTF8 p.length p) := by
    rw [readPump_iter_frame u p t hlen, Option.some_bind]
    simp only [decodedContent, decodeMessage_Marshal, Option.map_some']
  refine ⟨(readPump_iter_frame u p t hlen).trans rfl, h, ?_, ?_, ?_, hexDigit_table, ?_, ?_, ?_⟩
  · intro hv
    rw [h, coerceUTF8_valid p.length p.length p hv (Nat.le_refl _)]
  · intro hv e
    rw [h] at e
    exact coerceUTF8_invalid p hv (Option.some.inj e)
  · intro pre b post hp hb
    rw [hp, stringBody_append pre (b :: post) (fun c hc => by
        simp only [List.head?_cons, Option.mem_def, Option.some.injEq] at hc
        subst hc; exact Or.inl hb),
      stringBody_cons_low b post hb, escape_table b hb]
  · intro pre post hp
    rw [hp, stringBody_append pre _ (fun c hc => by
        simp only [List.head?_cons, Option.mem_def, Option.some.injEq] at hc
        subst hc; exact Or.inr (by decide)),
      (stringBody_lineSep post).1]
  · intro pre post hp
    rw [hp, stringBody_append pre _ (fun c hc => by
        simp only [List.head?_cons, Option.mem_def, Option.some.injEq] at hc
        subst hc; exact Or.inr (by decide)),
      (stringBody_lineSep post).2]
  · intro pre b post hp hb hbad
    rw [hp, stringBody_append pre (b :: post) (fun c hc => by
        simp only [List.head?_cons, Option.mem_def, Option.some.injEq] at hc
        subst hc; exact Or.inr (by omega)),
      stringBody_cons_bad b post (by omega) hbad]

/-- C9, amended, for a payload with markup, quotes, a control character and
multi-byte characters, among them U+2028: it is read back as it is, and its
encoding has the escapes. -/
theorem content_roundtrip_witness :
    (ascii "<b>&\"x\\\n" ++ [0xE2, 0x80, 0xA8, 0xE2, 0x82, 0xAC, 0xF0, 0x9F, 0x98, 0x80]).length
      ≤ 1024 ∧
    validUTF8 (ascii "<b>&\"x\\\n" ++ [0xE2, 0x80, 0xA8, 0xE2, 0x82, 0xAC, 0xF0, 0x9F, 0x98,
      0x80]) = true ∧
    (ReadPump.iter (ascii "A")
      (.frame (ascii "<b>&\"x\\\n" ++ [0xE2, 0x80, 0xA8, 0xE2, 0x82, 0xAC, 0xF0, 0x9F, 0x98,
        0x80])) 5).bind decodedContent
      = some (ascii "<b>&\"x\\\n" ++ [0xE2, 0x80, 0xA8, 0xE2, 0x82, 0xAC, 0xF0, 0x9F, 0x98,
          0x80]) ∧
    ReadPump.iter (ascii "A")
      (.frame (ascii "<b>&\"x\\\n" ++ [0xE2, 0x80, 0xA8, 0xE2, 0x82, 0xAC, 0xF0, 0x9F, 0x98,
        0x80])) 5
      = some (ascii "\x7b\"sender\":\"A\",\"content\":\"\\u003cb\\u003e\\u0026\\\"x\\\\\\n\\u2028"
          ++ [0xE2, 0x82, 0xAC, 0xF0, 0x9F, 0x98, 0x80]
          ++ ascii "\",\"timestamp\":5\x7d") :=
  ⟨by decide, by decide,
    (content_roundtrip (ascii "A")
      (ascii "<b>&\"x\\\n" ++ [0xE2, 0x80, 0xA8, 0xE2, 0x82, 0xAC, 0xF0, 0x9F, 0x98, 0x80]) 5
      (by decide)).2.2.1 (by decide),
    by decide⟩

/-! ## Keepalive timing -/

theorem pingPeriod_eq : pingPeriod = 54000000000 := by decide

theorem pongWait_eq : pongWait = 60000000000 := by decide

/-- C12. Keepalive timing constants: `pongWait` is 60 seconds, `writeWait` is
10 seconds, and `(pongWait * 9) / 10`, computed in nanoseconds within the range
of an `int64`, is 54 seconds, which is less than `pongWait`; so for a ticker
of that period, after every time at which a read deadline is set, a tick
falls before that deadline. -/
theorem keepalive_constants :
    Second = 10 ^ 9 ∧ pongWait = 60 * Second ∧ writeWait = 10 * Second ∧
    pongWait * 9 < 2 ^ 63 ∧ pingPeriod = 54 * Second ∧ pingPeriod < pongWait ∧
    ∀ start t : Int, start ≤ t →
      ∃ k, t < tickAt start k ∧ tickAt start k < readDeadline t := by
  refine ⟨by decide, by decide, by decide, by decide, by decide, by decide, ?_⟩
  intro start t hle
  have hq : 0 ≤ (t - start) / 54000000000 := Int.ediv_nonneg (by omega) (by decide)
  have h1 := Int.ediv_add_emod (t - start) 54000000000
  have h2 := Int.emod_nonneg (t - start) (show (54000000000 : Int) ≠ 0 by decide)
  have h3 := Int.emod_lt_of_pos (t - start) (show (0 : Int) < 54000000000 by decide)
  refine ⟨((t - start) / 54000000000).toNat, ?_, ?_⟩
  · simp only [tickAt, pingPeriod_eq]
    rw [Int.toNat_of_nonneg hq]
    omega
  · simp only [tickAt, readDeadline, pingPeriod_eq, pongWait_eq]
    rw [Int.toNat_of_nonneg hq]
    omega

/-- C12 for a writer started at time 0 and a pong at 100 seconds: the tick at
108 seconds comes before the deadline at 160 seconds. -/
theorem keepalive_constants_witness :
    (0 : Int) ≤ 100 * Second ∧
    ∃ k, 100 * Second < tickAt 0 k ∧ tickAt 0 k < readDeadline (100 * Second) :=
  ⟨by decide, keepalive_constants.2.2.2.2.2.2 0 (100 * Second) (by decide)⟩

/-! ## The origin check -/

theorem split_ne_nil (sep : Byte) (s : GoString) : Split sep s ≠ [] := by
  cases s with
  | nil => simp [Split]
  | cons b r =>
    by_cases hb : b = sep
    · simp [Split, hb]
    · cases h : Split sep r <;> simp [Split, hb, h]

/-- The pieces of a split hold no separator, and joined by the separator they
give the string back. -/
theorem split_spec (sep : Byte) :
    ∀ s : GoString, (∀ e ∈ Split sep s, sep ∉ e) ∧ [sep].intercalate (Split sep s) = s := by
  intro s
  induction s with
  | nil => simp [Split, List.intercalate]
  | cons b r ih =>
    obtain ⟨ih1, ih2⟩ := ih
    by_cases hb : b = sep
    · subst hb
      have hne := split_ne_nil b r
      constructor
      · intro e he
        simp only [Split, if_true, List.mem_cons] at he
        rcases he with he | he
        · rw [he]; simp
        · exact ih1 e he
      · cases hs : Split b r with
        | nil => exact absurd hs hne
        | cons h t =>
          rw [hs] at ih2
          simp only [Split, if_true, hs]
          rw [← ih2]
          simp [List.intercalate, List.intersperse]
    · cases hs : Split sep r with
      | nil => exact absurd hs (split_ne_nil sep r)
      | cons h t =>
        rw [hs] at ih1 ih2
        constructor
        · intro e he
          simp only [Split, hb, if_false, hs, List.mem_cons] at he
          rcases he with he | he
          · rw [he]
            intro hmem
            rcases List.mem_cons.mp hmem with h1 | h1
            · exact hb h1.symm
            · exact ih1 h (List.mem_cons_self _ _) h1
          · exact ih1 e (List.mem_cons_of_mem _ he)
        · simp only [Split, hb, if_false, hs]
          rw [← ih2]
          cases t <;> simp [List.intercalate, List.intersperse]

/-- The map after the loop holds `true` under every entry that is not empty and
is otherwise as before. -/
theorem fillOriginMap_spec :
    ∀ (l : List GoString) (m : StringSet) (k : GoString),
      fillOriginMap m l k = if k ∈ l ∧ k ≠ [] then some true else m k := by
  intro l
  induction l with
  | nil => intro m k; simp [fillOriginMap]
  | cons o rest ih =>
    intro m k
    by_cases ho : o = []
    · subst ho
      simp only [fillOriginMap, ne_eq, not_true_eq_false, if_false, ih, List.mem_cons]
      by_cases hk : k ∈ rest ∧ k ≠ []
      · have : (k = [] ∨ k ∈ rest) ∧ ¬ k = [] := ⟨Or.inr hk.1, hk.2⟩
        rw [if_pos hk, if_pos this]
      · have : ¬ ((k = [] ∨ k ∈ rest) ∧ ¬ k = []) := by
          rintro ⟨h1 | h1, h2⟩
          · exact h2 h1
          · exact hk ⟨h1, h2⟩
        rw [if_neg hk, if_neg this]
    · simp only [fillOriginMap, ne_eq, ho, not_false_eq_true, if_true, ih, List.mem_cons]
      by_cases hk : k ∈ rest ∧ k ≠ []
      · have : (k = o ∨ k ∈ rest) ∧ ¬ k = [] := ⟨Or.inr hk.1, hk.2⟩
        rw [if_pos hk, if_pos this]
      · rw [if_neg hk]
        by_cases hko : k = o
        · subst hko
          have : (k = k ∨ k ∈ rest) ∧ ¬ k = [] := ⟨Or.inl rfl, ho⟩
          rw [if_pos this]
          simp [StringSet.store]
        · have : ¬ ((k = o ∨ k ∈ rest) ∧ ¬ k = []) := by
            rintro ⟨h1 | h1, h2⟩
            · exact hko h1
            · exact hk ⟨h1, h2⟩
          rw [if_neg this]
          simp [StringSet.store, hko]

/-- The bytes that `DecodeRuneInString` reads as a rune are the UTF-8 encoding
of that rune. -/
theorem take_decodeRune (b : Byte) (rest : List Byte)
    (h : ¬ ((DecodeRuneInString (b :: rest)).1 = RuneError ∧
      (DecodeRuneInString (b :: rest)).2 = 1)) :
    (b :: rest).take (DecodeRuneInString (b :: rest)).2
      = EncodeRune (DecodeRuneInString (b :: rest)).1 := by
  have hlt := b.isLt
  by_cases h0 : b.val < 0x80
  · have hval : DecodeRuneInString (b :: rest) = (b.val, 1) := by
      simp [DecodeRuneInString, h0]
    rw [hval]
    show [b] = EncodeRune b.val
    rw [encodeRune_ascii b h0]
  by_cases h1 : b.val < 0xC2
  · exact absurd (by simp [DecodeRuneInString, h0, h1]) h
  by_cases h2 : b.val < 0xE0
  · rcases rest with _ | ⟨b1, r'⟩
    · exact absurd (by simp [DecodeRuneInString, h0, h1, h2]) h
    · by_cases hc : b1.val < 0x80 ∨ 0xBF < b1.val
      · exact absurd (by simp [DecodeRuneInString, h0, h1, h2, hc]) h
      · have hval : (DecodeRuneInString (b :: b1 :: r'))
            = ((b.val % 32) * 64 + b1.val % 64, 2) := by
          simp [DecodeRuneInString, h0, h1, h2, hc]
        rw [hval]
        have hb1 := b1.isLt
        have v1 : ¬ (b.val % 32) * 64 + b1.val % 64 < 0x80 := by omega
        have v2 : (b.val % 32) * 64 + b1.val % 64 < 0x800 := by omega
        simp only [EncodeRune, v1, v2, if_false, if_true]
        show [b, b1] = _
        have e0 : (Fin.ofNat (0xC0 + ((b.val % 32) * 64 + b1.val % 64) / 64) : Byte) = b := by
          apply Fin.ext
          show (0xC0 + ((b.val % 32) * 64 + b1.val % 64) / 64) % 256 = b.val
          omega
        have e1 : (Fin.ofNat (0x80 + ((b.val % 32) * 64 + b1.val % 64) % 64) : Byte) = b1 := by
          apply Fin.ext
          show (0x80 + ((b.val % 32) * 64 + b1.val % 64) % 64) % 256 = b1.val
          omega
        rw [e0, e1]
  by_cases h3 : b.val < 0xF0
  · rcases rest with _ | ⟨b1, _ | ⟨b2, r'⟩⟩
    · exact absurd (by simp [DecodeRuneInString, h0, h1, h2, h3]) h
    · exact absurd (by simp [DecodeRuneInString, h0, h1, h2, h3]) h
    · by_cases hc1 : b1.val < (if b.val = 0xE0 then 0xA0 else 0x80) ∨
          (if b.val = 0xED then 0x9F else 0xBF) < b1.val
      · exact absurd (by simp [DecodeRuneInString, h0, h1, h2, h3, hc1]) h
      · by_cases hc2 : b2.val < 0x80 ∨ 0xBF < b2.val
        · exact absurd (by simp [DecodeRuneInString, h0, h1, h2, h3, hc1, hc2]) h
        · have hval : (DecodeRuneInString (b :: b1 :: b2 :: r'))
              = ((b.val % 16) * 4096 + (b1.val % 64) * 64 + b2.val % 64, 3) := by
            simp [DecodeRuneInString, h0, h1, h2, h3, hc1, hc2]
          have hb1 : 0x80 ≤ b1.val ∧ b1.val ≤ 0xBF ∧ (b.val = 0xE0 → 0xA0 ≤ b1.val) ∧
              (b.val = 0xED → b1.val ≤ 0x9F) := by
            split_ifs at hc1 <;> omega
          rw [hval]
          clear hval hc1 h
          obtain ⟨hb1a, hb1b, hb1c, hb1d⟩ := hb1
          have v1 : ¬ (b.val % 16) * 4096 + (b1.val % 64) * 64 + b2.val % 64 < 0x80 := by
            omega
          have v2 : ¬ (b.val % 16) * 4096 + (b1.val % 64) * 64 + b2.val % 64 < 0x800 := by
            by_cases he : b.val = 0xE0
            · have := hb1c he; omega
            · omega
          have v3 : ¬ ((0xD800 ≤ (b.val % 16) * 4096 + (b1.val % 64) * 64 + b2.val % 64 ∧
              (b.val % 16) * 4096 + (b1.val % 64) * 64 + b2.val % 64 ≤ 0xDFFF) ∨
              0x10FFFF < (b.val % 16) * 4096 + (b1.val % 64) * 64 + b2.val % 64) := by
            by_cases he : b.val = 0xED
            · have := hb1d he; omega
            · omega
          have v4 : (b.val % 16) * 4096 + (b1.val % 64) * 64 + b2.val % 64 < 0x10000 := by
            omega
          simp only [EncodeRune, v1, v2, v3, v4, if_false, if_true]
          show [b, b1, b2] = _
          have e0 : (Fin.ofNat (0xE0 + ((b.val % 16) * 4096 + (b1.val % 64) * 64
              + b2.val % 64) / 4096) : Byte) = b := by
            apply Fin.ext
            show (0xE0 + ((b.val % 16) * 4096 + (b1.val % 64) * 64 + b2.val % 64) / 4096) % 256
              = b.val
            omega
          have e1 : (Fin.ofNat (0x80 + (((b.val % 16) * 4096 + (b1.val % 64) * 64
              + b2.val % 64) / 64) % 64) : Byte) = b1 := by
            apply Fin.ext
            show (0x80 + (((b.val % 16) * 4096 + (b1.val % 64) * 64 + b2.val % 64) / 64) % 64)
              % 256 = b1.val
            omega
          have e2 : (Fin.ofNat (0x80 + ((b.val % 16) * 4096 + (b1.val % 64) * 64
              + b2.val % 64) % 64) : Byte) = b2 := by
            apply Fin.ext
            show (0x80 + ((b.val % 16) * 4096 + (b1.val % 64) * 64 + b2.val % 64) % 64) % 256
              = b2.val
            omega
          rw [e0, e1, e2]
  by_cases h4 : b.val < 0xF5
  · rcases rest with _ | ⟨b1, _ | ⟨b2, _ | ⟨b3, r'⟩⟩⟩
    · exact absurd (by simp [DecodeRuneInString, h0, h1, h2, h3, h4]) h
    · exact absurd (by simp [DecodeRuneInString, h0, h1, h2, h3, h4]) h
    · exact absurd (by simp [DecodeRuneInString, h0, h1, h2, h3, h4]) h
    · by_cases hc1 : b1.val < (if b.val = 0xF0 then 0x90 else 0x80) ∨
          (if b.val = 0xF4 then 0x8F else 0xBF) < b1.val
      · exact absurd (by simp [DecodeRuneInString, h0, h1, h2, h3, h4, hc1]) h
      · by_cases hc2 : b2.val < 0x80 ∨ 0xBF < b2.val
        · exact absurd (by simp [DecodeRuneInString, h0, h1, h2, h3, h4, hc1, hc2]) h
        · by_cases hc3 : b3.val < 0x80 ∨ 0xBF < b3.val
          · exact absurd (by simp [DecodeRuneInString, h0, h1, h2, h3, h4, hc1, hc2, hc3]) h
          · have hval : (DecodeRuneInString (b :: b1 :: b2 :: b3 :: r'))
                = ((b.val % 8) * 262144 + (b1.val % 64) * 4096 + (b2.val % 64) * 64
                    + b3.val % 64, 4) := by
              simp [DecodeRuneInString, h0, h1, h2, h3, h4, hc1, hc2, hc3]
            have hb1 : 0x80 ≤ b1.val ∧ b1.val ≤ 0xBF ∧ (b.val = 0xF0 → 0x90 ≤ b1.val) ∧
                (b.val = 0xF4 → b1.val ≤ 0x8F) := by
              split_ifs at hc1 <;> omega
            rw [hval]
            clear hval hc1 h
            obtain ⟨hb1a, hb1b, hb1c, hb1d⟩ := hb1
            have v2 : 0x10000 ≤ (b.val % 8) * 262144 + (b1.val % 64) * 4096
                + (b2.val % 64) * 64 + b3.val % 64 := by
              by_cases he : b.val = 0xF0
              · have := hb1c he; omega
              · omega
            have v3 : (b.val % 8) * 262144 + (b1.val % 64) * 4096
                + (b2.val % 64) * 64 + b3.val % 64 ≤ 0x10FFFF := by
              by_cases he : b.val = 0xF4
              · have := hb1d he; omega
              · omega
            have w1 : ¬ (b.val % 8) * 262144 + (b1.val % 64) * 4096
                + (b2.val % 64) * 64 + b3.val % 64 < 0x80 := by omega
            have w2 : ¬ (b.val % 8) * 262144 + (b1.val % 64) * 4096
                + (b2.val % 64) * 64 + b3.val % 64 < 0x800 := by omega
            have w3 : ¬ ((0xD800 ≤ (b.val % 8) * 262144 + (b1.val % 64) * 4096
                + (b2.val % 64) * 64 + b3.val % 64 ∧ (b.val % 8) * 262144 + (b1.val % 64) * 4096
                + (b2.val % 64) * 64 + b3.val % 64 ≤ 0xDFFF) ∨
                0x10FFFF < (b.val % 8) * 262144 + (b1.val % 64) * 4096
                + (b2.val % 64) * 64 + b3.val % 64) := by omega
            have w4 : ¬ (b.val % 8) * 262144 + (b1.val % 64) * 4096
                + (b2.val % 64) * 64 + b3.val % 64 < 0x10000 := by omega
            simp only [EncodeRune, w1, w2, w3, w4, if_false]
            show [b, b1, b2, b3] = _
            have e0 : (Fin.ofNat (0xF0 + ((b.val % 8) * 262144 + (b1.val % 64) * 4096
                + (b2.val % 64) * 64 + b3.val % 64) / 262144) : Byte) = b := by
              apply Fin.ext
              show (0xF0 + ((b.val % 8) * 262144 + (b1.val % 64) * 4096
                + (b2.val % 64) * 64 + b3.val % 64) / 262144) % 256 = b.val
              omega
            have e1 : (Fin.ofNat (0x80 + (((b.val % 8) * 262144 + (b1.val % 64) * 4096
                + (b2.val % 64) * 64 + b3.val % 64) / 4096) % 64) : Byte) = b1 := by
              apply Fin.ext
              show (0x80 + (((b.val % 8) * 262144 + (b1.val % 64) * 4096
                + (b2.val % 64) * 64 + b3.val % 64) / 4096) % 64) % 256 = b1.val
              omega
            have e2 : (Fin.ofNat (0x80 + (((b.val % 8) * 262144 + (b1.val % 64) * 4096
                + (b2.val % 64) * 64 + b3.val % 64) / 64) % 64) : Byte) = b2 := by
              apply Fin.ext
              show (0x80 + (((b.val % 8) * 262144 + (b1.val % 64) * 4096
                + (b2.val % 64) * 64 + b3.val % 64) / 64) % 64) % 256 = b2.val
              omega
            have e3 : (Fin.ofNat (0x80 + ((b.val % 8) * 262144 + (b1.val % 64) * 4096
                + (b2.val % 64) * 64 + b3.val % 64) % 64) : Byte) = b3 := by
              apply Fin.ext
              show (0x80 + ((b.val % 8) * 262144 + (b1.val % 64) * 4096
                + (b2.val % 64) * 64 + b3.val % 64) % 64) % 256 = b3.val
              omega
            rw [e0, e1, e2, e3]
  · exact absurd (by simp [DecodeRuneInString, h0, h1, h2, h3, h4]) h

/-- The white-space characters of `unicode.IsSpace`, one by one. -/
theorem isSpace_cases (r : Nat) (h : IsSpace r = true) :
    r ∈ [0x09, 0x0A, 0x0B, 0x0C, 0x0D, 0x20, 0x85, 0xA0, 0x1680, 0x2000, 0x2001, 0x2002,
      0x2003, 0x2004, 0x2005, 0x2006, 0x2007, 0x2008, 0x2009, 0x200A, 0x2028, 0x2029, 0x202F,
      0x205F, 0x3000] := by
  simp only [IsSpace, decide_eq_true_eq] at h
  simp only [List.mem_cons, List.mem_singleton, List.not_mem_nil, or_false]
  omega

theorem runeError_not_space : IsSpace RuneError = false := by decide

/-- A string that starts with the encoding of a white-space character decodes
to that character first. -/
theorem decodeRune_space (r : Nat) (x : List Byte) (h : IsSpace r = true) :
    DecodeRuneInString (EncodeRune r ++ x) = (r, (EncodeRune r).length) ∧
    1 ≤ (EncodeRune r).length := by
  have hr := isSpace_cases r h
  simp only [List.mem_cons, List.mem_singleton, List.not_mem_nil, or_false] at hr
  rcases hr with e | e | e | e | e | e | e | e | e | e | e | e | e | e | e | e | e | e | e |
    e | e | e | e | e | e <;> subst e <;> exact ⟨rfl, by decide⟩

theorem trimLeftSpace_cons (fuel : Nat) (b : Byte) (rest : List Byte) :
    trimLeftSpace (fuel + 1) (b :: rest)
      = if IsSpace (DecodeRuneInString (b :: rest)).1 then
          trimLeftSpace fuel ((b :: rest).drop (DecodeRuneInString (b :: rest)).2)
        else b :: rest := by
  rfl

theorem encodeRune_space_ne_nil (r : Nat) (h : IsSpace r = true) : EncodeRune r ≠ [] := by
  intro e
  have := (decodeRune_space r [] h).2
  rw [e] at this
  exact absurd this (by decide)

/-- What `strings.TrimLeftFunc(s, unicode.IsSpace)` cuts off is a run of
white-space characters, and what it leaves does not start with one. -/
theorem trimLeftSpace_spec :
    ∀ (fuel : Nat) (s : GoString), s.length ≤ fuel →
      ∃ lead : List Nat, (∀ r ∈ lead, IsSpace r = true) ∧
        s = lead.flatMap EncodeRune ++ trimLeftSpace fuel s ∧
        (∀ r, IsSpace r = true → ¬ EncodeRune r <+: trimLeftSpace fuel s) := by
  intro fuel
  induction fuel with
  | zero =>
    intro s hs
    have : s = [] := List.length_eq_zero.mp (Nat.le_zero.mp hs)
    subst this
    refine ⟨[], by simp, by simp [trimLeftSpace], ?_⟩
    intro r hr hp
    exact encodeRune_space_ne_nil r hr (List.prefix_nil.mp hp)
  | succ fuel ih =>
    intro s hs
    rcases s with _ | ⟨b, rest⟩
    · refine ⟨[], by simp, by simp [trimLeftSpace], ?_⟩
      intro r hr hp
      exact encodeRune_space_ne_nil r hr (List.prefix_nil.mp hp)
    have hr : rest.length ≤ fuel := by simpa using hs
    rw [trimLeftSpace_cons]
    by_cases hsp : IsSpace (DecodeRuneInString (b :: rest)).1 = true
    · rw [if_pos hsp]
      have hsz := decodeRune_size b rest
      have hne : ¬ ((DecodeRuneInString (b :: rest)).1 = RuneError ∧
          (DecodeRuneInString (b :: rest)).2 = 1) := by
        intro hbad
        rw [hbad.1, runeError_not_space] at hsp
        exact Bool.noConfusion hsp
      have htk := take_decodeRune b rest hne
      have hdl : ((b :: rest).drop (DecodeRuneInString (b :: rest)).2).length ≤ fuel := by
        rw [List.length_drop, List.length_cons]; omega
      obtain ⟨lead, hl1, hl2, hl3⟩ := ih _ hdl
      refine ⟨(DecodeRuneInString (b :: rest)).1 :: lead, ?_, ?_, hl3⟩
      · intro r hmem
        rcases List.mem_cons.mp hmem with e | e
        · rw [e]; exact hsp
        · exact hl1 r e
      · rw [List.flatMap_cons, List.append_assoc, ← hl2, ← htk, List.take_append_drop]
    · rw [if_neg hsp]
      refine ⟨[], by simp, by simp, ?_⟩
      intro r hr' hp
      obtain ⟨x, hx⟩ := hp
      have := (decodeRune_space r x hr').1
      rw [hx] at this
      rw [this] at hsp
      exact hsp hr'

theorem findRuneStart_succ (s : GoString) (lim i : Nat) :
    findRuneStart s lim (i + 1)
      = if i < lim then none
        else if RuneStart (s.getD i 0) then some i
        else findRuneStart s lim i := by
  rfl

theorem decodeLastRune_eq (s : GoString) :
    DecodeLastRuneInString s
      = if s.length = 0 then (RuneError, 0)
        else if (s.getD (s.length - 1) 0).val < 0x80 then ((s.getD (s.length - 1) 0).val, 1)
        else if (findRuneStart s (s.length - 4) (s.length - 1)).getD (s.length - 4 - 1)
            + (DecodeRuneInString (s.drop
                ((findRuneStart s (s.length - 4) (s.length - 1)).getD (s.length - 4 - 1)))).2
            ≠ s.length then (RuneError, 1)
        else DecodeRuneInString (s.drop
          ((findRuneStart s (s.length - 4) (s.length - 1)).getD (s.length - 4 - 1))) := by
  rfl

/-- The last rune of a string that ends in an ASCII byte. -/
theorem decodeLastRune_one (x : List Byte) (b : Byte) (hb : b.val < 0x80) :
    DecodeLastRuneInString (x ++ [b]) = (b.val, 1) := by
  have hg : (x ++ [b]).getD ((x ++ [b]).length - 1) 0 = b := by
    rw [List.getD_append_right _ _ _ _ (by simp)]
    simp
  rw [decodeLastRune_eq, hg]
  simp [hb]

/-- The last rune of a string that ends in a sequence of two bytes. -/
theorem decodeLastRune_two (x : List Byte) (b0 b1 : Byte) (h1 : 0x80 ≤ b1.val)
    (h0 : RuneStart b0 = true) (hd : (DecodeRuneInString [b0, b1]).2 = 2) :
    DecodeLastRuneInString (x ++ [b0, b1]) = DecodeRuneInString [b0, b1] := by
  have hl : (x ++ [b0, b1]).length = x.length + 2 := by simp
  have hg1 : (x ++ [b0, b1]).getD (x.length + 1) 0 = b1 := by
    rw [List.getD_append_right _ _ _ _ (by omega)]
    simp
  have hg0 : (x ++ [b0, b1]).getD x.length 0 = b0 := by
    rw [List.getD_append_right _ _ _ _ (by omega)]
    simp
  have hf : findRuneStart (x ++ [b0, b1]) (x.length + 2 - 4) (x.length + 1) = some x.length := by
    rw [findRuneStart_succ, hg0, h0, if_neg (by omega), if_pos rfl]
  rw [decodeLastRune_eq, hl]
  have e1 : x.length + 2 - 1 = x.length + 1 := by omega
  rw [e1, hg1, hf]
  simp only [Option.getD_some, List.drop_left, hd]
  rw [if_neg (by omega), if_neg (by omega), if_neg (by simp)]

/-- The last rune of a string that ends in a sequence of three bytes. -/
theorem decodeLastRune_three (x : List Byte) (b0 b1 b2 : Byte) (h2 : 0x80 ≤ b2.val)
    (h1 : RuneStart b1 = false) (h0 : RuneStart b0 = true)
    (hd : (DecodeRuneInString [b0, b1, b2]).2 = 3) :
    DecodeLastRuneInString (x ++ [b0, b1, b2]) = DecodeRuneInString [b0, b1, b2] := by
  have hl : (x ++ [b0, b1, b2]).length = x.length + 3 := by simp
  have hg2 : (x ++ [b0, b1, b2]).getD (x.length + 2) 0 = b2 := by
    rw [List.getD_append_right _ _ _ _ (by omega)]
    simp
  have hg1 : (x ++ [b0, b1, b2]).getD (x.length + 1) 0 = b1 := by
    rw [List.getD_append_right _ _ _ _ (by omega)]
    simp
  have hg0 : (x ++ [b0, b1, b2]).getD x.length 0 = b0 := by
    rw [List.getD_append_right _ _ _ _ (by omega)]
    simp
  have hf : findRuneStart (x ++ [b0, b1, b2]) (x.length + 3 - 4) (x.length + 2)
      = some x.length := by
    rw [findRuneStart_succ, hg1, h1, if_neg (by omega), if_neg (by decide),
      findRuneStart_succ, hg0, h0, if_neg (by omega), if_pos rfl]
  rw [decodeLastRune_eq, hl]
  have e1 : x.length + 3 - 1 = x.length + 2 := by omega
  rw [e1, hg2, hf]
  simp only [Option.getD_some, List.drop_left, hd]
  rw [if_neg (by omega), if_neg (by omega), if_neg (by simp)]

/-- A string that ends with the encoding of a white-space character has that
character as its last rune. -/
theorem decodeLastRune_space (r : Nat) (x : List Byte) (h : IsSpace r = true) :
    DecodeLastRuneInString (x ++ EncodeRune r) = (r, (EncodeRune r).length) := by
  have hr := isSpace_cases r h
  simp only [List.mem_cons, List.mem_singleton, List.not_mem_nil, or_false] at hr
  rcases hr with e | e | e | e | e | e | e | e | e | e | e | e | e | e | e | e | e | e | e |
    e | e | e | e | e | e <;> subst e <;>
    first
    | exact decodeLastRune_one x _ (by decide)
    | exact decodeLastRune_two x _ _ (by decide) (by decide) (by decide)
    | exact decodeLastRune_three x _ _ _ (by decide) (by decide) (by decide) (by decide)

/-- When the last rune of a string is a white-space character, the string ends
with the encoding of that character, and the width reported is its length. -/
theorem drop_decodeLastRune (s : GoString)
    (h : IsSpace (DecodeLastRuneInString s).1 = true) :
    1 ≤ (DecodeLastRuneInString s).2 ∧ (DecodeLastRuneInString s).2 ≤ s.length ∧
    s.drop (s.length - (DecodeLastRuneInString s).2)
      = EncodeRune (DecodeLastRuneInString s).1 := by
  have hE : IsSpace RuneError ≠ true := by decide
  rw [decodeLastRune_eq] at h ⊢
  by_cases hz : s.length = 0
  · rw [if_pos hz] at h
    exact absurd h hE
  rw [if_neg hz] at h ⊢
  by_cases hlast : (s.getD (s.length - 1) 0).val < 0x80
  · rw [if_pos hlast]
    rcases List.eq_nil_or_concat s with e | ⟨L, b, e⟩
    · rw [e] at hz; exact absurd rfl hz
    · rw [List.concat_eq_append] at e
      subst e
      have hg : (L ++ [b]).getD ((L ++ [b]).length - 1) 0 = b := by
        rw [List.getD_append_right _ _ _ _ (by simp)]
        simp
      rw [hg] at hlast ⊢
      refine ⟨Nat.le_refl _, by simp, ?_⟩
      show (L ++ [b]).drop ((L ++ [b]).length - 1) = EncodeRune b.val
      rw [encodeRune_ascii b hlast, List.drop_left' (by simp)]
  rw [if_neg hlast] at h ⊢
  generalize hst : (findRuneStart s (s.length - 4) (s.length - 1)).getD (s.length - 4 - 1)
    = start at h ⊢
  by_cases hc : start + (DecodeRuneInString (s.drop start)).2 ≠ s.length
  · rw [if_pos hc] at h
    exact absurd h hE
  rw [if_neg hc] at h ⊢
  have hc' : start + (DecodeRuneInString (s.drop start)).2 = s.length := not_not.mp hc
  rcases hdrop : s.drop start with _ | ⟨c, rest⟩
  · rw [hdrop] at h
    exact absurd h hE
  rw [hdrop] at h hc'
  try rw [hdrop]
  have hsz := decodeRune_size c rest
  have hne : ¬ ((DecodeRuneInString (c :: rest)).1 = RuneError ∧
      (DecodeRuneInString (c :: rest)).2 = 1) := by
    intro hbad
    rw [hbad.1] at h
    exact hE h
  have htk := take_decodeRune c rest hne
  have hlen : (s.drop start).length = rest.length + 1 := by rw [hdrop]; rfl
  rw [List.length_drop] at hlen
  have hfull : (DecodeRuneInString (c :: rest)).2 = rest.length + 1 := by omega
  have hpos : s.length - (DecodeRuneInString (c :: rest)).2 = start := by omega
  refine ⟨hsz.1, by omega, ?_⟩
  rw [hpos, hdrop, ← htk, hfull]
  exact (List.take_length (c :: rest)).symm

theorem trimRightSpace_succ (fuel : Nat) (s : GoString) :
    trimRightSpace (fuel + 1) s
      = if s.length = 0 then s
        else if IsSpace (DecodeLastRuneInString s).1 then
          trimRightSpace fuel (s.take (s.length - (DecodeLastRuneInString s).2))
        else s := by
  rfl

/-- What `strings.TrimRightFunc(s, unicode.IsSpace)` cuts off is a run of
white-space characters, and what it leaves does not end with one. -/
theorem trimRightSpace_spec :
    ∀ (fuel : Nat) (s : GoString), s.length ≤ fuel →
      ∃ trail : List Nat, (∀ r ∈ trail, IsSpace r = true) ∧
        s = trimRightSpace fuel s ++ trail.flatMap EncodeRune ∧
        (∀ r, IsSpace r = true → ¬ EncodeRune r <:+ trimRightSpace fuel s) := by
  intro fuel
  induction fuel with
  | zero =>
    intro s hs
    have : s = [] := List.length_eq_zero.mp (Nat.le_zero.mp hs)
    subst this
    refine ⟨[], by simp, by simp [trimRightSpace], ?_⟩
    intro r hr hp
    exact encodeRune_space_ne_nil r hr (List.suffix_nil.mp hp)
  | succ fuel ih =>
    intro s hs
    rw [trimRightSpace_succ]
    by_cases hz : s.length = 0
    · rw [if_pos hz]
      have : s = [] := List.length_eq_zero.mp hz
      subst this
      refine ⟨[], by simp, by simp, ?_⟩
      intro r hr hp
      exact encodeRune_space_ne_nil r hr (List.suffix_nil.mp hp)
    rw [if_neg hz]
    by_cases hsp : IsSpace (DecodeLastRuneInString s).1 = true
    · rw [if_pos hsp]
      obtain ⟨h1, h2, h3⟩ := drop_decodeLastRune s hsp
      have hdl : (s.take (s.length - (DecodeLastRuneInString s).2)).length ≤ fuel := by
        rw [List.length_take]; omega
      obtain ⟨trail, hl1, hl2, hl3⟩ := ih _ hdl
      refine ⟨trail ++ [(DecodeLastRuneInString s).1], ?_, ?_, hl3⟩
      · intro r hmem
        rcases List.mem_append.mp hmem with e | e
        · exact hl1 r e
        · rw [List.mem_singleton.mp e]; exact hsp
      · rw [List.flatMap_append, ← List.append_assoc, ← hl2]
        simp only [List.flatMap_cons, List.flatMap_nil, List.append_nil]
        rw [← h3, List.take_append_drop]
    · rw [if_neg hsp]
      refine ⟨[], by simp, by simp, ?_⟩
      intro r hr' hp
      obtain ⟨x, hx⟩ := hp
      have := decodeLastRune_space r x hr'
      rw [hx] at this
      rw [this] at hsp
      exact hsp hr'

/-- What `strings.TrimSpace` returns: the string is a run of white-space
characters, then the result, then a run of white-space characters, and the
result neither starts nor ends with a white-space character. -/
theorem trimSpace_spec (s : GoString) :
    ∃ lead trail : List Nat, (∀ r ∈ lead, IsSpace r = true) ∧
      (∀ r ∈ trail, IsSpace r = true) ∧
      s = lead.flatMap EncodeRune ++ (TrimSpace s ++ trail.flatMap EncodeRune) ∧
      (∀ r, IsSpace r = true →
        ¬ EncodeRune r <+: TrimSpace s ∧ ¬ EncodeRune r <:+ TrimSpace s) := by
  obtain ⟨lead, hl1, hl2, hl3⟩ := trimLeftSpace_spec s.length s (Nat.le_refl _)
  have hlen : (trimLeftSpace s.length s).length ≤ s.length := by
    have := congrArg List.length hl2
    rw [List.length_append] at this
    omega
  obtain ⟨trail, ht1, ht2, ht3⟩ := trimRightSpace_spec s.length _ hlen
  refine ⟨lead, trail, hl1, ht1, ?_, ?_⟩
  · show s = lead.flatMap EncodeRune ++
      (trimRightSpace s.length (trimLeftSpace s.length s) ++ trail.flatMap EncodeRune)
    rw [← ht2]
    exact hl2
  · intro r hr
    refine ⟨?_, ht3 r hr⟩
    intro hp
    apply hl3 r hr
    rw [ht2]
    exact hp.trans (List.prefix_append _ _)

theorem hasPrefix_iff (s lit : GoString) : HasPrefix s lit = true ↔ lit <+: s := by
  simp only [HasPrefix, Bool.and_eq_true, decide_eq_true_eq]
  constructor
  · rintro ⟨_, h⟩
    rw [← h]
    exact List.take_prefix _ _
  · intro h
    exact ⟨h.length_le, (List.prefix_iff_eq_take.mp h).symm⟩

theorem validOrigin_iff (e : GoString) :
    validOrigin e = true ↔ 0x2A ∈ e ∨ ascii "http://" <+: e ∨ ascii "https://" <+: e := by
  simp only [validOrigin, Contains, Bool.or_eq_true, decide_eq_true_eq, hasPrefix_iff, or_assoc]

theorem corsNew_origins (corsOrigins : GoString) :
    cors.New (SetupRouter.origins corsOrigins) = true ↔
      ∀ e ∈ SetupRouter.origins corsOrigins, validOrigin e = true := by
  have hne : SetupRouter.origins corsOrigins ≠ [] := by
    intro h
    exact split_ne_nil 0x2C corsOrigins (List.map_eq_nil_iff.mp h)
  have hemp : (SetupRouter.origins corsOrigins).isEmpty = false := by
    cases h : SetupRouter.origins corsOrigins with
    | nil => exact absurd h hne
    | cons a l => rfl
  simp only [cors.New, hemp, Bool.not_false, Bool.true_and, List.all_eq_true]

/-- What `SetupRouter` returns: nothing when `cors.New` panics, and else the
map that holds `true` under every entry of `origins`, none of them empty. -/
theorem setupRouter_spec (corsOrigins : GoString) :
    (cors.New (SetupRouter.origins corsOrigins) = false → SetupRouter corsOrigins = none) ∧
    (cors.New (SetupRouter.origins corsOrigins) = true →
      [] ∉ SetupRouter.origins corsOrigins ∧
      ∃ m, SetupRouter corsOrigins = some m ∧
        ∀ k, m k = if k ∈ SetupRouter.origins corsOrigins then some true else none) := by
  constructor
  · intro h
    simp [SetupRouter, h]
  · intro h
    have hv := (corsNew_origins corsOrigins).mp h
    have hnil : [] ∉ SetupRouter.origins corsOrigins := by
      intro hmem
      exact absurd (hv [] hmem) (by decide)
    refine ⟨hnil, fillOriginMap (fun _ => none) (SetupRouter.origins corsOrigins), ?_, ?_⟩
    · simp [SetupRouter, h]
    · intro k
      rw [fillOriginMap_spec]
      by_cases hk : k ∈ SetupRouter.origins corsOrigins
      · have hk' : k ≠ [] := fun e => hnil (e ▸ hk)
        rw [if_pos ⟨hk, hk'⟩, if_pos hk]
      · rw [if_neg (fun h => hk h.1), if_neg hk]

theorem isSpace_iff (r : Nat) :
    IsSpace r = true ↔
      r ∈ [0x09, 0x0A, 0x0B, 0x0C, 0x0D, 0x20, 0x85, 0xA0, 0x1680, 0x2000, 0x2001, 0x2002,
        0x2003, 0x2004, 0x2005, 0x2006, 0x2007, 0x2008, 0x2009, 0x200A, 0x2028, 0x2029,
        0x202F, 0x205F, 0x3000] := by
  constructor
  · exact isSpace_cases r
  · intro h
    simp only [List.mem_cons, List.mem_singleton, List.not_mem_nil, or_false] at h
    simp only [IsSpace, decide_eq_true_eq]
    omega

theorem checkOrigin_iff (m : StringSet) (r : Request) :
    CheckOrigin m r = true ↔ r.getOrigin ≠ [] ∧ m r.getOrigin = some true := by
  by_cases h : r.getOrigin = []
  · simp [CheckOrigin, h]
  · cases hm : m r.getOrigin with
    | none => simp [CheckOrigin, h, StringSet.index, hm]
    | some v => cases v <;> simp [CheckOrigin, h, StringSet.index, hm]

/-- C11 fails as stated: for the string `localhost:3000`, whose one entry is
not empty, `SetupRouter` builds no allow-list with that entry, since `cors.New`
panics on an entry without a schema. -/
theorem origin_list_not_built :
    SetupRouter.origins (ascii "localhost:3000") = [ascii "localhost:3000"] ∧
    ascii "localhost:3000" ≠ [] ∧
    SetupRouter (ascii "localhost:3000") = none :=
  ⟨by decide, by decide, Option.not_isSome_iff_eq_none.mp (by decide)⟩

/-- C11, amended.  For every allow-list the check accepts a request iff the
first value of its `Origin` header is not empty and the list holds `true` under
it.  The entries of a comma-separated string are its pieces between the
commas, each without the white space (the characters of `unicode.IsSpace`) at
its two ends.  `SetupRouter` returns if every trimmed entry contains `*` or
starts with `http://` or `https://`, and panics in `cors.New` if a trimmed
entry that is not empty has neither.  Whenever `SetupRouter` returns, the keys
of its allow-list are exactly the trimmed entries, which are the trimmed
entries that are not empty, all with the value `true`; so the check accepts iff
the header is not empty and is a trimmed entry, and it rejects an empty header
and every origin that differs from all trimmed entries. -/
theorem origin_check (corsOrigins : GoString) (r : Request) :
    (∀ m : StringSet, CheckOrigin m r = true ↔
      r.getOrigin ≠ [] ∧ m r.getOrigin = some true) ∧
    ((∀ (v : GoString) (rest : List GoString),
        Request.getOrigin { originValues := v :: rest } = v) ∧
      Request.getOrigin { originValues := [] } = []) ∧
    ([0x2C].intercalate (Split 0x2C corsOrigins) = corsOrigins ∧
      ∀ e ∈ Split 0x2C corsOrigins, 0x2C ∉ e ∧
        ∃ lead trail : List Nat, (∀ c ∈ lead, IsSpace c = true) ∧
          (∀ c ∈ trail, IsSpace c = true) ∧
          e = lead.flatMap EncodeRune ++ (TrimSpace e ++ trail.flatMap EncodeRune) ∧
          (∀ c, IsSpace c = true →
            ¬ EncodeRune c <+: TrimSpace e ∧ ¬ EncodeRune c <:+ TrimSpace e)) ∧
    (∀ c, IsSpace c = true ↔
      c ∈ [0x09, 0x0A, 0x0B, 0x0C, 0x0D, 0x20, 0x85, 0xA0, 0x1680, 0x2000, 0x2001, 0x2002,
        0x2003, 0x2004, 0x2005, 0x2006, 0x2007, 0x2008, 0x2009, 0x200A, 0x2028, 0x2029,
        0x202F, 0x205F, 0x3000]) ∧
    ((∀ e ∈ (Split 0x2C corsOrigins).map TrimSpace,
        0x2A ∈ e ∨ ascii "http://" <+: e ∨ ascii "https://" <+: e) →
      (SetupRouter corsOrigins).isSome = true) ∧
    ((∃ e ∈ (Split 0x2C corsOrigins).map TrimSpace,
        e ≠ [] ∧ 0x2A ∉ e ∧ ¬ ascii "http://" <+: e ∧ ¬ ascii "https://" <+: e) →
      SetupRouter corsOrigins = none) ∧
    (∀ m : StringSet, SetupRouter corsOrigins = some m →
      (∀ o, (m o).isSome = true ↔ o ∈ (Split 0x2C corsOrigins).map TrimSpace) ∧
      (∀ o, (m o).isSome = true ↔ o ≠ [] ∧ o ∈ (Split 0x2C corsOrigins).map TrimSpace) ∧
      (∀ o, m o = some true ∨ m o = none) ∧
      (CheckOrigin m r = true ↔
        r.getOrigin ≠ [] ∧ r.getOrigin ∈ (Split 0x2C corsOrigins).map TrimSpace) ∧
      (r.getOrigin = [] → CheckOrigin m r = false) ∧
      ((∀ e ∈ Split 0x2C corsOrigins, TrimSpace e ≠ r.getOrigin) →
        CheckOrigin m r = false)) := by
  have hsp := setupRouter_spec corsOrigins
  refine ⟨fun m => checkOrigin_iff m r, ⟨fun _ _ => rfl, rfl⟩,
    ⟨(split_spec 0x2C corsOrigins).2, fun e he =>
      ⟨(split_spec 0x2C corsOrigins).1 e he, trimSpace_spec e⟩⟩,
    isSpace_iff, ?_, ?_, ?_⟩
  · intro hall
    have hnew : cors.New (SetupRouter.origins corsOrigins) = true :=
      (corsNew_origins corsOrigins).mpr (fun e he => (validOrigin_iff e).mpr (hall e he))
    obtain ⟨_, m, hm, _⟩ := hsp.2 hnew
    rw [hm]
    rfl
  · rintro ⟨e, he, _, h1, h2, h3⟩
    apply hsp.1
    cases hnew : cors.New (SetupRouter.origins corsOrigins) with
    | false => rfl
    | true =>
      have := (validOrigin_iff e).mp ((corsNew_origins corsOrigins).mp hnew e he)
      rcases this with h | h | h
      · exact absurd h h1
      · exact absurd h h2
      · exact absurd h h3
  · intro m hm
    have hnew : cors.New (SetupRouter.origins corsOrigins) = true := by
      cases hnew : cors.New (SetupRouter.origins corsOrigins) with
      | true => rfl
      | false =>
        rw [hsp.1 hnew] at hm
        exact Option.noConfusion hm
    obtain ⟨hnil, m', hm', hkeys⟩ := hsp.2 hnew
    have hmm : m = m' := by
      rw [hm] at hm'
      exact Option.some.inj hm'
    subst hmm
    have hk1 : ∀ o, (m o).isSome = true ↔ o ∈ (Split 0x2C corsOrigins).map TrimSpace := by
      intro o
      rw [hkeys]
      by_cases ho : o ∈ SetupRouter.origins corsOrigins
      · rw [if_pos ho]
        exact ⟨fun _ => ho, fun _ => rfl⟩
      · rw [if_neg ho]
        exact ⟨fun h => Bool.noConfusion h, fun h => absurd h ho⟩
    have hk3 : ∀ o, m o = some true ∨ m o = none := by
      intro o
      rw [hkeys]
      by_cases ho : o ∈ SetupRouter.origins corsOrigins
      · rw [if_pos ho]; exact Or.inl rfl
      · rw [if_neg ho]; exact Or.inr rfl
    have hacc : CheckOrigin m r = true ↔
        r.getOrigin ≠ [] ∧ r.getOrigin ∈ (Split 0x2C corsOrigins).map TrimSpace := by
      rw [checkOrigin_iff, ← hk1]
      constructor
      · rintro ⟨h1, h2⟩
        exact ⟨h1, by rw [h2]; rfl⟩
      · rintro ⟨h1, h2⟩
        refine ⟨h1, ?_⟩
        rcases hk3 r.getOrigin with h | h
        · exact h
        · rw [h] at h2
          exact Bool.noConfusion h2
    refine ⟨hk1, ?_, hk3, hacc, ?_, ?_⟩
    · intro o
      rw [hk1]
      exact ⟨fun h => ⟨fun e => hnil (e ▸ h), h⟩, fun h => h.2⟩
    · intro h
      cases hc : CheckOrigin m r with
      | false => rfl
      | true => exact absurd h (hacc.mp hc).1
    · intro h
      cases hc : CheckOrigin m r with
      | false => rfl
      | true =>
        obtain ⟨e, he, hee⟩ := List.mem_map.mp (hacc.mp hc).2
        exact absurd hee (h e he)

/-- C11, amended, for `exampleOrigins`: both entries start with a schema, so
`SetupRouter` returns; its allow-list has the two entries without the white
space around them; a request is accepted by the first value of its `Origin`
header, and a request without the header, with an unlisted first value or with
an entry that still has its white space is rejected.  `SetupRouter` returns
also for the default of `CORS_ORIGINS` in `config.Load`. -/
theorem origin_check_witness :
    (∀ e ∈ (Split 0x2C exampleOrigins).map TrimSpace,
      0x2A ∈ e ∨ ascii "http://" <+: e ∨ ascii "https://" <+: e) ∧
    (SetupRouter exampleOrigins).isSome = true ∧
    SetupRouter exampleOrigins = some exampleAllowed ∧
    (CheckOrigin exampleAllowed exampleRequest = true ↔
      exampleRequest.getOrigin ≠ [] ∧
        exampleRequest.getOrigin ∈ (Split 0x2C exampleOrigins).map TrimSpace) ∧
    (Split 0x2C exampleOrigins).map TrimSpace
      = [ascii "http://localhost:5173", ascii "https://chat.example"] ∧
    CheckOrigin exampleAllowed exampleRequest = true ∧
    CheckOrigin exampleAllowed
      { originValues := [ascii "http://evil.example", ascii "https://chat.example"] } = false ∧
    CheckOrigin exampleAllowed { originValues := [] } = false ∧
    CheckOrigin exampleAllowed { originValues := [ascii " http://localhost:5173 "] } = false ∧
    (SetupRouter (ascii "http://localhost:5173,http://localhost:3000")).isSome = true :=
  ⟨by decide, (origin_check exampleOrigins exampleRequest).2.2.2.2.1 (by decide), rfl,
    ((origin_check exampleOrigins exampleRequest).2.2.2.2.2.2 exampleAllowed rfl).2.2.2.1,
    by decide, by decide, by decide, by decide, by decide, by decide⟩

/-! ## The hub and closed queues -/

theorem mem_broadcastOps (ch : Chan) (d : ClientId) (m : Msg) (y : Op)
    (hy : y ∈ ch.broadcastOps d m) :
    y.target = d ∧ ∀ c, y = Op.close c → c = d ∧ ¬ ch.buf.length < ch.cap := by
  unfold Chan.broadcastOps at hy
  by_cases hlen : ch.buf.length < ch.cap
  · rw [if_pos hlen] at hy
    rw [List.mem_singleton.mp hy]
    exact ⟨rfl, fun c hc => Op.noConfusion hc⟩
  · rw [if_neg hlen] at hy
    rcases List.mem_cons.mp hy with h | h
    · rw [h]
      exact ⟨rfl, fun c hc => Op.noConfusion hc⟩
    · rw [List.mem_singleton.mp h]
      exact ⟨rfl, fun c hc => ⟨(Op.close.inj hc).symm, hlen⟩⟩

theorem broadcastOps_pairwise (ch : Chan) (d : ClientId) (m : Msg) :
    (ch.broadcastOps d m).Pairwise afterClose := by
  unfold Chan.broadcastOps
  by_cases hlen : ch.buf.length < ch.cap
  · rw [if_pos hlen]
    exact List.pairwise_singleton _ _
  · rw [if_neg hlen]
    exact List.pairwise_pair.mpr (fun c hc => Op.noConfusion hc)

/-- The operations of one step: they come behind the earlier ones, none is on
a channel that was closed before the step or earlier in the step, and the
channels they close are closed afterwards; closed channels stay closed. -/
theorem sys_step_ops (s t : HubState) (e : SysEvent) (h : Sys.step s e = some t) :
    ∃ new, t.ops = s.ops ++ new ∧ new.Pairwise afterClose ∧
      (∀ y ∈ new, (s.send y.target).closed = false) ∧
      (∀ c, (s.send c).closed = true → (t.send c).closed = true) ∧
      (∀ y ∈ new, ∀ c, y = Op.close c → (t.send c).closed = true) := by
  have trivialCase : t = s → ∃ new, t.ops = s.ops ++ new ∧ new.Pairwise afterClose ∧
      (∀ y ∈ new, (s.send y.target).closed = false) ∧
      (∀ c, (s.send c).closed = true → (t.send c).closed = true) ∧
      (∀ y ∈ new, ∀ c, y = Op.close c → (t.send c).closed = true) := by
    intro e
    subst e
    exact ⟨[], by simp, List.Pairwise.nil, by simp, fun _ hc => hc, by simp⟩
  cases e with
  | recv d =>
    simp only [Sys.step, Option.some.injEq] at h
    subst h
    refine ⟨[], by simp, List.Pairwise.nil, by simp, ?_, by simp⟩
    intro c hc
    by_cases hcd : c = d
    · subst hcd
      simpa [setSend_same, Chan.recv] using hc
    · simpa [setSend_other _ _ _ _ hcd] using hc
  | hub e =>
    cases e with
    | register d =>
      simp only [Sys.step, Hub.step, Option.some.injEq] at h
      subst h
      exact ⟨[], by simp [HubState.insertClient], List.Pairwise.nil, by simp,
        fun _ hc => hc, by simp⟩
    | unregister d =>
      by_cases hd : d ∈ s.clients
      · have hdo := step_unregister_some s t d hd h
        have h' := h
        simp only [Sys.step] at h'
        rw [step_unregister_member s d hd hdo] at h'
        have h'' := Option.some.inj h'
        subst h''
        refine ⟨[Op.close d], rfl, List.pairwise_singleton _ _, ?_, ?_, ?_⟩
        · intro y hy
          rw [List.mem_singleton.mp hy]
          exact hdo
        · intro c hc
          by_cases hcd : c = d
          · subst hcd
            simp [setSend_same, Chan.shut]
          · simpa [setSend_other _ _ _ _ hcd] using hc
        · intro y hy c hyc
          rw [List.mem_singleton.mp hy] at hyc
          have hcd : d = c := Op.close.inj hyc
          subst hcd
          simp [setSend_same, Chan.shut]
      · apply trivialCase
        simp only [Sys.step, Hub.step, hd, if_false, Option.some.injEq] at h
        exact h.symm
    | broadcast m =>
      obtain ⟨hopen, _, hsend, hops⟩ := step_broadcast_some s t m h
      refine ⟨_, hops, ?_, ?_, ?_, ?_⟩
      · rw [List.pairwise_flatMap]
        refine ⟨fun d _ => broadcastOps_pairwise _ d m, ?_⟩
        refine List.Pairwise.imp ?_ s.nodup
        intro a b hab x hx y hy c hxc
        have h1 := (mem_broadcastOps _ a m x hx).2 c hxc
        have h2 := (mem_broadcastOps _ b m y hy).1
        rw [h2, h1.1]
        exact fun e => hab e.symm
      · intro y hy
        obtain ⟨d, hd, hyd⟩ := List.mem_flatMap.mp hy
        rw [(mem_broadcastOps _ d m y hyd).1]
        exact hopen d hd
      · intro c hc
        have hcn : c ∉ s.clients := by
          intro hmem
          rw [hopen c hmem] at hc
          exact Bool.noConfusion hc
        rw [hsend c]
        simpa [hcn] using hc
      · intro y hy c hyc
        obtain ⟨d, hd, hyd⟩ := List.mem_flatMap.mp hy
        obtain ⟨hcd, hlen⟩ := (mem_broadcastOps _ d m y hyd).2 c hyc
        subst hcd
        rw [hsend c]
        simp [hd, Chan.afterBroadcast, hlen, Chan.shut]

theorem sys_step_bounded (s t : HubState) (e : SysEvent) (h : Sys.step s e = some t)
    (hb : Bounded s) : Bounded t := by
  cases e with
  | recv d =>
    simp only [Sys.step, Option.some.injEq] at h
    subst h
    intro c
    by_cases hcd : c = d
    · subst hcd
      have := hb c
      simp only [setSend_same, Chan.recv, List.length_tail]
      exact ⟨this.1, by omega⟩
    · simpa [setSend_other _ _ _ _ hcd] using hb c
  | hub e =>
    cases e with
    | register d =>
      simp only [Sys.step, Hub.step, Option.some.injEq] at h
      subst h
      exact hb
    | unregister d =>
      by_cases hd : d ∈ s.clients
      · have hdo := step_unregister_some s t d hd h
        have h' := h
        simp only [Sys.step] at h'
        rw [step_unregister_member s d hd hdo] at h'
        have h'' := Option.some.inj h'
        subst h''
        intro c
        by_cases hcd : c = d
        · subst hcd
          simpa [setSend_same, Chan.shut] using hb c
        · simpa [setSend_other _ _ _ _ hcd] using hb c
      · simp only [Sys.step, Hub.step, hd, if_false, Option.some.injEq] at h
        subst h
        exact hb
    | broadcast m =>
      obtain ⟨_, _, hsend, _⟩ := step_broadcast_some s t m h
      intro c
      rw [hsend c]
      have := hb c
      by_cases hc : c ∈ s.clients
      · by_cases hlen : (s.send c).buf.length < (s.send c).cap
        · simp only [hc, if_true, Chan.afterBroadcast, hlen, Chan.push, List.length_append,
            List.length_singleton]
          exact ⟨this.1, by omega⟩
        · simpa [hc, Chan.afterBroadcast, hlen, Chan.shut] using this
      · simpa [hc] using this

theorem hubInv_step (s : HubState) (e : SysEvent) (r : List SysEvent)
    (h : HubInv s (e :: r)) : ∃ t, Sys.step s e = some t ∧ HubInv t r := by
  obtain ⟨hready, hb, hsafe, hlog⟩ := h
  obtain ⟨t, hstep, hready'⟩ := sys_step_ready s e r hready
  obtain ⟨new, hops, hnew, htarget, hstay, hclosed⟩ := sys_step_ops s t e hstep
  refine ⟨t, hstep, hready', sys_step_bounded s t e hstep hb, ?_, ?_⟩
  · unfold OpsSafe
    rw [hops, List.pairwise_append]
    refine ⟨hsafe, hnew, ?_⟩
    intro x hx y hy c hxc heq
    have h1 := hlog x hx c hxc
    have h2 := htarget y hy
    rw [heq, h1] at h2
    exact Bool.noConfusion h2
  · intro x hx c hxc
    rw [hops] at hx
    rcases List.mem_append.mp hx with h1 | h1
    · exact hstay c (hlog x h1 c hxc)
    · exact hclosed x h1 c hxc

theorem hubInv_run :
    ∀ (es : List SysEvent) (s : HubState), HubInv s es →
      ∃ s', Sys.run s es = some s' ∧ HubInv s' [] := by
  intro es
  induction es with
  | nil => intro s h; exact ⟨s, rfl, h⟩
  | cons e r ih =>
    intro s h
    obtain ⟨t, h1, h2⟩ := hubInv_step s e r h
    obtain ⟨s', h3, h4⟩ := ih t h2
    exact ⟨s', by simp [Sys.run, h1, h3], h4⟩

theorem hubInv_newHub (id : Nat) (es : List SysEvent) (h : (registersOf es).Nodup) :
    HubInv (newHub id freshHeap) es :=
  ⟨ready_newHub id es h, fun _ => ⟨rfl, Nat.zero_le _⟩, List.Pairwise.nil,
    by intro x hx; simp [newHub] at hx⟩

/-- C13. Hub never touches a closed queue.  A hub made by `newHub`, over
clients made by `NewClient` that register at most once, processes every
sequence of register, unregister and broadcast events (with receives of the
writers in between) without a crash, and in the state it reaches every member
has an open queue of capacity 256 with at most 256 items, no connection with a
closed queue is a member, and no channel operation of the loop so far was on a
queue closed before it.  From that state an unregister of any connection and
a broadcast of any message again do not crash, and an unregister of a
connection whose queue is closed, as after an eviction, changes nothing. -/
theorem hub_never_touches_closed (id : Nat) (es : List SysEvent)
    (hreg : (registersOf es).Nodup) :
    ∃ s, Sys.run (newHub id freshHeap) es = some s ∧
      (∀ c ∈ s.clients, (s.send c).closed = false ∧ (s.send c).cap = 256 ∧
        (s.send c).buf.length ≤ 256) ∧
      (∀ c, (s.send c).closed = true → c ∉ s.clients) ∧
      OpsSafe s.ops ∧
      (∀ c, (s.send c).closed = true → Hub.step s (.unregister c) = some s) ∧
      (∀ c, ∃ t, Hub.step s (.unregister c) = some t) ∧
      (∀ m, ∃ t, Hub.step s (.broadcast m) = some t) := by
  obtain ⟨s, hrun, ⟨hopen, _, _⟩, hb, hsafe, _⟩ :=
    hubInv_run es (newHub id freshHeap) (hubInv_newHub id es hreg)
  have hnot : ∀ c, (s.send c).closed = true → c ∉ s.clients := by
    intro c hc hmem
    rw [hopen c hmem] at hc
    exact Bool.noConfusion hc
  refine ⟨s, hrun, ?_, hnot, hsafe, ?_, ?_, ?_⟩
  · intro c hc
    exact ⟨hopen c hc, (hb c).1, (hb c).2⟩
  · intro c hc
    simp [Hub.step, hnot c hc]
  · intro c
    by_cases hc : c ∈ s.clients
    · exact ⟨_, step_unregister_member s c hc (hopen c hc)⟩
    · exact ⟨s, by simp [Hub.step, hc]⟩
  · intro m
    obtain ⟨t, ht, _⟩ := broadcastLoop_spec m s.clients s s.nodup hopen
    exact ⟨t, ht⟩

set_option maxRecDepth 100000 in
/-- C13 on `exampleEvict`: client 1 is evicted by the 257th broadcast, and the
unregister that follows finds it gone. -/
theorem hub_never_touches_closed_witness :
    (registersOf exampleEvict).Nodup ∧
    (Sys.run (newHub 7 freshHeap) exampleEvict).map
      (fun s => (s.clients, (s.send 1).closed, (s.send 1).buf.length, closesOf s.ops))
      = some ([], true, 256, [1]) ∧
    ∃ s, Sys.run (newHub 7 freshHeap) exampleEvict = some s ∧
      (∀ c ∈ s.clients, (s.send c).closed = false ∧ (s.send c).cap = 256 ∧
        (s.send c).buf.length ≤ 256) ∧
      (∀ c, (s.send c).closed = true → c ∉ s.clients) ∧
      OpsSafe s.ops ∧
      (∀ c, (s.send c).closed = true → Hub.step s (.unregister c) = some s) ∧
      (∀ c, ∃ t, Hub.step s (.unregister c) = some t) ∧
      (∀ m, ∃ t, Hub.step s (.broadcast m) = some t) :=
  ⟨by decide, by decide, hub_never_touches_closed 7 exampleEvict (by decide)⟩

/-! ## The rate limiter -/

theorem allow_other (rl : RateLimiter) (k ip : GoString) (t : Int) (h : k ≠ ip) :
    (rl.Allow k t).1.entries ip = rl.entries ip ∧ (rl.Allow k t).1.limit = rl.limit ∧
    (rl.Allow k t).1.window = rl.window := by
  have hne : ip ≠ k := fun e => h e.symm
  unfold RateLimiter.Allow
  cases hk : rl.entries k with
  | none => simp [RateLimiter.store, hne]
  | some e =>
    simp only
    split_ifs <;> simp [RateLimiter.store, hne]

theorem allow_open (rl : RateLimiter) (ip : GoString) (t : Int)
    (h : rl.entries ip = none ∨ ∃ e, rl.entries ip = some e ∧ e.expiresAt < t) :
    rl.Allow ip t = (rl.store ip { count := 1, expiresAt := t + rl.window }, true) := by
  unfold RateLimiter.Allow
  rcases h with h | ⟨e, he, hlt⟩
  · simp [h]
  · simp [he, hlt]

theorem allow_within (rl : RateLimiter) (ip : GoString) (t : Int) (e : rateEntry)
    (he : rl.entries ip = some e) (ht : t ≤ e.expiresAt) :
    rl.Allow ip t = if e.count ≥ rl.limit then (rl, false)
      else (rl.store ip { e with count := e.count + 1 }, true) := by
  unfold RateLimiter.Allow
  have : ¬ t > e.expiresAt := by omega
  simp [he, this]

/-- Within a window: call number `i` from now on is allowed iff the count
before it, `j + i`, is below the limit; the count ends at the limit or at
`j` plus the number of calls, and the expiry stays. -/
theorem run_within (ip : GoString) (E : Int) :
    ∀ (cs : List (GoString × Int)) (rl : RateLimiter) (j : Int),
      rl.entries ip = some { count := j, expiresAt := E } → j ≤ rl.limit →
      (∀ c ∈ cs, c.1 = ip → c.2 ≤ E) →
      resultsFor ip cs (rl.run cs).2
        = (List.range (callsFor ip cs)).map (fun (i : Nat) => decide (j + (i : Int) < rl.limit)) ∧
      (rl.run cs).1.entries ip
        = some { count := min rl.limit (j + (callsFor ip cs : Int)), expiresAt := E } ∧
      (rl.run cs).1.limit = rl.limit ∧ (rl.run cs).1.window = rl.window := by
  intro cs
  induction cs with
  | nil =>
    intro rl j he hj _
    refine ⟨rfl, ?_, rfl, rfl⟩
    simp only [RateLimiter.run, callsFor, List.countP_nil, Nat.cast_zero, add_zero, he]
    rw [min_eq_right hj]
  | cons c r ih =>
    intro rl j he hj hwin
    have hwin' : ∀ c' ∈ r, c'.1 = ip → c'.2 ≤ E :=
      fun c' hc' => hwin c' (List.mem_cons_of_mem _ hc')
    by_cases hc : c.1 = ip
    · have hn : callsFor ip (c :: r) = callsFor ip r + 1 := by
        simp [callsFor, List.countP_cons, hc]
      have hstep := allow_within rl ip c.2 _ he (hwin c (List.mem_cons_self _ _) hc)
      simp only at hstep
      by_cases hfull : j ≥ rl.limit
      · rw [if_pos hfull] at hstep
        have hjeq : j = rl.limit := le_antisymm hj hfull
        obtain ⟨h1, h2, h3, h4⟩ := ih rl j he hj hwin'
        refine ⟨?_, ?_, ?_, ?_⟩
        · simp only [RateLimiter.run, resultsFor, hc, if_true, hstep, h1, hn,
            List.range_succ_eq_map, List.map_cons, List.map_map]
          congr 1
          · simp only [Nat.cast_zero, add_zero]
            exact (decide_eq_false (by omega)).symm
          · apply List.map_congr_left
            intro i _
            simp only [Function.comp]
            rw [decide_eq_false (by omega), decide_eq_false (by push_cast; omega)]
        · simp only [RateLimiter.run, hc, hstep, h2, hn]
          congr 1
          congr 1
          push_cast
          omega
        · simp only [RateLimiter.run, hc, hstep, h3]
        · simp only [RateLimiter.run, hc, hstep, h4]
      · rw [if_neg hfull] at hstep
        have hlt : j < rl.limit := by omega
        have he' : (rl.store ip { count := j + 1, expiresAt := E }).entries ip
            = some { count := j + 1, expiresAt := E } := by
          simp [RateLimiter.store]
        obtain ⟨h1, h2, h3, h4⟩ :=
          ih (rl.store ip { count := j + 1, expiresAt := E }) (j + 1) he' (by
            show j + 1 ≤ rl.limit
            omega) hwin'
        have hl : (rl.store ip { count := j + 1, expiresAt := E }).limit = rl.limit := rfl
        have hw : (rl.store ip { count := j + 1, expiresAt := E }).window = rl.window := rfl
        rw [hl] at h1 h2 h3
        rw [hw] at h4
        refine ⟨?_, ?_, ?_, ?_⟩
        · simp only [RateLimiter.run, resultsFor, hc, if_true, hstep, h1, hn,
            List.range_succ_eq_map, List.map_cons, List.map_map]
          congr 1
          · simp only [Nat.cast_zero, add_zero]
            exact (decide_eq_true hlt).symm
          · apply List.map_congr_left
            intro i _
            simp only [Function.comp]
            congr 1
            push_cast
            apply propext
            constructor <;> intro h <;> omega
        · simp only [RateLimiter.run, hc, hstep, h2, hn]
          congr 1
          congr 1
          push_cast
          omega
        · simp only [RateLimiter.run, hc, hstep, h3]
        · simp only [RateLimiter.run, hc, hstep, h4]
    · have hn : callsFor ip (c :: r) = callsFor ip r := by
        simp [callsFor, List.countP_cons, hc]
      obtain ⟨ho1, ho2, ho3⟩ := allow_other rl c.1 ip c.2 hc
      obtain ⟨h1, h2, h3, h4⟩ := ih (rl.Allow c.1 c.2).1 j (by rw [ho1]; exact he)
        (by rw [ho2]; exact hj) hwin'
      rw [ho2] at h1 h2 h3
      rw [ho3] at h4
      refine ⟨?_, ?_, ?_, ?_⟩
      · simp only [RateLimiter.run, resultsFor, hc, if_false, h1, hn]
      · simp only [RateLimiter.run, h2, hn]
      · simp only [RateLimiter.run, h3]
      · simp only [RateLimiter.run, h4]

/-- C14. Rate limiter window bound, for a limit of at least 1.  A call for `ip`
at `t0` that finds no entry, or one that expired before `t0`, is allowed and
stores the count 1 with the expiry `t0 + window`.  For every sequence of calls
that follows, for any keys, in which the calls for `ip` have clock readings up
to `t0 + window`: of the calls for `ip`, the opening one included, call number
`i` (from 0) is allowed iff `i` is below the limit, and the stored count ends
at the number of these calls or at the limit, with the expiry unchanged; the
next call for `ip` with a clock reading after `t0 + window` is allowed and
stores the count 1 with a new expiry.  A call that is denied leaves the
limiter as it is, and a call for another key leaves the entry of `ip` as it
is. -/
theorem rate_window (rl : RateLimiter) (ip : GoString) (t0 : Int) (hL : 1 ≤ rl.limit)
    (hopen : rl.entries ip = none ∨ ∃ e, rl.entries ip = some e ∧ e.expiresAt < t0) :
    (rl.Allow ip t0).2 = true ∧
    (rl.Allow ip t0).1.entries ip = some { count := 1, expiresAt := t0 + rl.window } ∧
    (∀ cs : List (GoString × Int), (∀ c ∈ cs, c.1 = ip → c.2 ≤ t0 + rl.window) →
      (rl.Allow ip t0).2 :: resultsFor ip cs ((rl.Allow ip t0).1.run cs).2
        = (List.range (callsFor ip cs + 1)).map
            (fun (i : Nat) => decide ((i : Int) < rl.limit)) ∧
      ((rl.Allow ip t0).1.run cs).1.entries ip
        = some { count := min rl.limit (1 + (callsFor ip cs : Int)),
                 expiresAt := t0 + rl.window } ∧
      ∀ t, t0 + rl.window < t →
        (((rl.Allow ip t0).1.run cs).1.Allow ip t).2 = true ∧
        (((rl.Allow ip t0).1.run cs).1.Allow ip t).1.entries ip
          = some { count := 1, expiresAt := t + rl.window }) ∧
    (∀ (rl' : RateLimiter) (e : rateEntry) (t : Int), rl'.entries ip = some e →
      t ≤ e.expiresAt → e.count ≥ rl'.limit → rl'.Allow ip t = (rl', false)) ∧
    (∀ (rl' : RateLimiter) (k : GoString) (t : Int), k ≠ ip →
      (rl'.Allow k t).1.entries ip = rl'.entries ip) := by
  have h0 := allow_open rl ip t0 hopen
  have he1 : (rl.store ip { count := 1, expiresAt := t0 + rl.window }).entries ip
      = some { count := 1, expiresAt := t0 + rl.window } := by
    simp [RateLimiter.store]
  refine ⟨by rw [h0], by rw [h0]; exact he1, ?_, ?_, ?_⟩
  · intro cs hwin
    rw [h0]
    obtain ⟨h1, h2, h3, h4⟩ := run_within ip (t0 + rl.window) cs
      (rl.store ip { count := 1, expiresAt := t0 + rl.window }) 1 he1 hL hwin
    have hl : (rl.store ip { count := 1, expiresAt := t0 + rl.window }).limit = rl.limit := rfl
    have hw : (rl.store ip { count := 1, expiresAt := t0 + rl.window }).window = rl.window :=
      rfl
    rw [hl] at h1 h2 h3
    rw [hw] at h4
    refine ⟨?_, h2, ?_⟩
    · simp only [h1, List.range_succ_eq_map, List.map_cons, List.map_map]
      congr 1
      · exact (decide_eq_true (by simpa using hL)).symm
      · apply List.map_congr_left
        intro i _
        simp only [Function.comp]
        congr 1
        push_cast
        apply propext
        constructor <;> intro h <;> omega
    · intro t ht
      have := allow_open _ ip t (Or.inr ⟨_, h2, ht⟩)
      rw [this, h4]
      exact ⟨rfl, by simp [RateLimiter.store]⟩
  · intro rl' e t he ht hfull
    rw [allow_within rl' ip t e he ht, if_pos hfull]
  · intro rl' k t hk
    exact (allow_other rl' k ip t hk).1

/-- C14 on `authLimiter` and `exampleCalls`: of the twelve calls for the
address within five minutes the first ten are allowed, and a call after the
five minutes is allowed again. -/
theorem rate_window_witness :
    (1 ≤ authLimiter.limit ∧ authLimiter.entries (ascii "10.0.0.1") = none ∧
      ∀ c ∈ exampleCalls, c.1 = ascii "10.0.0.1" → c.2 ≤ 0 + authLimiter.window) ∧
    (authLimiter.Allow (ascii "10.0.0.1") 0).2
        :: resultsFor (ascii "10.0.0.1") exampleCalls
          ((authLimiter.Allow (ascii "10.0.0.1") 0).1.run exampleCalls).2
      = [true, true, true, true, true, true, true, true, true, true, false, false] ∧
    ((authLimiter.Allow (ascii "10.0.0.1") 0).1.run exampleCalls).1.entries (ascii "10.0.0.1")
      = some { count := min authLimiter.limit
                 (1 + (callsFor (ascii "10.0.0.1") exampleCalls : Int)),
               expiresAt := 0 + authLimiter.window } ∧
    ((((authLimiter.Allow (ascii "10.0.0.1") 0).1.run exampleCalls).1.Allow
        (ascii "10.0.0.1") (300 * Second + 1)).2 = true ∧
      (((authLimiter.Allow (ascii "10.0.0.1") 0).1.run exampleCalls).1.Allow
        (ascii "10.0.0.1") (300 * Second + 1)).1.entries (ascii "10.0.0.1")
        = some { count := 1, expiresAt := 300 * Second + 1 + authLimiter.window }) :=
  ⟨⟨by decide, rfl, by decide⟩, by decide,
    ((rate_window authLimiter (ascii "10.0.0.1") 0 (by decide) (Or.inl rfl)).2.2.1
      exampleCalls (by decide)).2.1,
    ((rate_window authLimiter (ascii "10.0.0.1") 0 (by decide) (Or.inl rfl)).2.2.1
      exampleCalls (by decide)).2.2 (300 * Second + 1) (by decide)⟩

end HWTest
